import Mathlib

/-!
gmmpool: a pool of fixed-capacity byte buffers

A shallow embedding of `pool.go`.

* Go's `int` is the 64-bit one: a value of type `Int` between `-2^63` and
  `2^63 - 1` (`IsInt`).  The products the code computes from the arguments of
  `NewPool`, `num * size` and `i * size`, are wrapped to that range
  (`wrapInt`); the other sums and differences are lengths and offsets inside
  an allocation the code has made, and do not leave it.
* A Go slice is a window `ptr, len, cap` on a flat byte memory; `make`
  appends a fresh zeroed block to that memory.  `make` panics on a negative
  length and on a length that takes more than `maxAlloc` bytes, as the
  runtime does; an allocation within that limit is granted, so the memory
  of the machine is not bounded in this development.
* A `*Buffer` is an index into an arena of `Buffer` records; `nil` is `none`.
* A run-time panic is `none`.
* A slice handed in by the caller (`p` of `Read` and `Write`, the source of
  `ReadAll`) is given by its elements; it lies outside the modelled memory.
-/

namespace Gmmpool

/-! ## Bytes, slices, memory -/

abbrev Byte := UInt8

/-- Go value of type `error` other than `nil`: the two sentinels the code
compares with, and any other error a source may report. -/
inductive Err where
  | EOF
  | ErrBufNotEnough
  | other (code : Nat)
  deriving DecidableEq, Repr

/-- A `[]byte` whose backing array lies in the modelled memory: address of
element 0, length and capacity. -/
structure Slice where
  ptr : Nat
  len : Nat
  cap : Nat
  deriving DecidableEq, Repr

/-- The slice expression `s[lo:hi]`; it panics unless `0 <= lo <= hi <= cap(s)`. -/
def Slice.slice (s : Slice) (lo hi : Int) : Option Slice :=
  if 0 ≤ lo ∧ lo ≤ hi ∧ hi ≤ (s.cap : Int) then
    some { ptr := s.ptr + lo.toNat, len := (hi - lo).toNat, cap := s.cap - lo.toNat }
  else none

/-- The elements of a slice, read from memory. -/
def Slice.bytes (s : Slice) (mem : List Byte) : List Byte :=
  (mem.drop s.ptr).take s.len

/-- Overwrite memory from address `a` on with the bytes `p`. -/
def store (mem : List Byte) (a : Nat) (p : List Byte) : List Byte :=
  mem.take a ++ (p ++ mem.drop (a + p.length))

/-- The builtin `copy(dst, src)` for a destination in memory: it moves
`min(len(dst), len(src))` elements and returns the memory and that count. -/
def copyIn (mem : List Byte) (dst : Slice) (src : List Byte) : List Byte × Int :=
  (store mem dst.ptr (src.take dst.len), ((src.take dst.len).length : Int))

/-- The builtin `copy(dst, src)` for a destination held by the caller: the
first `min(len(dst), len(src))` elements of `dst` are replaced. -/
def copyOut (dst : List Byte) (src : List Byte) : List Byte × Int :=
  (src.take dst.length ++ dst.drop (src.take dst.length).length,
    ((src.take dst.length).length : Int))

/-! ## Buffer -/

/-- The struct `Buffer`. -/
structure Buffer where
  buf : Slice
  next : Option Nat
  off : Int
  size : Int
  deriving DecidableEq, Repr

/-- `Buffer.Bytes`: the slice `b.buf`. -/
def Buffer.Bytes (b : Buffer) : Slice := b.buf

/-- `Buffer.Reset`: `b.buf = b.buf[:0]; b.off = 0` (`[:0]` is always in range). -/
def Buffer.Reset (b : Buffer) : Buffer :=
  { b with buf := { b.buf with len := 0 }, off := 0 }

/-- `Buffer.Read`: the buffer afterwards, the destination afterwards, `n` and `err`. -/
def Buffer.Read (b : Buffer) (mem : List Byte) (p : List Byte) :
    Option (Buffer × List Byte × Int × Option Err) :=
  if b.off ≥ (b.buf.len : Int) then
    if p.length = 0 then some (b.Reset, p, 0, none)
    else some (b.Reset, p, 0, some Err.EOF)
  else
    match b.buf.slice b.off b.buf.len with
    | none => none
    | some src =>
      let r := copyOut p (src.bytes mem)
      some (b, r.1, r.2, none)

/-- `Buffer.Write`: the buffer and the memory afterwards, `n` and `err`. -/
def Buffer.Write (b : Buffer) (mem : List Byte) (p : List Byte) :
    Option (Buffer × List Byte × Int × Option Err) :=
  let need_size : Int := (p.length : Int) + (b.buf.len : Int)
  if need_size > b.size then some (b, mem, 0, some Err.ErrBufNotEnough)
  else
    let m : Int := b.buf.len
    match b.buf.slice 0 need_size with
    | none => none
    | some s =>
      match s.slice m need_size with
      | none => none
      | some dst =>
        let r := copyIn mem dst p
        some ({ b with buf := s }, r.1, r.2, none)

/-! ## Sources (`io.Reader`) -/

/-- What one call `r.Read(dst)` does: the state of the source afterwards,
the bytes it stored at the start of `dst`, and the `n` and `err` it returned. -/
structure ReadResult (σ : Type) where
  st : σ
  data : List Byte
  n : Int
  err : Option Err

/-- An `io.Reader` with state `σ`; a call sees the length of its destination. -/
abbrev Reader (σ : Type) := σ → Nat → ReadResult σ

/-- State of a `bytes.Reader`: the sequence `s` and the read index `i`. -/
structure BytesReader where
  s : List Byte
  i : Nat
  deriving DecidableEq, Repr

/-- Modelled from the spec: `bytes.Reader.Read` of Go's standard library, which
is not part of this repository.  With nothing left it returns `0, io.EOF`;
otherwise it copies `min(len(dst), remaining)` bytes, advances, and returns a
nil error. -/
def BytesReader.Read : Reader BytesReader := fun r dstLen =>
  if r.i ≥ r.s.length then { st := r, data := [], n := 0, err := some Err.EOF }
  else
    let d := (r.s.drop r.i).take dstLen
    { st := { r with i := r.i + d.length }, data := d, n := (d.length : Int), err := none }

/-- `bytes.NewReader(s)`. -/
def BytesReader.new (s : List Byte) : BytesReader := { s := s, i := 0 }

/-- Why a run of `ReadAll` gave no result: a panic, or the iteration budget
of the model ran out. -/
inductive Fault where
  | panicked
  | outOfFuel
  deriving DecidableEq, Repr

/-- What `ReadAll` hands back, with the state it leaves behind. -/
structure ReadAllResult (σ : Type) where
  b : Buffer
  mem : List Byte
  src : σ
  ret : Slice
  err : Option Err

/-- The `for` loop of `Buffer.ReadAll`; each unit of fuel pays for one iteration. -/
def Buffer.readAllLoop {σ : Type} (rd : Reader σ) :
    Nat → Buffer → List Byte → σ → Except Fault (ReadAllResult σ)
  | 0, _, _, _ => .error Fault.outOfFuel
  | fuel + 1, b, mem, r =>
    match b.buf.slice b.buf.len b.size with
    | none => .error Fault.panicked
    | some dst =>
      let res := rd r dst.len
      let mem1 := store mem dst.ptr (res.data.take dst.len)
      match b.buf.slice 0 ((b.buf.len : Int) + res.n) with
      | none => .error Fault.panicked
      | some s =>
        let b1 : Buffer := { b with buf := s }
        if res.err = some Err.EOF then
          .ok { b := b1, mem := mem1, src := res.st, ret := b1.Bytes, err := none }
        else if res.err ≠ none then
          .ok { b := b1, mem := mem1, src := res.st, ret := b1.Bytes, err := res.err }
        else if res.n = 0 ∧ (b1.buf.len : Int) = b1.size then
          .ok { b := b1, mem := mem1, src := res.st, ret := b1.Bytes,
                err := some Err.ErrBufNotEnough }
        else Buffer.readAllLoop rd fuel b1 mem1 res.st

/-- `Buffer.ReadAll`. -/
def Buffer.ReadAll {σ : Type} (rd : Reader σ) (fuel : Nat) (b : Buffer) (mem : List Byte)
    (r : σ) : Except Fault (ReadAllResult σ) :=
  Buffer.readAllLoop rd fuel (if b.off ≥ b.size then b.Reset else b) mem r

/-- A buffer as `grow` makes them and the methods keep them: the backing
window lies in memory, `0 <= len(buf) <= size <= cap(buf)`, and the cursor is
not negative. -/
def Buffer.WF (b : Buffer) (mem : List Byte) : Prop :=
  b.buf.ptr + b.buf.cap ≤ mem.length ∧ (b.buf.len : Int) ≤ b.size ∧
    b.size ≤ (b.buf.cap : Int) ∧ 0 ≤ b.off

instance (b : Buffer) (mem : List Byte) : Decidable (b.WF mem) := by
  unfold Buffer.WF; infer_instance

/-! ## Machine integers and allocation -/

/-- The values of Go's `int` on a 64-bit platform. -/
def IsInt (x : Int) : Prop := -9223372036854775808 ≤ x ∧ x < 9223372036854775808

instance (x : Int) : Decidable (IsInt x) := by
  unfold IsInt; infer_instance

/-- The `int` that the exact result `x` of an `int` operation wraps to:
the value congruent to `x` modulo `2^64` between `-2^63` and `2^63 - 1`. -/
def wrapInt (x : Int) : Int :=
  (x + 9223372036854775808) % 18446744073709551616 - 9223372036854775808

/-- The constant `maxAlloc` of the runtime on a 64-bit platform, `2^48`:
`make` panics when the elements asked for take more bytes than this. -/
def maxAlloc : Int := 281474976710656

/-- The size in bytes of one `Buffer` record: a slice header (24), a pointer
(8) and two `int`s (16). -/
def sizeofBuffer : Int := 48

/-! ## Pool -/

/-- The heap: the arena of `Buffer` records (a `*Buffer` is an index into
it) and the byte memory behind every slice. -/
structure Heap where
  bufs : List Buffer
  mem : List Byte
  deriving DecidableEq, Repr

/-- The struct `Pool`; the mutex plays no part in a sequential run. -/
structure Pool where
  free : Option Nat
  max : Int
  num : Int
  size : Int
  deriving DecidableEq, Repr

/-- The records `grow` writes into `bs`, from `bs[i-1]` on, where `k` passes
of the loop `for ; i < p.num; i++` remain: each pass sets `buf`, `size` and
`next = &bs[i]`; the statements after the loop set the last record, with
`next = nil`.  The records come zeroed from `make`, so `off` is 0.  The
counter `i` runs from 1 to `p.num`; the two products are `int` products. -/
def Pool.growFill (p : Pool) (buf : Slice) (bs : Nat) : Nat → Nat → Option (List Buffer)
  | 0, i =>
    match buf.slice (wrapInt (((i : Int) - 1) * p.size)) (wrapInt ((i : Int) * p.size)) with
    | none => none
    | some s => some [{ buf := s, next := none, off := 0, size := p.size }]
  | k + 1, i =>
    match buf.slice (wrapInt (((i : Int) - 1) * p.size)) (wrapInt ((i : Int) * p.size)) with
    | none => none
    | some s =>
      match Pool.growFill p buf bs k (i + 1) with
      | none => none
      | some rest => some ({ buf := s, next := some (bs + i), off := 0, size := p.size } :: rest)

/-- `Pool.grow`: `make([]byte, p.max)` panics when `p.max < 0` or `p.max`
bytes are more than `maxAlloc`, `make([]Buffer, p.num)` when `p.num < 0` or
`p.num` records are more than `maxAlloc` bytes, `&bs[0]` when `p.num = 0`. -/
def Pool.grow (p : Pool) (h : Heap) : Option (Pool × Heap) :=
  if p.max < 0 ∨ maxAlloc < p.max then none
  else if p.num < 0 ∨ maxAlloc < p.num * sizeofBuffer then none
  else if p.num = 0 then none
  else
    let buf : Slice := { ptr := h.mem.length, len := p.max.toNat, cap := p.max.toNat }
    let bs := h.bufs.length
    match Pool.growFill p buf bs (p.num.toNat - 1) 1 with
    | none => none
    | some l =>
      some ({ p with free := some bs },
        { bufs := h.bufs ++ l, mem := h.mem ++ List.replicate p.max.toNat 0 })

/-- `Pool.init`: `p.max = num * size` is an `int` product. -/
def Pool.init (p : Pool) (num size : Int) (h : Heap) : Option (Pool × Heap) :=
  Pool.grow { p with num := num, size := size, max := wrapInt (num * size) } h

/-- `NewPool`. -/
def NewPool (num size : Int) (h : Heap) : Option (Pool × Heap) :=
  Pool.init { free := none, max := 0, num := 0, size := 0 } num size h

/-- The tail of `Pool.Get` once `b` is not nil: `p.free = b.next; b.Reset()`. -/
def Pool.pop (p : Pool) (h : Heap) (b : Nat) : Option (Nat × Pool × Heap) :=
  match h.bufs[b]? with
  | none => none
  | some bv => some (b, { p with free := bv.next }, { h with bufs := h.bufs.set b bv.Reset })

/-- `Pool.Get`: the buffer handed out, the pool and the heap afterwards. -/
def Pool.Get (p : Pool) (h : Heap) : Option (Nat × Pool × Heap) :=
  match p.free with
  | some b => Pool.pop p h b
  | none =>
    match Pool.grow p h with
    | none => none
    | some (p1, h1) =>
      match p1.free with
      | none => none
      | some b => Pool.pop p1 h1 b

/-- `Pool.Put` of a non-nil `b`: `b.next = p.free; p.free = b`. -/
def Pool.Put (p : Pool) (h : Heap) (b : Nat) : Option (Pool × Heap) :=
  match h.bufs[b]? with
  | none => none
  | some bv =>
    some ({ p with free := some b }, { h with bufs := h.bufs.set b { bv with next := p.free } })

/-- `k` calls of `Pool.Get` in a row: the buffers handed out, first call
first, and the pool and the heap afterwards. -/
def Pool.getN : Nat → Pool → Heap → Option (List Nat × Pool × Heap)
  | 0, p, h => some ([], p, h)
  | k + 1, p, h =>
    match p.Get h with
    | none => none
    | some (b, p1, h1) =>
      match Pool.getN k p1 h1 with
      | none => none
      | some (bs, p2, h2) => some (b :: bs, p2, h2)

/-- That `l` is the free list starting at `free`: following `next` from
`free` visits exactly the buffers of `l`, in order, and then reaches `nil`. -/
def isFreeList (h : Heap) : Option Nat → List Nat → Bool
  | none, [] => true
  | some b, x :: l =>
    x == b &&
      (match h.bufs[b]? with
       | some bv => isFreeList h bv.next l
       | none => false)
  | _, _ => false

/-- A pool in use: the pool, the heap, and the buffers handed out by `Get`
and not yet given back by `Put`. -/
structure World where
  pool : Pool
  heap : Heap
  out : List Nat

/-- The states a pool made by `NewPool num size`, with `int`s `num` and
`size`, reaches.  `get` and `put` are the calls of `Pool.Get` and of
`Pool.Put` on a checked-out buffer; `use` is whatever the holder of a
checked-out buffer does to it through the exported methods, which change
`buf`, `off` and memory and never `next` or `size`. -/
inductive Reach (num size : Int) : World → Prop where
  | init (h0 : Heap) (p : Pool) (h : Heap) :
      IsInt num → IsInt size → NewPool num size h0 = some (p, h) → Reach num size ⟨p, h, []⟩
  | get (w : World) (b : Nat) (p1 : Pool) (h1 : Heap) :
      Reach num size w → w.pool.Get w.heap = some (b, p1, h1) →
      Reach num size ⟨p1, h1, b :: w.out⟩
  | put (w : World) (b : Nat) (p1 : Pool) (h1 : Heap) :
      Reach num size w → b ∈ w.out → w.pool.Put w.heap b = some (p1, h1) →
      Reach num size ⟨p1, h1, w.out.erase b⟩
  | use (w : World) (b : Nat) (bv bv1 : Buffer) (mem1 : List Byte) :
      Reach num size w → b ∈ w.out → w.heap.bufs[b]? = some bv →
      bv1.next = bv.next → bv1.size = bv.size →
      Reach num size ⟨w.pool, ⟨w.heap.bufs.set b bv1, mem1⟩, w.out⟩

/-- The pool `NewPool(2, 3)` on an empty heap. -/
def world0 : World :=
  { pool := { free := some 0, max := 6, num := 2, size := 3 },
    heap := { bufs := [{ buf := { ptr := 0, len := 3, cap := 6 }, next := some 1, off := 0, size := 3 },
                       { buf := { ptr := 3, len := 3, cap := 3 }, next := none, off := 0, size := 3 }],
              mem := [0, 0, 0, 0, 0, 0] },
    out := [] }

/-- The pool `NewPool(2, 3)` after one `Get`: buffer 0 is checked out. -/
def world1 : World :=
  { pool := { free := some 1, max := 6, num := 2, size := 3 },
    heap := { bufs := [{ buf := { ptr := 0, len := 0, cap := 6 }, next := some 1, off := 0, size := 3 },
                       { buf := { ptr := 3, len := 3, cap := 3 }, next := none, off := 0, size := 3 }],
              mem := [0, 0, 0, 0, 0, 0] },
    out := [0] }

/-- The pool `NewPool(2, 3)` after two `Get`s: both buffers of the first
batch are checked out and the free list is empty. -/
def world2 : World :=
  { pool := { free := none, max := 6, num := 2, size := 3 },
    heap := { bufs := [{ buf := { ptr := 0, len := 0, cap := 6 }, next := some 1, off := 0, size := 3 },
                       { buf := { ptr := 3, len := 0, cap := 3 }, next := none, off := 0, size := 3 }],
              mem := [0, 0, 0, 0, 0, 0] },
    out := [1, 0] }

/-! ## MultiLevelPool -/

/-- The struct `PoolOpt`. -/
structure PoolOpt where
  Num : Int
  Size : Int
  deriving DecidableEq, Repr

/-- `PoolOptList.Less`, on the elements. -/
def PoolOpt.Less (a b : PoolOpt) : Bool := a.Size < b.Size

/-- What `sort.Sort(optList)` of the standard library guarantees for a
function taken in its place: the result is a rearrangement of the input in
which no element is `Less` than one before it. -/
def SortsBySize (srt : List PoolOpt → List PoolOpt) : Prop :=
  ∀ l, (srt l).Perm l ∧ (srt l).Pairwise (fun a b => ¬ (PoolOpt.Less b a = true))

/-- An insertion sort by `Size`, one function that `SortsBySize`. -/
def sortSort (l : List PoolOpt) : List PoolOpt :=
  l.insertionSort (fun a b => a.Size ≤ b.Size)

/-- The struct `MultiLevelPool`: `pools[i]` stands for the pool `*pools[i]`. -/
structure MultiLevelPool where
  pools : List Pool
  deriving DecidableEq, Repr

/-- The loop of `NewMultiLevelPool`: one `NewPool` per option, in order. -/
def buildPools : List PoolOpt → Heap → Option (List Pool × Heap)
  | [], h => some ([], h)
  | o :: os, h =>
    match NewPool o.Num o.Size h with
    | none => none
    | some (p, h1) =>
      match buildPools os h1 with
      | none => none
      | some (ps, h2) => some (p :: ps, h2)

/-- `NewMultiLevelPool`, with the sorting function of the library as `srt`. -/
def NewMultiLevelPool (srt : List PoolOpt → List PoolOpt) (opts : List PoolOpt) (h : Heap) :
    Option (MultiLevelPool × Heap) :=
  match buildPools (srt opts) h with
  | none => none
  | some (ps, h1) => some ({ pools := ps }, h1)

/-- The loop of `MultiLevelPool.Get` over the pools not yet looked at: the
result (`none` is `nil`), those pools afterwards, the heap afterwards. -/
def MultiLevelPool.getLoop : List Pool → Int → Heap → Option (Option Nat × List Pool × Heap)
  | [], _, h => some (none, [], h)
  | p :: ps, size, h =>
    if p.size ≥ size then
      match p.Get h with
      | none => none
      | some (b, p1, h1) => some (some b, p1 :: ps, h1)
    else
      match MultiLevelPool.getLoop ps size h with
      | none => none
      | some (r, ps1, h1) => some (r, p :: ps1, h1)

/-- `MultiLevelPool.Get`. -/
def MultiLevelPool.Get (mlp : MultiLevelPool) (size : Int) (h : Heap) :
    Option (Option Nat × MultiLevelPool × Heap) :=
  match MultiLevelPool.getLoop mlp.pools size h with
  | none => none
  | some (r, ps, h1) => some (r, { pools := ps }, h1)

/-- The loop of `MultiLevelPool.Put` over the pools not yet looked at; `b.size`
is read anew in each pass, and the loop does not stop at a match. -/
def MultiLevelPool.putLoop : List Pool → Nat → Heap → Option (List Pool × Heap)
  | [], _, h => some ([], h)
  | p :: ps, b, h =>
    match h.bufs[b]? with
    | none => none
    | some bv =>
      if p.size = bv.size then
        match p.Put h b with
        | none => none
        | some (p1, h1) =>
          match MultiLevelPool.putLoop ps b h1 with
          | none => none
          | some (ps1, h2) => some (p1 :: ps1, h2)
      else
        match MultiLevelPool.putLoop ps b h with
        | none => none
        | some (ps1, h2) => some (p :: ps1, h2)

/-- `MultiLevelPool.Put` of a non-nil `b`. -/
def MultiLevelPool.Put (mlp : MultiLevelPool) (b : Nat) (h : Heap) :
    Option (MultiLevelPool × Heap) :=
  match MultiLevelPool.putLoop mlp.pools b h with
  | none => none
  | some (ps, h1) => some ({ pools := ps }, h1)

/-- The heap before anything was allocated. -/
def emptyHeap : Heap := { bufs := [], mem := [] }

/-- The parameters of a pool for which `grow` has room: `max` is the exact
product `num * size`, and both allocations are within the runtime's limit. -/
def Pool.Fits (p : Pool) : Prop :=
  p.max = p.num * p.size ∧ p.max ≤ maxAlloc ∧ p.num * sizeofBuffer ≤ maxAlloc

/-- The invariant of a pool in use: the parameters are those `init` stored,
no buffer is checked out twice, every checked-out buffer exists and has the
size of the pool, and the free list is a chain `l` that ends in `nil`, repeats
no buffer, holds no checked-out buffer, and holds only buffers of the pool's size. -/
def PoolInv (w : World) : Prop :=
  1 ≤ w.pool.num ∧ 0 ≤ w.pool.size ∧ w.pool.Fits ∧
  w.out.Nodup ∧
  (∀ b ∈ w.out, ∃ bv, w.heap.bufs[b]? = some bv ∧ bv.size = w.pool.size) ∧
  ∃ l, isFreeList w.heap w.pool.free l = true ∧ l.Nodup ∧ (∀ b ∈ l, b ∉ w.out) ∧
    (∀ b ∈ l, ∃ bv, w.heap.bufs[b]? = some bv ∧ bv.size = w.pool.size)

/-- A multi-level pool in use: the pool, the heap, and the buffers handed out
by `Get` and not yet given back by `Put`. -/
structure MWorld where
  mlp : MultiLevelPool
  heap : Heap
  out : List Nat

/-- The states a multi-level pool made by `NewMultiLevelPool` from `opts`,
a list of pairs of `int`s, reaches: `get` is a call of `Get` that returns a
buffer, `getNil` one that returns `nil`, `put` a call of `Put` on a
checked-out buffer, and `use` is whatever the holder of a checked-out buffer
does to it through the exported methods. -/
inductive MReach (srt : List PoolOpt → List PoolOpt) (opts : List PoolOpt) : MWorld → Prop where
  | init (h0 : Heap) (mlp : MultiLevelPool) (h : Heap) :
      (∀ o ∈ opts, IsInt o.Num ∧ IsInt o.Size) →
      NewMultiLevelPool srt opts h0 = some (mlp, h) → MReach srt opts ⟨mlp, h, []⟩
  | get (w : MWorld) (size : Int) (b : Nat) (mlp1 : MultiLevelPool) (h1 : Heap) :
      MReach srt opts w → w.mlp.Get size w.heap = some (some b, mlp1, h1) →
      MReach srt opts ⟨mlp1, h1, b :: w.out⟩
  | getNil (w : MWorld) (size : Int) (mlp1 : MultiLevelPool) (h1 : Heap) :
      MReach srt opts w → w.mlp.Get size w.heap = some (none, mlp1, h1) →
      MReach srt opts ⟨mlp1, h1, w.out⟩
  | put (w : MWorld) (b : Nat) (mlp1 : MultiLevelPool) (h1 : Heap) :
      MReach srt opts w → b ∈ w.out → w.mlp.Put b w.heap = some (mlp1, h1) →
      MReach srt opts ⟨mlp1, h1, w.out.erase b⟩
  | use (w : MWorld) (b : Nat) (bv bv1 : Buffer) (mem1 : List Byte) :
      MReach srt opts w → b ∈ w.out → w.heap.bufs[b]? = some bv →
      bv1.next = bv.next → bv1.size = bv.size →
      MReach srt opts ⟨w.mlp, ⟨w.heap.bufs.set b bv1, mem1⟩, w.out⟩

/-- The options of the example of the specification, sizes 10 and 20, given
largest first. -/
def opts1020 : List PoolOpt := [{ Num := 1, Size := 20 }, { Num := 1, Size := 10 }]

/-- The multi-level pool `NewMultiLevelPool(opts1020)` on an empty heap. -/
def mworld0 : MWorld :=
  { mlp := { pools := [{ free := some 0, max := 10, num := 1, size := 10 },
                       { free := some 1, max := 20, num := 1, size := 20 }] },
    heap := { bufs := [{ buf := { ptr := 0, len := 10, cap := 10 }, next := none, off := 0, size := 10 },
                       { buf := { ptr := 10, len := 20, cap := 20 }, next := none, off := 0, size := 20 }],
              mem := List.replicate 30 0 },
    out := [] }

/-- The `size` of the buffer a call of `MultiLevelPool.Get` returned, read
from the heap the call left; `none` for `nil`. -/
def gotSize (r : Option (Option Nat × MultiLevelPool × Heap)) : Option (Option Int) :=
  match r with
  | none => none
  | some (none, _, _) => some none
  | some (some b, _, h) =>
    match h.bufs[b]? with
    | none => none
    | some bv => some (some bv.size)

/-- Buffer `b` was made after the first `base` records of the arena, exists,
and has size `s`. -/
def Good (base : Nat) (h : Heap) (b : Nat) (s : Int) : Prop :=
  base ≤ b ∧ ∃ bv, h.bufs[b]? = some bv ∧ bv.size = s

/-- Every link of a buffer made after the first `base` records leads to a
buffer of the same size, made after them too. -/
def LinksOK (base : Nat) (h : Heap) : Prop :=
  ∀ b bv, base ≤ b → h.bufs[b]? = some bv → ∀ n, bv.next = some n → Good base h n bv.size

/-- The parameters of a pool are those `init` stored, and the head of its
free list is a buffer of its size. -/
def LevelOK (base : Nat) (h : Heap) (p : Pool) : Prop :=
  1 ≤ p.num ∧ 0 ≤ p.size ∧ p.Fits ∧ ∀ b, p.free = some b → Good base h b p.size

/-- Heap `h1` extends heap `h`: every buffer made after the first `base`
records is still there, with its size. -/
def Ext (base : Nat) (h h1 : Heap) : Prop :=
  base ≤ h1.bufs.length ∧ ∀ x s, Good base h x s → Good base h1 x s

/-- In the list `sizes`, `c` is the first size that is at least `s`. -/
def FirstFit (sizes : List Int) (s c : Int) : Prop :=
  ∃ pre post, sizes = pre ++ c :: post ∧ (∀ x ∈ pre, x < s) ∧ s ≤ c

/-- The invariant of a multi-level pool in use. -/
def MInv (base : Nat) (sizes : List Int) (w : MWorld) : Prop :=
  base ≤ w.heap.bufs.length ∧ LinksOK base w.heap ∧ (∀ p ∈ w.mlp.pools, LevelOK base w.heap p) ∧
  (∀ b ∈ w.out, ∃ bv, base ≤ b ∧ w.heap.bufs[b]? = some bv) ∧
  w.mlp.pools.map Pool.size = sizes

/-- Two options of the same size. -/
def optsDup : List PoolOpt := [{ Num := 1, Size := 10 }, { Num := 1, Size := 10 }]

/-- The heap of the multi-level pool `NewMultiLevelPool(optsDup)`, two
buffers of size 10, where buffer 0 has length `len0` and link `next0`. -/
def heapDup (len0 : Nat) (next0 : Option Nat) : Heap :=
  { bufs := [{ buf := { ptr := 0, len := len0, cap := 10 }, next := next0, off := 0, size := 10 },
             { buf := { ptr := 10, len := 10, cap := 10 }, next := none, off := 0, size := 10 }],
    mem := List.replicate 20 0 }

/-- The two levels of `NewMultiLevelPool(optsDup)` with free-list heads `f0` and `f1`. -/
def mlpDup (f0 f1 : Option Nat) : MultiLevelPool :=
  { pools := [{ free := f0, max := 10, num := 1, size := 10 },
              { free := f1, max := 10, num := 1, size := 10 }] }

/-- The states of the run `Get(5)`, `Put(0)`, `Get(5)`, `Put(0)`, `Get(5)` on
`NewMultiLevelPool(optsDup)`: every `Get` returns buffer 0, every `Put` gives it
back.  State `k` is the one after the first `k` calls. -/
def mworldDup : Nat → MWorld
  | 0 => { mlp := mlpDup (some 0) (some 1), heap := heapDup 10 none, out := [] }
  | 1 => { mlp := mlpDup none (some 1), heap := heapDup 0 none, out := [0] }
  | 2 => { mlp := mlpDup (some 0) (some 0), heap := heapDup 0 (some 1), out := [] }
  | 3 => { mlp := mlpDup (some 1) (some 0), heap := heapDup 0 (some 1), out := [0] }
  | 4 => { mlp := mlpDup (some 0) (some 0), heap := heapDup 0 (some 0), out := [] }
  | _ => { mlp := mlpDup (some 0) (some 0), heap := heapDup 0 (some 0), out := [0] }

/-- A source that never reports more bytes than its destination holds, nor
fewer than none: `0 <= n <= len(dst)` on every call. -/
def Bounded {σ : Type} (rd : Reader σ) : Prop :=
  ∀ st k, 0 ≤ (rd st k).n ∧ (rd st k).n ≤ (k : Int)

/-- A source that keeps the contract of `io.Reader`: the count it returns is
the number of bytes it stored, at most `len(dst)`. -/
def Lawful {σ : Type} (rd : Reader σ) : Prop :=
  ∀ st k, (rd st k).n = ((rd st k).data.length : Int) ∧ (rd st k).data.length ≤ k

/-- A source that, on every call with a destination that is not empty,
delivers at least one byte or returns an error. -/
def Progress {σ : Type} (rd : Reader σ) : Prop :=
  ∀ st k, 0 < k → (rd st k).err ≠ none ∨ 1 ≤ (rd st k).n

/-- The source `rd` with a record of what it did: the bytes it has
delivered so far and the number of calls made to it. -/
def traced {σ : Type} (rd : Reader σ) : Reader (σ × List Byte × Nat) := fun st k =>
  { st := ((rd st.1 k).st, st.2.1 ++ (rd st.1 k).data, st.2.2 + 1),
    data := (rd st.1 k).data, n := (rd st.1 k).n, err := (rd st.1 k).err }

/-- The result of `ReadAll` on a traced source, with the record dropped. -/
def ReadAllResult.untraced {σ : Type} (r : ReadAllResult (σ × List Byte × Nat)) :
    ReadAllResult σ :=
  { b := r.b, mem := r.mem, src := r.src.1, ret := r.ret, err := r.err }

/-- A source that plays a script: each call takes the next entry, delivers
its bytes, cut to the destination, and returns its error; when the script is
over it returns `0, io.EOF`. -/
def ScriptReader.Read : Reader (List (List Byte × Option Err)) := fun st k =>
  match st with
  | [] => { st := [], data := [], n := 0, err := some Err.EOF }
  | (d, e) :: rest => { st := rest, data := d.take k, n := ((d.take k).length : Int), err := e }

/-- The chunks `ds`, delivered one per call with a nil error into a buffer of
capacity `size` that holds `len` bytes, all fit, and none of these calls makes
`ReadAll` report the buffer full (a call that returns 0 bytes when no room is left). -/
def passes (len : Nat) (size : Int) : List (List Byte) → Prop
  | [] => True
  | d :: ds =>
    ((len + d.length : Nat) : Int) ≤ size ∧
      ¬ (d.length = 0 ∧ ((len + d.length : Nat) : Int) = size) ∧
      passes (len + d.length) size ds

/-- The states a pool made by `NewPool num size`, with `int`s `num` and
`size`, on the heap `h0` reaches when its buffers are used through the
exported methods: `Get`, `Put` of a checked-out buffer, and `Reset`, `Read`,
`Write` and `ReadAll` (from a source that reports between 0 and `len(dst)`
bytes) on a checked-out buffer. -/
inductive Run (num size : Int) (h0 : Heap) : World → Prop where
  | init (p : Pool) (h : Heap) :
      IsInt num → IsInt size → NewPool num size h0 = some (p, h) → Run num size h0 ⟨p, h, []⟩
  | get (w : World) (b : Nat) (p1 : Pool) (h1 : Heap) :
      Run num size h0 w → w.pool.Get w.heap = some (b, p1, h1) →
      Run num size h0 ⟨p1, h1, b :: w.out⟩
  | put (w : World) (b : Nat) (p1 : Pool) (h1 : Heap) :
      Run num size h0 w → b ∈ w.out → w.pool.Put w.heap b = some (p1, h1) →
      Run num size h0 ⟨p1, h1, w.out.erase b⟩
  | reset (w : World) (b : Nat) (bv : Buffer) :
      Run num size h0 w → b ∈ w.out → w.heap.bufs[b]? = some bv →
      Run num size h0 ⟨w.pool, ⟨w.heap.bufs.set b bv.Reset, w.heap.mem⟩, w.out⟩
  | read (w : World) (b : Nat) (bv bv1 : Buffer) (dst dst1 : List Byte) (n : Int)
      (err : Option Err) :
      Run num size h0 w → b ∈ w.out → w.heap.bufs[b]? = some bv →
      bv.Read w.heap.mem dst = some (bv1, dst1, n, err) →
      Run num size h0 ⟨w.pool, ⟨w.heap.bufs.set b bv1, w.heap.mem⟩, w.out⟩
  | write (w : World) (b : Nat) (bv bv1 : Buffer) (p mem1 : List Byte) (n : Int)
      (err : Option Err) :
      Run num size h0 w → b ∈ w.out → w.heap.bufs[b]? = some bv →
      bv.Write w.heap.mem p = some (bv1, mem1, n, err) →
      Run num size h0 ⟨w.pool, ⟨w.heap.bufs.set b bv1, mem1⟩, w.out⟩
  | readAll {σ : Type} (rd : Reader σ) (s : σ) (fuel : Nat) (w : World) (b : Nat)
      (bv : Buffer) (res : ReadAllResult σ) :
      Run num size h0 w → b ∈ w.out → w.heap.bufs[b]? = some bv → Bounded rd →
      bv.ReadAll rd fuel w.heap.mem s = .ok res →
      Run num size h0 ⟨w.pool, ⟨w.heap.bufs.set b res.b, res.mem⟩, w.out⟩

/-- Every buffer made after the first `base` records has size `s`, cursor 0
and is well-formed, and the `s`-byte regions of two of them do not overlap. -/
def BufsOK (base : Nat) (s : Int) (h : Heap) : Prop :=
  (∀ x xv, base ≤ x → h.bufs[x]? = some xv → xv.size = s ∧ xv.off = 0 ∧ xv.WF h.mem) ∧
  ∀ x y xv yv, base ≤ x → base ≤ y → x ≠ y → h.bufs[x]? = some xv → h.bufs[y]? = some yv →
    xv.buf.ptr + s.toNat ≤ yv.buf.ptr ∨ yv.buf.ptr + s.toNat ≤ xv.buf.ptr

/-- The invariant of a pool whose buffers are used through the exported methods. -/
def RunInv (base : Nat) (s : Int) (w : World) : Prop :=
  base ≤ w.heap.bufs.length ∧ LinksOK base w.heap ∧ LevelOK base w.heap w.pool ∧
  w.pool.size = s ∧ (∀ b ∈ w.out, ∃ bv, base ≤ b ∧ w.heap.bufs[b]? = some bv) ∧
  BufsOK base s w.heap

/-- What a method leaves of a buffer `bv` of size `s` in memory `mem`: the
buffer `bv1` has the same size, start and link, cursor 0, and is well-formed
in the memory `mem1`, which has the same length and differs from `mem` at most
inside the `s` bytes from the start of the buffer. -/
def Kept (s : Int) (bv : Buffer) (mem : List Byte) (bv1 : Buffer) (mem1 : List Byte) : Prop :=
  bv1.size = s ∧ bv1.off = 0 ∧ bv1.WF mem1 ∧ bv1.buf.ptr = bv.buf.ptr ∧ bv1.next = bv.next ∧
  mem1.length = mem.length ∧
  ∀ a, (a < bv.buf.ptr ∨ bv.buf.ptr + s.toNat ≤ a) → mem1[a]? = mem[a]?

/-- The pool `NewPool(2, 3)` after `Get` and a `Write` of the bytes 7, 8 to
the buffer handed out. -/
def world1w : World :=
  { pool := { free := some 1, max := 6, num := 2, size := 3 },
    heap := { bufs := [{ buf := { ptr := 0, len := 2, cap := 6 }, next := some 1, off := 0, size := 3 },
                       { buf := { ptr := 3, len := 3, cap := 3 }, next := none, off := 0, size := 3 }],
              mem := [7, 8, 0, 0, 0, 0] },
    out := [0] }

/-- The options of a pool with one buffer of size 10 and two of size 20. -/
def opts2010 : List PoolOpt := [{ Num := 2, Size := 20 }, { Num := 1, Size := 10 }]

/-- The multi-level pool `NewMultiLevelPool(opts2010)` on an empty heap, with
buffer 1 of the level of size 20 in the state `Get` leaves it in, `len1` being
its length; `free1` is the head of that level's free list. -/
def mworldTwo (free1 : Option Nat) (len1 : Nat) (out : List Nat) : MWorld :=
  { mlp := { pools := [{ free := some 0, max := 10, num := 1, size := 10 },
                       { free := free1, max := 40, num := 2, size := 20 }] },
    heap := { bufs := [{ buf := { ptr := 0, len := 10, cap := 10 }, next := none, off := 0, size := 10 },
                       { buf := { ptr := 10, len := len1, cap := 40 }, next := some 2, off := 0, size := 20 },
                       { buf := { ptr := 30, len := 20, cap := 20 }, next := none, off := 0, size := 20 }],
              mem := List.replicate 50 0 },
    out := out }

/-- The pool `NewPool(2, 3)` after `Get`, a `Write` of the bytes 7, 8 and
`Reset`: the buffer is empty, its memory still holds 7, 8. -/
def world1r : World :=
  { pool := { free := some 1, max := 6, num := 2, size := 3 },
    heap := { bufs := [{ buf := { ptr := 0, len := 0, cap := 6 }, next := some 1, off := 0, size := 3 },
                       { buf := { ptr := 3, len := 3, cap := 3 }, next := none, off := 0, size := 3 }],
              mem := [7, 8, 0, 0, 0, 0] },
    out := [0] }

/-! ## Memory lemmas -/

theorem store_nil (mem : List Byte) (a : Nat) : store mem a [] = mem := by
  simp [store]

theorem store_length (mem p : List Byte) (a : Nat) (h : a + p.length ≤ mem.length) :
    (store mem a p).length = mem.length := by
  simp [store]; omega

theorem bytes_length (s : Slice) (mem : List Byte) (h : s.ptr + s.len ≤ mem.length) :
    (s.bytes mem).length = s.len := by
  simp [Slice.bytes]; omega

/-- Reading `m + len p` bytes at `ptr` after `p` was stored at `ptr + m`. -/
theorem drop_take_store (mem p : List Byte) (ptr m : Nat)
    (h : ptr + m + p.length ≤ mem.length) :
    ((store mem (ptr + m) p).drop ptr).take (m + p.length) = (mem.drop ptr).take m ++ p := by
  have h1 : (mem.take (ptr + m)).length = ptr + m := by simp; omega
  have h2 : ((mem.take (ptr + m)).drop ptr).length = m := by simp; omega
  unfold store
  rw [List.drop_append_of_le_length (by omega), List.take_append_eq_append_take,
    List.take_of_length_le (by omega), h2, List.take_append_eq_append_take]
  have e1 : m + p.length - m = p.length := by omega
  rw [e1, Nat.sub_self, List.take_of_length_le (le_refl _), List.take_zero, List.append_nil,
    List.drop_take]
  have e3 : ptr + m - ptr = m := by omega
  rw [e3]

theorem Slice.slice_of_le (s : Slice) (lo hi : Int) (h : 0 ≤ lo ∧ lo ≤ hi ∧ hi ≤ (s.cap : Int)) :
    s.slice lo hi =
      some { ptr := s.ptr + lo.toNat, len := (hi - lo).toNat, cap := s.cap - lo.toNat } := by
  simp [Slice.slice, h]

/-! ## Buffer.Write -/

/-- What `Write` computes when the bytes fit. -/
theorem Buffer.write_eq_of_fits (b : Buffer) (mem p : List Byte)
    (hcap : b.size ≤ (b.buf.cap : Int))
    (hfit : (p.length : Int) + (b.buf.len : Int) ≤ b.size) :
    b.Write mem p =
      some ({ b with buf := { ptr := b.buf.ptr, len := b.buf.len + p.length, cap := b.buf.cap } },
        store mem (b.buf.ptr + b.buf.len) p, (p.length : Int), none) := by
  have h1 : b.buf.slice 0 ((p.length : Int) + (b.buf.len : Int)) =
      some { ptr := b.buf.ptr, len := b.buf.len + p.length, cap := b.buf.cap } := by
    rw [Slice.slice_of_le _ _ _ ⟨le_refl _, by omega, by omega⟩]
    simp; omega
  have h2 : (Slice.mk b.buf.ptr (b.buf.len + p.length) b.buf.cap).slice
      (b.buf.len : Int) ((p.length : Int) + (b.buf.len : Int)) =
      some { ptr := b.buf.ptr + b.buf.len, len := p.length, cap := b.buf.cap - b.buf.len } := by
    rw [Slice.slice_of_le _ _ _ ⟨by omega, by omega, by simp; omega⟩]
    simp
  have hgt : ¬ ((p.length : Int) + (b.buf.len : Int) > b.size) := by omega
  simp only [Buffer.Write, hgt, if_false, h1, h2, copyIn, List.take_length]

/-- C3: on a well-formed buffer `Write(p)` returns; it returns an error exactly
when `len(p) + len(b.buf) > b.size`, and then it returns `0, ErrBufNotEnough`
and leaves the buffer (content, length, cursor, capacity) and memory as they were. -/
theorem Buffer.write_fails_iff (b : Buffer) (mem p : List Byte) (hwf : b.WF mem) :
    ∃ b1 mem1 n err, b.Write mem p = some (b1, mem1, n, err) ∧
      (err ≠ none ↔ (p.length : Int) + (b.buf.len : Int) > b.size) ∧
      (err ≠ none → n = 0 ∧ err = some Err.ErrBufNotEnough ∧ b1 = b ∧ mem1 = mem) := by
  obtain ⟨_, hlen, hcap, _⟩ := hwf
  by_cases hgt : (p.length : Int) + (b.buf.len : Int) > b.size
  · exact ⟨b, mem, 0, some Err.ErrBufNotEnough, by simp [Buffer.Write, hgt], by simp [hgt],
      fun _ => ⟨rfl, rfl, rfl, rfl⟩⟩
  · exact ⟨_, _, _, _, Buffer.write_eq_of_fits b mem p hcap (by omega), by simp [hgt], by simp⟩

theorem Buffer.write_fails_iff_witness :
    Buffer.WF ⟨⟨0, 1, 4⟩, none, 0, 3⟩ [9, 0, 0, 0] ∧
    ∃ b1 mem1 n err, Buffer.Write ⟨⟨0, 1, 4⟩, none, 0, 3⟩ [9, 0, 0, 0] [7, 8, 6]
        = some (b1, mem1, n, err) ∧
      (err ≠ none ↔ (([7, 8, 6] : List Byte).length : Int) + ((1 : Nat) : Int) > 3) ∧
      (err ≠ none → n = 0 ∧ err = some Err.ErrBufNotEnough ∧
        b1 = ⟨⟨0, 1, 4⟩, none, 0, 3⟩ ∧ mem1 = [9, 0, 0, 0]) :=
  ⟨by decide, Buffer.write_fails_iff ⟨⟨0, 1, 4⟩, none, 0, 3⟩ [9, 0, 0, 0] [7, 8, 6] (by decide)⟩

/-- C4: when `len(c) + len(p) <= b.size`, `Write(p)` on a well-formed buffer
with content `c` returns `len(p), nil`; afterwards `Bytes()` is `c` followed by
`p`, and capacity, cursor and link are unchanged.  On an empty buffer (as `Get`
hands them out) `Bytes()` is then exactly `p`. -/
theorem Buffer.write_appends (b : Buffer) (mem p : List Byte) (hwf : b.WF mem)
    (hfit : (b.buf.len : Int) + (p.length : Int) ≤ b.size) :
    ∃ b1 mem1, b.Write mem p = some (b1, mem1, (p.length : Int), none) ∧
      b1.Bytes.bytes mem1 = b.Bytes.bytes mem ++ p ∧
      b1.size = b.size ∧ b1.off = b.off ∧ b1.next = b.next ∧
      (b.buf.len = 0 → b1.Bytes.bytes mem1 = p) := by
  obtain ⟨hmem, hlen, hcap, _⟩ := hwf
  have hb : b.buf.ptr + b.buf.len + p.length ≤ mem.length := by omega
  have hcont : (Slice.mk b.buf.ptr (b.buf.len + p.length) b.buf.cap).bytes
      (store mem (b.buf.ptr + b.buf.len) p) = b.buf.bytes mem ++ p :=
    drop_take_store mem p b.buf.ptr b.buf.len hb
  refine ⟨_, _, Buffer.write_eq_of_fits b mem p hcap (by omega), hcont, rfl, rfl, rfl, ?_⟩
  intro h0
  have : b.buf.bytes mem = [] := by simp [Slice.bytes, h0]
  simp only [Buffer.Bytes, hcont, this, List.nil_append]

theorem Buffer.write_appends_witness :
    Buffer.WF ⟨⟨0, 1, 4⟩, none, 0, 3⟩ [9, 0, 0, 0] ∧
    ((1 : Nat) : Int) + (([7, 8] : List Byte).length : Int) ≤ 3 ∧
    ∃ b1 mem1, Buffer.Write ⟨⟨0, 1, 4⟩, none, 0, 3⟩ [9, 0, 0, 0] [7, 8]
        = some (b1, mem1, (([7, 8] : List Byte).length : Int), none) ∧
      b1.Bytes.bytes mem1 = (Buffer.Bytes ⟨⟨0, 1, 4⟩, none, 0, 3⟩).bytes [9, 0, 0, 0] ++ [7, 8] ∧
      b1.size = 3 ∧ b1.off = 0 ∧ b1.next = none ∧
      ((1 : Nat) = 0 → b1.Bytes.bytes mem1 = [7, 8]) :=
  ⟨by decide, by decide,
    Buffer.write_appends ⟨⟨0, 1, 4⟩, none, 0, 3⟩ [9, 0, 0, 0] [7, 8] (by decide) (by decide)⟩

/-! ## Buffer.Read -/

/-- C10: with the cursor before the end of the content, `Read(dst)` returns
`n = min(len(dst), len(b.buf) - b.off)` and a nil error, the first `n` bytes of
`dst` are the content from the cursor on, the rest of `dst` and the whole
buffer are untouched; so a second `Read` into a destination of the same length
returns the same `n` and the same bytes. -/
theorem Buffer.read_peeks (b : Buffer) (mem dst : List Byte) (hwf : b.WF mem)
    (hbefore : b.off < (b.buf.len : Int)) :
    ∃ dst1 n, b.Read mem dst = some (b, dst1, n, none) ∧
      n = min (dst.length : Int) ((b.buf.len : Int) - b.off) ∧
      dst1.take n.toNat = ((b.Bytes.bytes mem).drop b.off.toNat).take n.toNat ∧
      dst1.drop n.toNat = dst.drop n.toNat ∧
      ∀ dst2 : List Byte, dst2.length = dst.length →
        ∃ dst3, b.Read mem dst2 = some (b, dst3, n, none) ∧
          dst3.take n.toNat = dst1.take n.toNat := by
  obtain ⟨hmem, hlen, hcap, hoff⟩ := hwf
  have hsl : b.buf.slice b.off (b.buf.len : Int) =
      some { ptr := b.buf.ptr + b.off.toNat, len := b.buf.len - b.off.toNat,
             cap := b.buf.cap - b.off.toNat } := by
    rw [Slice.slice_of_le _ _ _ ⟨hoff, by omega, by omega⟩]
    simp; omega
  have hnot : ¬ (b.off ≥ (b.buf.len : Int)) := by omega
  have hsrc : (Slice.mk (b.buf.ptr + b.off.toNat) (b.buf.len - b.off.toNat)
      (b.buf.cap - b.off.toNat)).bytes mem = (b.buf.bytes mem).drop b.off.toNat := by
    simp [Slice.bytes, List.drop_take, List.drop_drop, Nat.add_comm]
  have hsrclen : ((b.buf.bytes mem).drop b.off.toNat).length = b.buf.len - b.off.toNat := by
    simp [Slice.bytes]; omega
  have hread : ∀ d : List Byte, b.Read mem d = some (b,
      ((b.buf.bytes mem).drop b.off.toNat).take d.length ++
        d.drop (((b.buf.bytes mem).drop b.off.toNat).take d.length).length,
      ((((b.buf.bytes mem).drop b.off.toNat).take d.length).length : Int), none) := by
    intro d
    simp only [Buffer.Read, hnot, if_false, hsl, copyOut, hsrc]
  have hn : ∀ d : List Byte, d.length = dst.length →
      ((((b.buf.bytes mem).drop b.off.toNat).take d.length).length : Int) =
        min (dst.length : Int) ((b.buf.len : Int) - b.off) := by
    intro d hd
    rw [List.length_take, hsrclen, hd]
    omega
  have htk : ∀ d : List Byte, d.length = dst.length →
      (((b.buf.bytes mem).drop b.off.toNat).take d.length ++
        d.drop (((b.buf.bytes mem).drop b.off.toNat).take d.length).length).take
        (min (dst.length : Int) ((b.buf.len : Int) - b.off)).toNat =
      ((b.buf.bytes mem).drop b.off.toNat).take
        (min (dst.length : Int) ((b.buf.len : Int) - b.off)).toNat := by
    intro d hd
    have e := hn d hd
    have e1 : (((b.buf.bytes mem).drop b.off.toNat).take d.length).length =
        (min (dst.length : Int) ((b.buf.len : Int) - b.off)).toNat := by omega
    rw [List.take_append_of_le_length (by omega), ← e1, List.take_take]
    simp
  have hread1 : ∀ d : List Byte, d.length = dst.length → b.Read mem d = some (b,
      ((b.buf.bytes mem).drop b.off.toNat).take d.length ++
        d.drop (((b.buf.bytes mem).drop b.off.toNat).take d.length).length,
      min (dst.length : Int) ((b.buf.len : Int) - b.off), none) := by
    intro d hd
    rw [hread d, hn d hd]
  refine ⟨_, _, hread1 dst rfl, rfl, htk dst rfl, ?_,
    fun dst2 h2 => ⟨_, hread1 dst2 h2, by rw [htk dst2 h2, htk dst rfl]⟩⟩
  rw [← hn dst rfl, Int.toNat_ofNat, List.drop_append_of_le_length (le_refl _)]
  simp

theorem Buffer.read_peeks_witness :
    Buffer.WF ⟨⟨0, 3, 4⟩, none, 1, 3⟩ [9, 8, 7, 0] ∧ (1 : Int) < ((3 : Nat) : Int) ∧
    ∃ dst1 n, Buffer.Read ⟨⟨0, 3, 4⟩, none, 1, 3⟩ [9, 8, 7, 0] [1, 1, 1, 1]
        = some (⟨⟨0, 3, 4⟩, none, 1, 3⟩, dst1, n, none) ∧
      n = min (([1, 1, 1, 1] : List Byte).length : Int) (((3 : Nat) : Int) - 1) ∧
      dst1.take n.toNat =
        (((Buffer.Bytes ⟨⟨0, 3, 4⟩, none, 1, 3⟩).bytes [9, 8, 7, 0]).drop (1 : Int).toNat).take
          n.toNat ∧
      dst1.drop n.toNat = ([1, 1, 1, 1] : List Byte).drop n.toNat ∧
      ∀ dst2 : List Byte, dst2.length = ([1, 1, 1, 1] : List Byte).length →
        ∃ dst3, Buffer.Read ⟨⟨0, 3, 4⟩, none, 1, 3⟩ [9, 8, 7, 0] dst2
            = some (⟨⟨0, 3, 4⟩, none, 1, 3⟩, dst3, n, none) ∧
          dst3.take n.toNat = dst1.take n.toNat :=
  ⟨by decide, by decide,
    Buffer.read_peeks ⟨⟨0, 3, 4⟩, none, 1, 3⟩ [9, 8, 7, 0] [1, 1, 1, 1] (by decide) (by decide)⟩

/-! ## Buffer.ReadAll from a `bytes.Reader` -/

/-- One pass of the loop of `ReadAll` when the source is a `bytes.Reader`. -/
theorem Buffer.readAllLoop_bytesReader (fuel : Nat) (b : Buffer) (mem : List Byte)
    (r : BytesReader) (hlen : (b.buf.len : Int) ≤ b.size) (hcap : b.size ≤ (b.buf.cap : Int)) :
    Buffer.readAllLoop BytesReader.Read (fuel + 1) b mem r =
      if r.i ≥ r.s.length then
        .ok { b := b, mem := mem, src := r, ret := b.buf, err := none }
      else if (((r.s.drop r.i).take (b.size - (b.buf.len : Int)).toNat).length : Int) = 0 ∧
          ((b.buf.len + ((r.s.drop r.i).take (b.size - (b.buf.len : Int)).toNat).length : Nat)
            : Int) = b.size then
        .ok { b := { b with buf := { b.buf with len := b.buf.len +
                ((r.s.drop r.i).take (b.size - (b.buf.len : Int)).toNat).length } },
              mem := store mem (b.buf.ptr + b.buf.len)
                ((r.s.drop r.i).take (b.size - (b.buf.len : Int)).toNat),
              src := { r with i := r.i +
                ((r.s.drop r.i).take (b.size - (b.buf.len : Int)).toNat).length },
              ret := { b.buf with len := b.buf.len +
                ((r.s.drop r.i).take (b.size - (b.buf.len : Int)).toNat).length },
              err := some Err.ErrBufNotEnough }
      else
        Buffer.readAllLoop BytesReader.Read fuel
          { b with buf := { b.buf with len := b.buf.len +
              ((r.s.drop r.i).take (b.size - (b.buf.len : Int)).toNat).length } }
          (store mem (b.buf.ptr + b.buf.len)
            ((r.s.drop r.i).take (b.size - (b.buf.len : Int)).toNat))
          { r with i := r.i + ((r.s.drop r.i).take (b.size - (b.buf.len : Int)).toNat).length } := by
  have hdst : b.buf.slice (b.buf.len : Int) b.size =
      some { ptr := b.buf.ptr + b.buf.len, len := (b.size - (b.buf.len : Int)).toNat,
             cap := b.buf.cap - b.buf.len } := by
    rw [Slice.slice_of_le _ _ _ ⟨by omega, hlen, hcap⟩]
    simp
  have hre : ∀ k : Nat, (b.buf.len : Int) + (k : Int) ≤ b.size →
      b.buf.slice 0 ((b.buf.len : Int) + (k : Int)) =
        some { b.buf with len := b.buf.len + k } := by
    intro k hk
    rw [Slice.slice_of_le _ _ _ ⟨le_refl _, by omega, by omega⟩]
    simp; omega
  by_cases hi : r.i ≥ r.s.length
  · have h0 := hre 0 (by simpa using hlen)
    simp only [Nat.cast_zero, add_zero, Nat.add_zero] at h0
    simp [Buffer.readAllLoop, hdst, BytesReader.Read, hi, h0, store_nil, Buffer.Bytes]
  · have hk : (b.buf.len : Int) +
        (((r.s.drop r.i).take (b.size - (b.buf.len : Int)).toNat).length : Int) ≤ b.size := by
      have := List.length_take_le (b.size - (b.buf.len : Int)).toNat (r.s.drop r.i)
      omega
    have hk1 := hre _ hk
    simp only [Buffer.readAllLoop, hdst, BytesReader.Read, hi, if_false, hk1, List.take_take,
      min_self, Buffer.Bytes]
    rw [if_neg (by simp), if_neg (by simp)]

/-- C1: a well-formed buffer with cursor 0 and content `c`, and a
`bytes.Reader` over `s` with `len(c) + len(s) <= b.size`: `ReadAll` returns
(two passes of the loop are enough) `c` followed by `s` with a nil error, and
that is the content of the buffer afterwards; on an empty buffer it returns
exactly `s`.  The bound may be met with equality. -/
theorem Buffer.readAll_fits (b : Buffer) (mem s : List Byte) (fuel : Nat) (hwf : b.WF mem)
    (hoff : b.off = 0) (hfit : (b.buf.len : Int) + (s.length : Int) ≤ b.size)
    (hfuel : 2 ≤ fuel) :
    ∃ r, b.ReadAll BytesReader.Read fuel mem (BytesReader.new s) = .ok r ∧
      r.err = none ∧
      r.ret.bytes r.mem = b.Bytes.bytes mem ++ s ∧
      r.b.Bytes.bytes r.mem = b.Bytes.bytes mem ++ s ∧
      (b.buf.len = 0 → r.ret.bytes r.mem = s) := by
  obtain ⟨hmem, hlen, hcap, _⟩ := hwf
  obtain ⟨f, rfl⟩ : ∃ f, fuel = f + 2 := ⟨fuel - 2, by omega⟩
  have hstart : (if b.off ≥ b.size then b.Reset else b) = b := by
    split
    · rename_i h
      have h0 : b.buf.len = 0 := by omega
      cases b with
      | mk buf next off size =>
        cases buf with
        | mk ptr len cap =>
          simp only [Buffer.Reset] at *
          subst h0; subst hoff; rfl
    · rfl
  have hempty : b.buf.len = 0 → b.buf.bytes mem = [] := by
    intro h0; simp [Slice.bytes, h0]
  unfold Buffer.ReadAll
  rw [hstart, Buffer.readAllLoop_bytesReader (f + 1) b mem _ hlen hcap]
  by_cases hs : s.length = 0
  · have hnil : s = [] := List.length_eq_zero.mp hs
    subst hnil
    refine ⟨_, by simp [BytesReader.new]; rfl, rfl, ?_, ?_, ?_⟩ <;>
      simp [Buffer.Bytes]
    exact hempty
  · have hd : ((BytesReader.new s).s.drop (BytesReader.new s).i).take
        (b.size - (b.buf.len : Int)).toNat = s := by
      simp only [BytesReader.new, List.drop_zero]
      exact List.take_of_length_le (by omega)
    have hi : ¬ ((BytesReader.new s).i ≥ (BytesReader.new s).s.length) := by
      simp only [BytesReader.new]; omega
    have hlen1 : (((Buffer.mk (Slice.mk b.buf.ptr (b.buf.len + s.length) b.buf.cap) b.next b.off
        b.size).buf.len : Nat) : Int) ≤ b.size := by
      simp only [Nat.cast_add]; exact hfit
    rw [if_neg hi, hd, if_neg (by omega),
      Buffer.readAllLoop_bytesReader f
        (Buffer.mk (Slice.mk b.buf.ptr (b.buf.len + s.length) b.buf.cap) b.next b.off b.size)
        _ _ hlen1 hcap,
      if_pos (by simp [BytesReader.new])]
    have hcont : (Slice.mk b.buf.ptr (b.buf.len + s.length) b.buf.cap).bytes
        (store mem (b.buf.ptr + b.buf.len) s) = b.buf.bytes mem ++ s :=
      drop_take_store mem s b.buf.ptr b.buf.len (by omega)
    refine ⟨_, rfl, rfl, hcont, hcont, ?_⟩
    intro h0
    show (Slice.mk b.buf.ptr (b.buf.len + s.length) b.buf.cap).bytes
        (store mem (b.buf.ptr + b.buf.len) s) = s
    rw [hcont, hempty h0, List.nil_append]

theorem Buffer.readAll_fits_witness :
    Buffer.WF ⟨⟨0, 1, 4⟩, none, 0, 3⟩ [9, 0, 0, 0] ∧
    ((1 : Nat) : Int) + (([1, 2] : List Byte).length : Int) ≤ 3 ∧
    ∃ r, Buffer.ReadAll BytesReader.Read 2 ⟨⟨0, 1, 4⟩, none, 0, 3⟩ [9, 0, 0, 0]
        (BytesReader.new [1, 2]) = .ok r ∧
      r.err = none ∧
      r.ret.bytes r.mem = (Buffer.Bytes ⟨⟨0, 1, 4⟩, none, 0, 3⟩).bytes [9, 0, 0, 0] ++ [1, 2] ∧
      r.b.Bytes.bytes r.mem = (Buffer.Bytes ⟨⟨0, 1, 4⟩, none, 0, 3⟩).bytes [9, 0, 0, 0] ++ [1, 2] ∧
      ((1 : Nat) = 0 → r.ret.bytes r.mem = [1, 2]) :=
  ⟨by decide, by decide,
    Buffer.readAll_fits ⟨⟨0, 1, 4⟩, none, 0, 3⟩ [9, 0, 0, 0] [1, 2] 2 (by decide) rfl
      (by decide) (le_refl 2)⟩

/-- C2: a well-formed buffer with cursor 0 and content `c`, and a
`bytes.Reader` over `s` with `len(c) + len(s) > b.size`: `ReadAll` returns (two
passes of the loop are enough) the error `ErrBufNotEnough`, never nil, with `c`
followed by the first `b.size - len(c)` bytes of `s`, `b.size` bytes in all. -/
theorem Buffer.readAll_overflows (b : Buffer) (mem s : List Byte) (fuel : Nat)
    (hwf : b.WF mem) (hoff : b.off = 0)
    (hover : (b.buf.len : Int) + (s.length : Int) > b.size) (hfuel : 2 ≤ fuel) :
    ∃ r, b.ReadAll BytesReader.Read fuel mem (BytesReader.new s) = .ok r ∧
      r.err = some Err.ErrBufNotEnough ∧
      r.ret.bytes r.mem = b.Bytes.bytes mem ++ s.take (b.size - (b.buf.len : Int)).toNat ∧
      ((r.ret.bytes r.mem).length : Int) = b.size := by
  obtain ⟨hmem, hlen, hcap, _⟩ := hwf
  obtain ⟨f, rfl⟩ : ∃ f, fuel = f + 2 := ⟨fuel - 2, by omega⟩
  have hstart : (if b.off ≥ b.size then b.Reset else b) = b := by
    split
    · rename_i h
      have h0 : b.buf.len = 0 := by omega
      cases b with
      | mk buf next off size =>
        cases buf with
        | mk ptr len cap =>
          simp only [Buffer.Reset] at *
          subst h0; subst hoff; rfl
    · rfl
  have hclen : (b.buf.bytes mem).length = b.buf.len := bytes_length _ _ (by omega)
  have hi : ¬ ((BytesReader.new s).i ≥ (BytesReader.new s).s.length) := by
    simp only [BytesReader.new]; omega
  have hd : ((BytesReader.new s).s.drop (BytesReader.new s).i).take
      (b.size - (b.buf.len : Int)).toNat = s.take (b.size - (b.buf.len : Int)).toNat := by
    simp only [BytesReader.new, List.drop_zero]
  have hdl : (s.take (b.size - (b.buf.len : Int)).toNat).length =
      (b.size - (b.buf.len : Int)).toNat := by
    rw [List.length_take]; omega
  have hcont : (Slice.mk b.buf.ptr (b.buf.len + (b.size - (b.buf.len : Int)).toNat)
      b.buf.cap).bytes (store mem (b.buf.ptr + b.buf.len)
        (s.take (b.size - (b.buf.len : Int)).toNat)) =
      b.buf.bytes mem ++ s.take (b.size - (b.buf.len : Int)).toNat := by
    have := drop_take_store mem (s.take (b.size - (b.buf.len : Int)).toNat) b.buf.ptr b.buf.len
      (by omega)
    rw [hdl] at this
    exact this
  have htot : ((b.buf.bytes mem ++ s.take (b.size - (b.buf.len : Int)).toNat).length : Int)
      = b.size := by
    rw [List.length_append, hclen, hdl]; omega
  unfold Buffer.ReadAll
  rw [hstart, Buffer.readAllLoop_bytesReader (f + 1) b mem _ hlen hcap, if_neg hi, hd, hdl]
  by_cases hk : (b.size - (b.buf.len : Int)).toNat = 0
  · rw [if_pos (by omega)]
    exact ⟨_, rfl, rfl, hcont, by rw [hcont]; exact htot⟩
  · have hlen1 : (((Buffer.mk (Slice.mk b.buf.ptr
        (b.buf.len + (b.size - (b.buf.len : Int)).toNat) b.buf.cap) b.next b.off
        b.size).buf.len : Nat) : Int) ≤ b.size := by
      simp only [Nat.cast_add]; omega
    have hi1 : ¬ ((BytesReader.mk (BytesReader.new s).s
        ((BytesReader.new s).i + (b.size - (b.buf.len : Int)).toNat)).i ≥
        (BytesReader.mk (BytesReader.new s).s
          ((BytesReader.new s).i + (b.size - (b.buf.len : Int)).toNat)).s.length) := by
      simp only [BytesReader.new]; omega
    have hz : (b.size - (((b.buf.len + (b.size - (b.buf.len : Int)).toNat : Nat)) : Int)).toNat
        = 0 := by omega
    rw [if_neg (by omega),
      Buffer.readAllLoop_bytesReader f
        (Buffer.mk (Slice.mk b.buf.ptr (b.buf.len + (b.size - (b.buf.len : Int)).toNat)
          b.buf.cap) b.next b.off b.size)
        _ _ hlen1 hcap,
      if_neg hi1]
    simp only [hz, List.take_zero, List.length_nil, Nat.add_zero, store_nil]
    rw [if_pos (by omega)]
    exact ⟨_, rfl, rfl, hcont, by rw [hcont]; exact htot⟩

theorem Buffer.readAll_overflows_witness :
    Buffer.WF ⟨⟨0, 1, 4⟩, none, 0, 3⟩ [9, 0, 0, 0] ∧
    ((1 : Nat) : Int) + (([1, 2, 3] : List Byte).length : Int) > 3 ∧
    ∃ r, Buffer.ReadAll BytesReader.Read 2 ⟨⟨0, 1, 4⟩, none, 0, 3⟩ [9, 0, 0, 0]
        (BytesReader.new [1, 2, 3]) = .ok r ∧
      r.err = some Err.ErrBufNotEnough ∧
      r.ret.bytes r.mem = (Buffer.Bytes ⟨⟨0, 1, 4⟩, none, 0, 3⟩).bytes [9, 0, 0, 0] ++
        ([1, 2, 3] : List Byte).take ((3 : Int) - ((1 : Nat) : Int)).toNat ∧
      ((r.ret.bytes r.mem).length : Int) = 3 :=
  ⟨by decide, by decide,
    Buffer.readAll_overflows ⟨⟨0, 1, 4⟩, none, 0, 3⟩ [9, 0, 0, 0] [1, 2, 3] 2 (by decide) rfl
      (by decide) (le_refl 2)⟩

/-! ## Free lists -/

theorem isFreeList_cons (h : Heap) (b : Nat) (l : List Nat) (bv : Buffer)
    (hb : h.bufs[b]? = some bv) :
    isFreeList h (some b) (b :: l) = isFreeList h bv.next l := by
  simp [isFreeList, hb]

theorem isFreeList_some_inv (h : Heap) (b : Nat) (l : List Nat)
    (hl : isFreeList h (some b) l = true) :
    ∃ bv l1, l = b :: l1 ∧ h.bufs[b]? = some bv ∧ isFreeList h bv.next l1 = true := by
  cases l with
  | nil => simp [isFreeList] at hl
  | cons x l1 =>
    simp only [isFreeList, Bool.and_eq_true, beq_iff_eq] at hl
    obtain ⟨rfl, h2⟩ := hl
    cases hx : h.bufs[x]? with
    | none => simp [hx] at h2
    | some bv => exact ⟨bv, l1, rfl, rfl, by simpa [hx] using h2⟩

theorem isFreeList_none_inv (h : Heap) (l : List Nat) (hl : isFreeList h none l = true) :
    l = [] := by
  cases l with
  | nil => rfl
  | cons x l1 => simp [isFreeList] at hl

/-- A free list is determined by its head. -/
theorem isFreeList_unique (h : Heap) (l1 : List Nat) :
    ∀ (f : Option Nat) (l2 : List Nat), isFreeList h f l1 = true → isFreeList h f l2 = true →
      l1 = l2 := by
  induction l1 with
  | nil =>
    intro f l2 h1 h2
    cases f with
    | none => exact (isFreeList_none_inv h l2 h2).symm
    | some b => simp [isFreeList] at h1
  | cons x l ih =>
    intro f l2 h1 h2
    cases f with
    | none => simp [isFreeList] at h1
    | some b =>
      obtain ⟨bv, t1, e1, hb1, c1⟩ := isFreeList_some_inv h b _ h1
      obtain ⟨bv2, t2, e2, hb2, c2⟩ := isFreeList_some_inv h b _ h2
      rw [hb1] at hb2
      cases hb2
      obtain ⟨rfl, rfl⟩ := List.cons.inj e1
      rw [e2, ih bv.next t2 c1 c2]

/-- A free list stays one when the links of its buffers stay the same. -/
theorem isFreeList_congr (h h1 : Heap) (l : List Nat) :
    ∀ f : Option Nat,
      (∀ x ∈ l, ∀ xv, h.bufs[x]? = some xv → ∃ xv1, h1.bufs[x]? = some xv1 ∧ xv1.next = xv.next) →
      isFreeList h f l = true → isFreeList h1 f l = true := by
  induction l with
  | nil =>
    intro f _ hl
    cases f with
    | none => rfl
    | some b => simp [isFreeList] at hl
  | cons x l ih =>
    intro f hsame hl
    cases f with
    | none => simp [isFreeList] at hl
    | some b =>
      obtain ⟨bv, t1, e1, hb1, c1⟩ := isFreeList_some_inv h b _ hl
      obtain ⟨rfl, rfl⟩ := List.cons.inj e1
      obtain ⟨xv1, hx1, hn1⟩ := hsame x (List.mem_cons_self _ _) bv hb1
      rw [isFreeList_cons h1 x l xv1 hx1, hn1]
      exact ih bv.next (fun y hy => hsame y (List.mem_cons_of_mem _ hy)) c1

/-! ## Machine integers -/

theorem wrapInt_of_isInt (x : Int) (h : IsInt x) : wrapInt x = x := by
  unfold IsInt at h
  unfold wrapInt
  omega

theorem isInt_wrapInt (x : Int) : IsInt (wrapInt x) := by
  unfold IsInt wrapInt
  omega

/-- A slice expression that does not panic has its bounds in range. -/
theorem Slice.slice_bounds (s t : Slice) (lo hi : Int) (h : s.slice lo hi = some t) :
    0 ≤ lo ∧ lo ≤ hi ∧ hi ≤ (s.cap : Int) := by
  unfold Slice.slice at h
  split at h
  · assumption
  · exact absurd h (by simp)

/-! ## Pool.grow -/

/-- `grow` on parameters that pass the checks of `make` and of `&bs[0]`. -/
theorem Pool.grow_eq (p : Pool) (h : Heap) (hnum : 1 ≤ p.num) (hmax0 : 0 ≤ p.max)
    (hlim : p.max ≤ maxAlloc) (hrec : p.num * sizeofBuffer ≤ maxAlloc) :
    p.grow h =
      match Pool.growFill p (Slice.mk h.mem.length p.max.toNat p.max.toNat)
          h.bufs.length (p.num.toNat - 1) 1 with
      | none => none
      | some l => some ({ p with free := some h.bufs.length },
          { bufs := h.bufs ++ l, mem := h.mem ++ List.replicate p.max.toNat 0 }) := by
  unfold Pool.grow
  rw [if_neg (by omega), if_neg (by omega), if_neg (by omega)]

/-- A run of `grow` that does not panic passed the checks of `make` and of `&bs[0]`. -/
theorem Pool.grow_inv (p : Pool) (h : Heap) (r : Pool × Heap) (hg : p.grow h = some r) :
    1 ≤ p.num ∧ 0 ≤ p.max ∧ p.max ≤ maxAlloc ∧ p.num * sizeofBuffer ≤ maxAlloc := by
  unfold Pool.grow at hg
  split at hg
  · exact absurd hg (by simp)
  · split at hg
    · exact absurd hg (by simp)
    · split at hg
      · exact absurd hg (by simp)
      · omega

/-- The first slice expression of a run of the loop of `grow` that does not panic. -/
theorem Pool.growFill_head (p : Pool) (buf : Slice) (bs k i : Nat) (l : List Buffer)
    (hl : Pool.growFill p buf bs k i = some l) :
    ∃ s, buf.slice (wrapInt (((i : Int) - 1) * p.size)) (wrapInt ((i : Int) * p.size))
      = some s := by
  cases k with
  | zero =>
    simp only [Pool.growFill] at hl
    split at hl
    · exact absurd hl (by simp)
    · rename_i s hs; exact ⟨s, hs⟩
  | succ k =>
    simp only [Pool.growFill] at hl
    split at hl
    · exact absurd hl (by simp)
    · rename_i s hs; exact ⟨s, hs⟩

/-- The later passes of a run of the loop of `grow` that does not panic. -/
theorem Pool.growFill_tail (p : Pool) (buf : Slice) (bs k i : Nat) (l : List Buffer)
    (hl : Pool.growFill p buf bs (k + 1) i = some l) :
    ∃ rest, Pool.growFill p buf bs k (i + 1) = some rest := by
  simp only [Pool.growFill] at hl
  split at hl
  · exact absurd hl (by simp)
  · split at hl
    · exact absurd hl (by simp)
    · rename_i rest hrest; exact ⟨rest, hrest⟩

/-- When the loop of `grow` does not panic on an `int` size, no product it
computed wrapped: the size is not negative and the whole batch lies inside the
allocation. -/
theorem Pool.growFill_fits (p : Pool) (buf : Slice) (bs : Nat) (hint : IsInt p.size)
    (hcap : (buf.cap : Int) < 9223372036854775808) :
    ∀ (k i : Nat) (l : List Buffer), 1 ≤ i → 0 ≤ ((i : Int) - 1) * p.size →
      ((i : Int) - 1) * p.size ≤ (buf.cap : Int) →
      Pool.growFill p buf bs k i = some l →
      0 ≤ p.size ∧ ((i + k : Nat) : Int) * p.size ≤ (buf.cap : Int) := by
  have step : ∀ (k i : Nat) (l : List Buffer), 0 ≤ ((i : Int) - 1) * p.size →
      ((i : Int) - 1) * p.size ≤ (buf.cap : Int) →
      Pool.growFill p buf bs k i = some l →
      0 ≤ p.size ∧ (i : Int) * p.size ≤ (buf.cap : Int) := by
    intro k i l h0 h1 hl
    obtain ⟨s, hs⟩ := Pool.growFill_head p buf bs k i l hl
    obtain ⟨b1, b2, b3⟩ := Slice.slice_bounds buf s _ _ hs
    have e : (i : Int) * p.size = ((i : Int) - 1) * p.size + p.size := by ring
    unfold IsInt at hint
    unfold wrapInt at b1 b2 b3
    rw [e] at b2 b3 ⊢
    omega
  intro k
  induction k with
  | zero =>
    intro i l _ h0 h1 hl
    simpa using step 0 i l h0 h1 hl
  | succ k ih =>
    intro i l hi h0 h1 hl
    obtain ⟨hs, hle⟩ := step (k + 1) i l h0 h1 hl
    obtain ⟨rest, hrest⟩ := Pool.growFill_tail p buf bs k i l hl
    have e : (((i + 1 : Nat) : Int) - 1) * p.size = (i : Int) * p.size := by
      push_cast; ring
    have := ih (i + 1) rest (by omega) (by rw [e]; exact mul_nonneg (by omega) hs)
      (by rw [e]; exact hle) hrest
    have e2 : i + 1 + k = i + (k + 1) := by omega
    rw [e2] at this
    exact this

/-- The loop of `grow` succeeds when the batch fits its allocation; it makes
`k + 1` buffers of the pool's size, linked into one chain. -/
theorem Pool.growFill_spec (p : Pool) (buf : Slice) (bs : Nat) (hsize : 0 ≤ p.size)
    (hcapi : (buf.cap : Int) < 9223372036854775808) :
    ∀ (k i : Nat), 1 ≤ i → ((i + k : Nat) : Int) * p.size ≤ (buf.cap : Int) →
      ∃ l, Pool.growFill p buf bs k i = some l ∧ l.length = k + 1 ∧
        (∀ bv ∈ l, bv.size = p.size) ∧
        ∀ (pre : List Buffer) (mem : List Byte), pre.length + 1 = bs + i →
          isFreeList ⟨pre ++ l, mem⟩ (some pre.length) (List.range' pre.length (k + 1)) = true := by
  intro k
  induction k with
  | zero =>
    intro i hi hcap
    have h1 : (0 : Int) ≤ ((i : Int) - 1) * p.size := mul_nonneg (by omega) hsize
    have h2 : ((i : Int) - 1) * p.size ≤ (i : Int) * p.size := by nlinarith
    have h3 : (i : Int) * p.size ≤ (buf.cap : Int) := by simpa using hcap
    have w1 : wrapInt (((i : Int) - 1) * p.size) = ((i : Int) - 1) * p.size :=
      wrapInt_of_isInt _ ⟨by omega, by omega⟩
    have w2 : wrapInt ((i : Int) * p.size) = (i : Int) * p.size :=
      wrapInt_of_isInt _ ⟨by omega, by omega⟩
    obtain ⟨bv0, hn0, hs0, hg⟩ : ∃ bv0 : Buffer, bv0.next = none ∧ bv0.size = p.size ∧
        Pool.growFill p buf bs 0 i = some [bv0] :=
      ⟨Buffer.mk _ none 0 p.size, rfl, rfl,
        by simp only [Pool.growFill, w1, w2, Slice.slice_of_le _ _ _ ⟨h1, h2, h3⟩]; rfl⟩
    refine ⟨_, hg, rfl, ?_, ?_⟩
    · intro bv hbv
      rw [List.mem_singleton.mp hbv]; exact hs0
    · intro pre mem _
      have hget : (Heap.mk (pre ++ [bv0]) mem).bufs[pre.length]? = some bv0 := by simp
      rw [List.range'_succ, isFreeList_cons _ _ _ _ hget, hn0]
      rfl
  | succ k ih =>
    intro i hi hcap
    have h1 : (0 : Int) ≤ ((i : Int) - 1) * p.size := mul_nonneg (by omega) hsize
    have h2 : ((i : Int) - 1) * p.size ≤ (i : Int) * p.size := by nlinarith
    have h3 : (i : Int) * p.size ≤ (buf.cap : Int) := by
      have : (i : Int) * p.size ≤ ((i + (k + 1) : Nat) : Int) * p.size :=
        mul_le_mul_of_nonneg_right (by push_cast; omega) hsize
      omega
    have w1 : wrapInt (((i : Int) - 1) * p.size) = ((i : Int) - 1) * p.size :=
      wrapInt_of_isInt _ ⟨by omega, by omega⟩
    have w2 : wrapInt ((i : Int) * p.size) = (i : Int) * p.size :=
      wrapInt_of_isInt _ ⟨by omega, by omega⟩
    obtain ⟨rest, hrest, hlen, hsz, hchain⟩ := ih (i + 1) (by omega)
      (by have e : i + 1 + k = i + (k + 1) := by omega
          rw [e]; exact hcap)
    obtain ⟨bv0, hn0, hs0, hg⟩ : ∃ bv0 : Buffer, bv0.next = some (bs + i) ∧
        bv0.size = p.size ∧ Pool.growFill p buf bs (k + 1) i = some (bv0 :: rest) :=
      ⟨Buffer.mk _ (some (bs + i)) 0 p.size, rfl, rfl,
        by simp only [Pool.growFill, w1, w2, Slice.slice_of_le _ _ _ ⟨h1, h2, h3⟩, hrest]; rfl⟩
    refine ⟨_, hg, by simp [hlen], ?_, ?_⟩
    · intro bv hbv
      rcases List.mem_cons.mp hbv with rfl | hbv
      · exact hs0
      · exact hsz bv hbv
    · intro pre mem hpre
      have hc := hchain (pre ++ [bv0]) mem (by simp; omega)
      have hget : (Heap.mk (pre ++ bv0 :: rest) mem).bufs[pre.length]? = some bv0 := by
        show (pre ++ bv0 :: rest)[pre.length]? = some bv0
        rw [List.getElem?_append_right (le_refl _)]; simp
      rw [List.range'_succ, isFreeList_cons _ _ _ _ hget, hn0]
      simp only [List.append_assoc, List.singleton_append, List.length_append,
        List.length_singleton] at hc
      rw [← hpre]
      exact hc

/-- The bounds of a pool with room: `max` is neither negative nor beyond the
range of an `int`. -/
theorem Pool.Fits.max_range (p : Pool) (hnum : 1 ≤ p.num) (hsize : 0 ≤ p.size) (hfits : p.Fits) :
    0 ≤ p.max ∧ p.max < 9223372036854775808 := by
  obtain ⟨hmax, hlim, _⟩ := hfits
  have h0 : 0 ≤ p.num * p.size := mul_nonneg (by omega) hsize
  unfold maxAlloc at hlim
  omega

/-- `grow` succeeds on a pool with the parameters `init` stores: it appends
`num` buffers of the pool's size to the arena, linked into one chain that
becomes the free list, and a block of `max` bytes to memory. -/
theorem Pool.grow_spec (p : Pool) (h : Heap) (hnum : 1 ≤ p.num) (hsize : 0 ≤ p.size)
    (hmax : p.Fits) :
    ∃ l, p.grow h = some ({ p with free := some h.bufs.length },
        { bufs := h.bufs ++ l, mem := h.mem ++ List.replicate p.max.toNat 0 }) ∧
      l.length = p.num.toNat ∧ (∀ bv ∈ l, bv.size = p.size) ∧
      isFreeList { bufs := h.bufs ++ l, mem := h.mem ++ List.replicate p.max.toNat 0 }
        (some h.bufs.length) (List.range' h.bufs.length p.num.toNat) = true := by
  obtain ⟨hmax0, hmaxi⟩ := Pool.Fits.max_range p hnum hsize hmax
  have hk : p.num.toNat - 1 + 1 = p.num.toNat := by omega
  have hcap : ((1 + (p.num.toNat - 1) : Nat) : Int) * p.size ≤
      ((Slice.mk h.mem.length p.max.toNat p.max.toNat).cap : Int) := by
    have e : ((1 + (p.num.toNat - 1) : Nat) : Int) = p.num := by omega
    rw [e, ← hmax.1]
    simp only
    omega
  obtain ⟨l, hl, hlen, hsz, hchain⟩ := Pool.growFill_spec p
    (Slice.mk h.mem.length p.max.toNat p.max.toNat) h.bufs.length hsize
    (by simp only; omega) (p.num.toNat - 1) 1 (le_refl 1) hcap
  refine ⟨l, ?_, by omega, hsz, ?_⟩
  · rw [Pool.grow_eq p h hnum hmax0 hmax.2.1 hmax.2.2, hl]
  · have := hchain h.bufs (h.mem ++ List.replicate p.max.toNat 0) rfl
    rw [hk] at this
    exact this

/-- The loop of `grow` as `grow` runs it on a pool with room. -/
theorem Pool.grow_fill (p : Pool) (h : Heap) (r : Pool × Heap) (hg : p.grow h = some r) :
    ∃ l, Pool.growFill p (Slice.mk h.mem.length p.max.toNat p.max.toNat) h.bufs.length
        (p.num.toNat - 1) 1 = some l ∧
      r = ({ p with free := some h.bufs.length },
        { bufs := h.bufs ++ l, mem := h.mem ++ List.replicate p.max.toNat 0 }) := by
  obtain ⟨hnum, hmax0, hlim, hrec⟩ := Pool.grow_inv p h r hg
  rw [Pool.grow_eq p h hnum hmax0 hlim hrec] at hg
  split at hg
  · exact absurd hg (by simp)
  · rename_i l hl
    exact ⟨l, hl, (Option.some.inj hg).symm⟩

/-- What a call of `NewPool` that returns shows of its arguments, when the
size is an `int`: the count is positive, the size is not negative, and the
product `num * size` did not wrap and is within the limit of `make`, as are
the `num` records. -/
theorem newPool_params (num size : Int) (h0 : Heap) (p : Pool) (h : Heap) (hint : IsInt size)
    (hnew : NewPool num size h0 = some (p, h)) :
    1 ≤ num ∧ 0 ≤ size ∧ (Pool.mk none (wrapInt (num * size)) num size).Fits := by
  unfold NewPool Pool.init at hnew
  obtain ⟨hnum, hmax0, hlim, hrec⟩ := Pool.grow_inv _ h0 _ hnew
  obtain ⟨l, hl, _⟩ := Pool.grow_fill _ h0 _ hnew
  simp only at hnum hmax0 hlim hrec hl
  have hcapi : (((Slice.mk h0.mem.length (wrapInt (num * size)).toNat
      (wrapInt (num * size)).toNat).cap : Nat) : Int) < 9223372036854775808 := by
    unfold maxAlloc at hlim
    simp only
    omega
  obtain ⟨hsize, hle⟩ := Pool.growFill_fits _ _ h0.bufs.length hint hcapi (num.toNat - 1) 1 l
    (le_refl 1) (by simp) (by simp) hl
  have e : ((1 + (num.toNat - 1) : Nat) : Int) = num := by omega
  simp only at hle
  rw [e] at hle
  have h0n : 0 ≤ num * size := mul_nonneg (by omega) hsize
  have hw : wrapInt (num * size) = num * size := by
    apply wrapInt_of_isInt
    unfold IsInt
    unfold maxAlloc at hlim
    omega
  exact ⟨hnum, hsize, hw, hlim, hrec⟩

/-- The pool `NewPool` returns carries the arguments of the call. -/
theorem newPool_fields (num size : Int) (h0 : Heap) (p : Pool) (h : Heap)
    (hnew : NewPool num size h0 = some (p, h)) :
    p = Pool.mk (some h0.bufs.length) (wrapInt (num * size)) num size := by
  unfold NewPool Pool.init at hnew
  obtain ⟨l, _, hr⟩ := Pool.grow_fill _ h0 _ hnew
  exact (Prod.mk.inj hr).1

/-! ## The invariant of a pool -/

/-- After `grow` the invariant holds, whatever the free list was before. -/
theorem poolInv_grow (p : Pool) (h : Heap) (out : List Nat) (hnum : 1 ≤ p.num)
    (hsize : 0 ≤ p.size) (hmax : p.Fits) (hnd : out.Nodup)
    (hout : ∀ b ∈ out, ∃ bv, h.bufs[b]? = some bv ∧ bv.size = p.size) :
    ∃ p1 h1 b, p.grow h = some (p1, h1) ∧ PoolInv ⟨p1, h1, out⟩ ∧ p1.free = some b ∧
      p1.num = p.num ∧ p1.size = p.size := by
  obtain ⟨l, hg, hlen, hsz, hchain⟩ := Pool.grow_spec p h hnum hsize hmax
  refine ⟨_, _, _, hg, ⟨hnum, hsize, hmax, hnd, ?_, _, hchain, ?_, ?_, ?_⟩, rfl, rfl, rfl⟩
  · intro b hb
    obtain ⟨bv, hbv, hs⟩ := hout b hb
    have hlt : b < h.bufs.length := (List.getElem?_eq_some.mp hbv).1
    exact ⟨bv, by simp only [List.getElem?_append_left hlt, hbv], hs⟩
  · exact List.nodup_range' _ _
  · intro b hb hbo
    obtain ⟨bv, hbv, _⟩ := hout b hbo
    have hlt : b < h.bufs.length := (List.getElem?_eq_some.mp hbv).1
    obtain ⟨j, _, hj⟩ := List.mem_range'.mp hb
    omega
  · intro b hb
    obtain ⟨j, hjn, hj⟩ := List.mem_range'.mp hb
    have hjl : j < l.length := by omega
    have hget : (h.bufs ++ l)[b]? = some (l.get ⟨j, hjl⟩) := by
      rw [List.getElem?_append_right (by omega)]
      have e : b - h.bufs.length = j := by omega
      rw [e]
      exact List.getElem?_eq_getElem hjl
    exact ⟨_, hget, hsz _ (List.get_mem _ _ _)⟩

/-- Popping the head of the free list keeps the invariant; the buffer popped
was not checked out, and it comes back reset. -/
theorem poolInv_pop (p : Pool) (h : Heap) (out : List Nat) (b : Nat)
    (hinv : PoolInv ⟨p, h, out⟩) (hfree : p.free = some b) :
    ∃ bv, h.bufs[b]? = some bv ∧ bv.size = p.size ∧ b ∉ out ∧
      Pool.pop p h b = some (b, { p with free := bv.next },
        { h with bufs := h.bufs.set b bv.Reset }) ∧
      PoolInv ⟨{ p with free := bv.next }, { h with bufs := h.bufs.set b bv.Reset }, b :: out⟩ := by
  obtain ⟨hnum, hsize, hmax, hnd, hout, l, hchain, hlnd, hdisj, hlsz⟩ := hinv
  simp only at hnum hsize hmax hnd hout hchain hdisj hlsz
  rw [hfree] at hchain
  obtain ⟨bv, l1, rfl, hbv, hc1⟩ := isFreeList_some_inv h b l hchain
  have hlt : b < h.bufs.length := (List.getElem?_eq_some.mp hbv).1
  obtain ⟨hbl1, hl1nd⟩ := List.nodup_cons.mp hlnd
  have hbout : b ∉ out := hdisj b (List.mem_cons_self _ _)
  obtain ⟨bv2, hbv2, hbsz⟩ := hlsz b (List.mem_cons_self _ _)
  rw [hbv] at hbv2
  cases hbv2
  have hother : ∀ x, x ≠ b → (h.bufs.set b bv.Reset)[x]? = h.bufs[x]? :=
    fun x hx => List.getElem?_set_ne (Ne.symm hx)
  refine ⟨bv, hbv, hbsz, hbout, by simp only [Pool.pop, hbv],
    hnum, hsize, hmax, List.nodup_cons.mpr ⟨hbout, hnd⟩, ?_, l1, ?_, hl1nd, ?_, ?_⟩
  · intro x hx
    rcases List.mem_cons.mp hx with rfl | hx
    · exact ⟨bv.Reset, List.getElem?_set_self hlt, hbsz⟩
    · have hne : x ≠ b := fun e => hbout (e ▸ hx)
      simp only [hother x hne]
      exact hout x hx
  · refine isFreeList_congr h _ l1 bv.next ?_ hc1
    intro x hx xv hxv
    have hne : x ≠ b := fun e => hbl1 (e ▸ hx)
    exact ⟨xv, by simp only [hother x hne, hxv], rfl⟩
  · intro x hx hxo
    rcases List.mem_cons.mp hxo with rfl | hxo
    · exact hbl1 hx
    · exact hdisj x (List.mem_cons_of_mem _ hx) hxo
  · intro x hx
    have hne : x ≠ b := fun e => hbl1 (e ▸ hx)
    simp only [hother x hne]
    exact hlsz x (List.mem_cons_of_mem _ hx)

/-- `Get` succeeds under the invariant and keeps it; the buffer it returns
was not checked out, has the pool's size, and is reset. -/
theorem poolInv_get (w : World) (hinv : PoolInv w) :
    ∃ b p1 h1 bv, w.pool.Get w.heap = some (b, p1, h1) ∧ PoolInv ⟨p1, h1, b :: w.out⟩ ∧
      b ∉ w.out ∧ h1.bufs[b]? = some bv ∧ bv.size = w.pool.size ∧ bv.buf.len = 0 ∧
      bv.off = 0 ∧ p1.num = w.pool.num ∧ p1.size = w.pool.size := by
  obtain ⟨p, h, out⟩ := w
  cases hfree : p.free with
  | some b =>
    obtain ⟨bv, hbv, hsz, hbout, hpop, hinv1⟩ := poolInv_pop p h out b hinv hfree
    have hlt : b < h.bufs.length := (List.getElem?_eq_some.mp hbv).1
    exact ⟨b, _, _, bv.Reset, by simp only [Pool.Get, hfree, hpop], hinv1, hbout,
      List.getElem?_set_self hlt, hsz, rfl, rfl, rfl, rfl⟩
  | none =>
    obtain ⟨hnum, hsize, hmax, hnd, hout, _⟩ := hinv
    obtain ⟨p1, h1, b, hg, hinv1, hfree1, hn1, hs1⟩ :=
      poolInv_grow p h out hnum hsize hmax hnd hout
    obtain ⟨bv, hbv, hsz, hbout, hpop, hinv2⟩ := poolInv_pop p1 h1 out b hinv1 hfree1
    have hlt : b < h1.bufs.length := (List.getElem?_eq_some.mp hbv).1
    exact ⟨b, _, _, bv.Reset, by simp only [Pool.Get, hfree, hg, hfree1, hpop], hinv2, hbout,
      List.getElem?_set_self hlt, by rw [← hs1]; exact hsz, rfl, rfl, hn1, hs1⟩

/-- `Put` of a checked-out buffer succeeds and keeps the invariant. -/
theorem poolInv_put (p : Pool) (h : Heap) (out : List Nat) (b : Nat)
    (hinv : PoolInv ⟨p, h, out⟩) (hb : b ∈ out) :
    ∃ bv, h.bufs[b]? = some bv ∧ bv.size = p.size ∧
      p.Put h b = some ({ p with free := some b },
        { h with bufs := h.bufs.set b { bv with next := p.free } }) ∧
      PoolInv ⟨{ p with free := some b },
        { h with bufs := h.bufs.set b { bv with next := p.free } }, out.erase b⟩ := by
  obtain ⟨hnum, hsize, hmax, hnd, hout, l, hchain, hlnd, hdisj, hlsz⟩ := hinv
  simp only at hnum hsize hmax hnd hout hchain hdisj hlsz
  obtain ⟨bv, hbv, hbsz⟩ := hout b hb
  have hlt : b < h.bufs.length := (List.getElem?_eq_some.mp hbv).1
  have hbl : b ∉ l := fun hbl => hdisj b hbl hb
  have hother : ∀ x, x ≠ b → (h.bufs.set b { bv with next := p.free })[x]? = h.bufs[x]? :=
    fun x hx => List.getElem?_set_ne (Ne.symm hx)
  have hself : (h.bufs.set b { bv with next := p.free })[b]? = some { bv with next := p.free } :=
    List.getElem?_set_self hlt
  refine ⟨bv, hbv, hbsz, by simp only [Pool.Put, hbv],
    hnum, hsize, hmax, hnd.erase b, ?_, b :: l, ?_, List.nodup_cons.mpr ⟨hbl, hlnd⟩, ?_, ?_⟩
  · intro x hx
    obtain ⟨hne, hxo⟩ := (List.Nodup.mem_erase_iff hnd).mp hx
    simp only [hother x hne]
    exact hout x hxo
  · rw [isFreeList_cons _ b l _ hself]
    refine isFreeList_congr h _ l p.free ?_ hchain
    intro x hx xv hxv
    have hne : x ≠ b := fun e => hbl (e ▸ hx)
    exact ⟨xv, by simp only [hother x hne, hxv], rfl⟩
  · intro x hx hxo
    obtain ⟨hne, hxo1⟩ := (List.Nodup.mem_erase_iff hnd).mp hxo
    rcases List.mem_cons.mp hx with rfl | hx
    · exact hne rfl
    · exact hdisj x hx hxo1
  · intro x hx
    rcases List.mem_cons.mp hx with rfl | hx
    · exact ⟨_, hself, hbsz⟩
    · have hne : x ≠ b := fun e => hbl (e ▸ hx)
      simp only [hother x hne]
      exact hlsz x hx

/-- Whatever the holder of a checked-out buffer does to its content and
cursor keeps the invariant. -/
theorem poolInv_use (p : Pool) (h : Heap) (out : List Nat) (b : Nat) (bv bv1 : Buffer)
    (mem1 : List Byte) (hinv : PoolInv ⟨p, h, out⟩) (hb : b ∈ out) (hbv : h.bufs[b]? = some bv)
    (hsz : bv1.size = bv.size) :
    PoolInv ⟨p, ⟨h.bufs.set b bv1, mem1⟩, out⟩ := by
  obtain ⟨hnum, hsize, hmax, hnd, hout, l, hchain, hlnd, hdisj, hlsz⟩ := hinv
  simp only at hnum hsize hmax hnd hout hchain hdisj hlsz
  have hlt : b < h.bufs.length := (List.getElem?_eq_some.mp hbv).1
  have hbl : b ∉ l := fun hbl => hdisj b hbl hb
  have hother : ∀ x, x ≠ b → (h.bufs.set b bv1)[x]? = h.bufs[x]? :=
    fun x hx => List.getElem?_set_ne (Ne.symm hx)
  refine ⟨hnum, hsize, hmax, hnd, ?_, l, ?_, hlnd, hdisj, ?_⟩
  · intro x hx
    by_cases hxb : x = b
    · subst hxb
      obtain ⟨bv2, hbv2, hs2⟩ := hout x hx
      rw [hbv] at hbv2
      cases hbv2
      exact ⟨bv1, List.getElem?_set_self hlt, by rw [hsz]; exact hs2⟩
    · simp only [hother x hxb]
      exact hout x hx
  · refine isFreeList_congr h _ l p.free ?_ hchain
    intro x hx xv hxv
    have hne : x ≠ b := fun e => hbl (e ▸ hx)
    exact ⟨xv, by simp only [hother x hne, hxv], rfl⟩
  · intro x hx
    have hne : x ≠ b := fun e => hbl (e ▸ hx)
    simp only [hother x hne]
    exact hlsz x hx

/-- The pool `NewPool` returns satisfies the invariant. -/
theorem poolInv_newPool (num size : Int) (h0 : Heap) (p : Pool) (h : Heap) (hint : IsInt size)
    (hnew : NewPool num size h0 = some (p, h)) :
    PoolInv ⟨p, h, []⟩ ∧ p.num = num ∧ p.size = size := by
  obtain ⟨hnum, hsize, hfits⟩ := newPool_params num size h0 p h hint hnew
  obtain ⟨p1, h1, b, hg, hinv, _, hn1, hs1⟩ :=
    poolInv_grow (Pool.mk none (wrapInt (num * size)) num size) h0 []
      hnum hsize hfits List.nodup_nil (fun b hb => absurd hb (List.not_mem_nil b))
  have hnew1 : NewPool num size h0 = some (p1, h1) := hg
  rw [hnew1] at hnew
  cases hnew
  exact ⟨hinv, hn1, hs1⟩

/-- `NewPool(num, size)` returns when `num >= 1`, `size >= 0`, and the
`num * size` bytes and the `num` records are within the limit of `make`. -/
theorem newPool_isSome (num size : Int) (h0 : Heap) (hnum : 1 ≤ num) (hsize : 0 ≤ size)
    (hmem : num * size ≤ maxAlloc) (hrec : num * sizeofBuffer ≤ maxAlloc) :
    ∃ p h, NewPool num size h0 = some (p, h) := by
  have h0n : 0 ≤ num * size := mul_nonneg (by omega) hsize
  have hw : wrapInt (num * size) = num * size := by
    apply wrapInt_of_isInt
    unfold IsInt
    unfold maxAlloc at hmem
    omega
  obtain ⟨p1, h1, b, hg, _⟩ :=
    poolInv_grow (Pool.mk none (wrapInt (num * size)) num size) h0 []
      hnum hsize ⟨hw, by rw [hw]; exact hmem, hrec⟩ List.nodup_nil
      (fun b hb => absurd hb (List.not_mem_nil b))
  exact ⟨p1, h1, hg⟩

/-- Where the arithmetic of `int` and the limit of `make` show: in
`NewPool(3, 6148914691236517206)` the product `num * size` is `2^64 + 2` and
wraps to 2, and the first slice expression panics; in `NewPool(2^62, 0)` the
records are more than `make` grants. -/
theorem NewPool_beyond_int :
    NewPool 3 6148914691236517206 emptyHeap = none ∧
    NewPool 4611686018427387904 0 emptyHeap = none := by
  decide

/-- Every state a pool reaches satisfies the invariant, with the count and
the size given to `NewPool`. -/
theorem reach_poolInv (num size : Int) (w : World) (hr : Reach num size w) :
    PoolInv w ∧ w.pool.num = num ∧ w.pool.size = size := by
  induction hr with
  | init h0 p h _ hint hnew => exact poolInv_newPool num size h0 p h hint hnew
  | get w b p1 h1 _ hget ih =>
    obtain ⟨b2, p2, h2, bv, hg, hinv, _, _, _, _, _, hn, hs⟩ := poolInv_get w ih.1
    rw [hg] at hget
    cases hget
    exact ⟨hinv, by rw [hn]; exact ih.2.1, by rw [hs]; exact ih.2.2⟩
  | put w b p1 h1 _ hb hput ih =>
    obtain ⟨bv, _, _, hp, hinv⟩ := poolInv_put w.pool w.heap w.out b ih.1 hb
    rw [hp] at hput
    cases hput
    exact ⟨hinv, ih.2.1, ih.2.2⟩
  | use w b bv bv1 mem1 _ hb hbv _ hsz ih =>
    exact ⟨poolInv_use w.pool w.heap w.out b bv bv1 mem1 ih.1 hb hbv hsz, ih.2.1, ih.2.2⟩

/-- Any number of calls of `Get` in a row succeed from a reachable state. -/
theorem reach_getN (num size : Int) :
    ∀ (k : Nat) (w : World), Reach num size w →
      ∃ bs p2 h2, Pool.getN k w.pool w.heap = some (bs, p2, h2) ∧ bs.length = k ∧
        Reach num size ⟨p2, h2, bs.reverse ++ w.out⟩ := by
  intro k
  induction k with
  | zero =>
    intro w hr
    exact ⟨[], w.pool, w.heap, rfl, rfl, by simpa using hr⟩
  | succ k ih =>
    intro w hr
    obtain ⟨b, p1, h1, bv, hg, _⟩ := poolInv_get w (reach_poolInv num size w hr).1
    obtain ⟨bs, p2, h2, hn, hlen, hr2⟩ := ih ⟨p1, h1, b :: w.out⟩ (Reach.get w b p1 h1 hr hg)
    refine ⟨b :: bs, p2, h2, by simp only [Pool.getN, hg, hn], by simp [hlen], ?_⟩
    simpa using hr2

/-! ## Pool.Get and Pool.Put -/

/-- C5: in every state a pool made by `NewPool(num, size)` reaches through
`Get`, `Put` of checked-out buffers and use of checked-out buffers, `Get`
returns a buffer whose `size` is `size`, with length 0 and cursor 0; and any
number `k` of `Get`s in a row succeed (so also `k > num`, when the free list
runs out and `grow` runs), each buffer handed out having size `size`.  A pool
is built only for `num >= 1` and `size >= 0`. -/
theorem Pool.get_never_fails (num size : Int) (w : World) (hr : Reach num size w) :
    (∃ b p1 h1 bv, w.pool.Get w.heap = some (b, p1, h1) ∧ h1.bufs[b]? = some bv ∧
      bv.size = size ∧ bv.buf.len = 0 ∧ bv.off = 0) ∧
    ∀ k : Nat, ∃ bs p2 h2, Pool.getN k w.pool w.heap = some (bs, p2, h2) ∧ bs.length = k ∧
      ∀ b ∈ bs, ∃ bv, h2.bufs[b]? = some bv ∧ bv.size = size := by
  obtain ⟨hinv, _, hsz⟩ := reach_poolInv num size w hr
  constructor
  · obtain ⟨b, p1, h1, bv, hg, _, _, hbv, hs, hl, ho, _, _⟩ := poolInv_get w hinv
    exact ⟨b, p1, h1, bv, hg, hbv, by rw [hs, hsz], hl, ho⟩
  · intro k
    obtain ⟨bs, p2, h2, hn, hlen, hr2⟩ := reach_getN num size k w hr
    refine ⟨bs, p2, h2, hn, hlen, ?_⟩
    intro b hb
    obtain ⟨hinv2, _, hsz2⟩ := reach_poolInv num size _ hr2
    obtain ⟨bv, hbv, hs⟩ := hinv2.2.2.2.2.1 b
      (List.mem_append_left _ (List.mem_reverse.mpr hb))
    exact ⟨bv, hbv, by rw [hs]; exact hsz2⟩

/-- C8: in every state a pool reaches through `Get`, `Put` of checked-out
buffers and use of checked-out buffers, the free list is a chain that ends in
`nil` and repeats no buffer, no buffer on it is checked out, and `Get` returns
a buffer that is not checked out. -/
theorem Pool.free_list_invariant (num size : Int) (w : World) (hr : Reach num size w) :
    (∃ l, isFreeList w.heap w.pool.free l = true ∧ l.Nodup ∧ ∀ b ∈ l, b ∉ w.out) ∧
    ∀ b p1 h1, w.pool.Get w.heap = some (b, p1, h1) → b ∉ w.out := by
  obtain ⟨hinv, _, _⟩ := reach_poolInv num size w hr
  constructor
  · obtain ⟨_, _, _, _, _, l, hchain, hnd, hdisj, _⟩ := hinv
    exact ⟨l, hchain, hnd, hdisj⟩
  · intro b p1 h1 hget
    obtain ⟨b2, p2, h2, bv, hg, _, hbout, _⟩ := poolInv_get w hinv
    rw [hg] at hget
    cases hget
    exact hbout

/-- C7: for a buffer `b` checked out of a pool, whatever it holds, `Put(b)`
followed by `Get` returns `b` again, with the pool's size, length 0 (so
`Bytes()` is empty) and cursor 0; the pool is as it was before the `Put`, and
so is its free list, and no other buffer was touched. -/
theorem Pool.put_then_get (num size : Int) (w : World) (hr : Reach num size w) (b : Nat)
    (hb : b ∈ w.out) :
    ∃ p1 h1 h2 bv, w.pool.Put w.heap b = some (p1, h1) ∧ p1.Get h1 = some (b, w.pool, h2) ∧
      h2.bufs[b]? = some bv ∧ bv.size = size ∧ bv.buf.len = 0 ∧ bv.Bytes.bytes h2.mem = [] ∧
      bv.off = 0 ∧
      (∀ l, isFreeList w.heap w.pool.free l = true → isFreeList h2 w.pool.free l = true) ∧
      (∀ x, x ≠ b → h2.bufs[x]? = w.heap.bufs[x]?) := by
  obtain ⟨hinv, _, hsz⟩ := reach_poolInv num size w hr
  obtain ⟨p, h, out⟩ := w
  simp only at hb hsz ⊢
  obtain ⟨bv0, hbv0, hs0, hput, _⟩ := poolInv_put p h out b hinv hb
  have hlt : b < h.bufs.length := (List.getElem?_eq_some.mp hbv0).1
  have hself : (h.bufs.set b { bv0 with next := p.free })[b]? =
      some { bv0 with next := p.free } := List.getElem?_set_self hlt
  have hother : ∀ x, x ≠ b →
      ((h.bufs.set b { bv0 with next := p.free }).set b
        (Buffer.Reset { bv0 with next := p.free }))[x]? = h.bufs[x]? := by
    intro x hx
    rw [List.getElem?_set_ne (Ne.symm hx), List.getElem?_set_ne (Ne.symm hx)]
  refine ⟨_, _, Heap.mk ((h.bufs.set b { bv0 with next := p.free }).set b
      (Buffer.Reset { bv0 with next := p.free })) h.mem,
    Buffer.Reset { bv0 with next := p.free }, hput, ?_, ?_, ?_, rfl, ?_, rfl, ?_, hother⟩
  · simp only [Pool.Get, Pool.pop, hself]
  · exact List.getElem?_set_self (by simpa using hlt)
  · show bv0.size = size
    rw [hs0, hsz]
  · simp [Buffer.Bytes, Buffer.Reset, Slice.bytes]
  · intro l hl
    obtain ⟨_, _, _, _, _, l0, hchain, _, hdisj, _⟩ := hinv
    have hl0 : l = l0 := isFreeList_unique h l p.free l0 hl hchain
    subst hl0
    have hbl : b ∉ l := fun hbl => hdisj b hbl hb
    refine isFreeList_congr h _ l p.free ?_ hl
    intro x hx xv hxv
    have hne : x ≠ b := fun e => hbl (e ▸ hx)
    exact ⟨xv, by simp only [hother x hne, hxv], rfl⟩

theorem reach_world0 : Reach 2 3 world0 :=
  Reach.init emptyHeap world0.pool world0.heap (by decide) (by decide) (by decide)

theorem reach_world1 : Reach 2 3 world1 :=
  Reach.get world0 0 world1.pool world1.heap reach_world0 (by decide)

theorem reach_world2 : Reach 2 3 world2 :=
  Reach.get world1 1 world2.pool world2.heap reach_world1 (by decide)

theorem Pool.get_never_fails_witness :
    Reach 2 3 world2 ∧
    ((∃ b p1 h1 bv, world2.pool.Get world2.heap = some (b, p1, h1) ∧ h1.bufs[b]? = some bv ∧
      bv.size = 3 ∧ bv.buf.len = 0 ∧ bv.off = 0) ∧
    ∀ k : Nat, ∃ bs p2 h2, Pool.getN k world2.pool world2.heap = some (bs, p2, h2) ∧
      bs.length = k ∧ ∀ b ∈ bs, ∃ bv, h2.bufs[b]? = some bv ∧ bv.size = 3) :=
  ⟨reach_world2, Pool.get_never_fails 2 3 world2 reach_world2⟩

theorem Pool.free_list_invariant_witness :
    Reach 2 3 world1 ∧
    ((∃ l, isFreeList world1.heap world1.pool.free l = true ∧ l.Nodup ∧ ∀ b ∈ l, b ∉ world1.out) ∧
    ∀ b p1 h1, world1.pool.Get world1.heap = some (b, p1, h1) → b ∉ world1.out) :=
  ⟨reach_world1, Pool.free_list_invariant 2 3 world1 reach_world1⟩

theorem Pool.put_then_get_witness :
    Reach 2 3 world2 ∧ 0 ∈ world2.out ∧
    ∃ p1 h1 h2 bv, world2.pool.Put world2.heap 0 = some (p1, h1) ∧
      p1.Get h1 = some (0, world2.pool, h2) ∧
      h2.bufs[0]? = some bv ∧ bv.size = 3 ∧ bv.buf.len = 0 ∧ bv.Bytes.bytes h2.mem = [] ∧
      bv.off = 0 ∧
      (∀ l, isFreeList world2.heap world2.pool.free l = true →
        isFreeList h2 world2.pool.free l = true) ∧
      (∀ x, x ≠ 0 → h2.bufs[x]? = world2.heap.bufs[x]?) :=
  ⟨reach_world2, by decide, Pool.put_then_get 2 3 world2 reach_world2 0 (by decide)⟩

/-! ## The invariant of a multi-level pool -/

theorem Ext.refl (base : Nat) (h : Heap) (hb : base ≤ h.bufs.length) : Ext base h h :=
  ⟨hb, fun _ _ hg => hg⟩

theorem Ext.trans (base : Nat) (h h1 h2 : Heap) (h01 : Ext base h h1) (h12 : Ext base h1 h2) :
    Ext base h h2 :=
  ⟨h12.1, fun x s hg => h12.2 x s (h01.2 x s hg)⟩

theorem LevelOK.ext (base : Nat) (h h1 : Heap) (p : Pool) (hext : Ext base h h1)
    (hp : LevelOK base h p) : LevelOK base h1 p :=
  ⟨hp.1, hp.2.1, hp.2.2.1, fun b hb => hext.2 b p.size (hp.2.2.2 b hb)⟩

/-- Replacing a buffer by one of the same size extends the heap. -/
theorem ext_set (base : Nat) (h : Heap) (b : Nat) (bv bv1 : Buffer) (mem1 : List Byte)
    (hlen : base ≤ h.bufs.length) (hbv : h.bufs[b]? = some bv) (hsz : bv1.size = bv.size) :
    Ext base h ⟨h.bufs.set b bv1, mem1⟩ := by
  have hlt : b < h.bufs.length := (List.getElem?_eq_some.mp hbv).1
  refine ⟨by simpa using hlen, ?_⟩
  rintro x s ⟨hx, xv, hxv, hxs⟩
  by_cases hxb : x = b
  · subst hxb
    rw [hbv] at hxv
    cases hxv
    exact ⟨hx, bv1, List.getElem?_set_self hlt, by rw [hsz]; exact hxs⟩
  · exact ⟨hx, xv, by simp only [List.getElem?_set_ne (Ne.symm hxb), hxv], hxs⟩

/-- Replacing a buffer by one of the same size whose link is good keeps all links good. -/
theorem linksOK_set (base : Nat) (h : Heap) (b : Nat) (bv bv1 : Buffer) (mem1 : List Byte)
    (hlen : base ≤ h.bufs.length) (hlinks : LinksOK base h) (hbv : h.bufs[b]? = some bv)
    (hsz : bv1.size = bv.size) (hnext : ∀ n, bv1.next = some n → Good base h n bv.size) :
    LinksOK base ⟨h.bufs.set b bv1, mem1⟩ := by
  have hext := ext_set base h b bv bv1 mem1 hlen hbv hsz
  have hlt : b < h.bufs.length := (List.getElem?_eq_some.mp hbv).1
  intro x xv hx hxv n hn
  by_cases hxb : x = b
  · subst hxb
    have e : (h.bufs.set x bv1)[x]? = some bv1 := List.getElem?_set_self hlt
    have hxv1 : some bv1 = some xv := by rw [← e]; exact hxv
    cases hxv1
    rw [hsz]
    exact hext.2 n bv.size (hnext n hn)
  · have e : h.bufs[x]? = some xv := by
      rw [← List.getElem?_set_ne (Ne.symm hxb)]; exact hxv
    exact hext.2 n xv.size (hlinks x xv hx e n hn)

/-- The links `grow` sets lead into the batch it makes. -/
theorem Pool.growFill_next (p : Pool) (buf : Slice) (bs : Nat) :
    ∀ (k i : Nat) (l : List Buffer), Pool.growFill p buf bs k i = some l →
      ∀ bv ∈ l, ∀ n, bv.next = some n → bs + i ≤ n ∧ n < bs + i + k := by
  intro k
  induction k with
  | zero =>
    intro i l hl bv hbv n hn
    simp only [Pool.growFill] at hl
    split at hl
    · exact absurd hl (by simp)
    · cases hl
      rw [List.mem_singleton.mp hbv] at hn
      exact absurd hn (by simp)
  | succ k ih =>
    intro i l hl bv hbv n hn
    simp only [Pool.growFill] at hl
    split at hl
    · exact absurd hl (by simp)
    · split at hl
      · exact absurd hl (by simp)
      · rename_i rest hrest
        cases hl
        rcases List.mem_cons.mp hbv with rfl | hbv
        · simp only [Option.some.injEq] at hn
          omega
        · have := ih (i + 1) rest hrest bv hbv n hn
          omega

/-- `grow` succeeds on a level, extends the heap, keeps all links good, and
leaves a good buffer at the head of the free list. -/
theorem grow_ok (base : Nat) (p : Pool) (h : Heap) (hnum : 1 ≤ p.num) (hsize : 0 ≤ p.size)
    (hmax : p.Fits) (hlen : base ≤ h.bufs.length) (hlinks : LinksOK base h) :
    ∃ h1 b, p.grow h = some ({ p with free := some b }, h1) ∧ LinksOK base h1 ∧
      Ext base h h1 ∧ Good base h1 b p.size := by
  obtain ⟨l, hg, hl, hsz, _⟩ := Pool.grow_spec p h hnum hsize hmax
  have hfill : Pool.growFill p (Slice.mk h.mem.length p.max.toNat p.max.toNat) h.bufs.length
      (p.num.toNat - 1) 1 = some l := by
    obtain ⟨l1, hl1, hr⟩ := Pool.grow_fill p h _ hg
    simp only [Prod.mk.injEq, Heap.mk.injEq, List.append_cancel_left_eq, true_and,
      and_true] at hr
    rw [hr]; exact hl1
  have hnew : ∀ x, h.bufs.length ≤ x → x < h.bufs.length + l.length →
      ∃ xv, (h.bufs ++ l)[x]? = some xv ∧ xv ∈ l := by
    intro x h1 h2
    have hj : x - h.bufs.length < l.length := by omega
    exact ⟨l.get ⟨x - h.bufs.length, hj⟩, by
      rw [List.getElem?_append_right h1]; exact List.getElem?_eq_getElem hj,
      List.get_mem _ _ _⟩
  have hext : Ext base h ⟨h.bufs ++ l, h.mem ++ List.replicate p.max.toNat 0⟩ := by
    refine ⟨by simp; omega, ?_⟩
    rintro x s ⟨hx, xv, hxv, hxs⟩
    have hlt : x < h.bufs.length := (List.getElem?_eq_some.mp hxv).1
    exact ⟨hx, xv, by simp only [List.getElem?_append_left hlt, hxv], hxs⟩
  refine ⟨_, _, hg, ?_, hext, ?_⟩
  · intro x xv hx hxv n hn
    by_cases hlt : x < h.bufs.length
    · have e : h.bufs[x]? = some xv := by
        rw [← List.getElem?_append_left hlt]; exact hxv
      exact hext.2 n xv.size (hlinks x xv hx e n hn)
    · have hxl : x < h.bufs.length + l.length := by
        have := (List.getElem?_eq_some.mp hxv).1
        simpa using this
      obtain ⟨xv1, hxv1, hmem⟩ := hnew x (by omega) hxl
      simp only at hxv
      rw [hxv1] at hxv
      have e1 : xv1 = xv := Option.some.inj hxv
      subst e1
      obtain ⟨hn1, hn2⟩ := Pool.growFill_next p _ _ _ _ l hfill xv1 hmem n hn
      obtain ⟨nv, hnv, hnmem⟩ := hnew n (by omega) (by omega)
      exact ⟨by omega, nv, hnv, by rw [hsz nv hnmem, hsz xv1 hmem]⟩
  · obtain ⟨xv, hxv, hmem⟩ := hnew h.bufs.length (le_refl _) (by omega)
    exact ⟨hlen, xv, hxv, hsz xv hmem⟩

/-- Popping the head of a level's free list: the heap is extended, links
and level stay good, and the buffer popped is good. -/
theorem pop_ok (base : Nat) (p : Pool) (h : Heap) (b : Nat) (hlen : base ≤ h.bufs.length)
    (hlinks : LinksOK base h) (hp : LevelOK base h p) (hfree : p.free = some b) :
    ∃ p1 h1, Pool.pop p h b = some (b, p1, h1) ∧ LinksOK base h1 ∧ Ext base h h1 ∧
      LevelOK base h1 p1 ∧ Good base h1 b p.size ∧ p1.size = p.size := by
  obtain ⟨hnum, hsize, hmax, hgood⟩ := hp
  obtain ⟨hb, bv, hbv, hbs⟩ := hgood b hfree
  have hext := ext_set base h b bv bv.Reset h.mem hlen hbv rfl
  refine ⟨{ p with free := bv.next }, ⟨h.bufs.set b bv.Reset, h.mem⟩,
    by simp only [Pool.pop, hbv], ?_, hext, ⟨hnum, hsize, hmax, ?_⟩, ?_, rfl⟩
  · exact linksOK_set base h b bv bv.Reset h.mem hlen hlinks hbv rfl
      (fun n hn => hlinks b bv hb hbv n hn)
  · intro n hn
    have := hlinks b bv hb hbv n hn
    rw [hbs] at this
    exact hext.2 n p.size this
  · exact hext.2 b p.size ⟨hb, bv, hbv, hbs⟩

/-- `Get` on a level succeeds: the heap is extended, links and level stay
good, and the buffer returned is good, of the level's size. -/
theorem get_ok (base : Nat) (p : Pool) (h : Heap) (hlen : base ≤ h.bufs.length)
    (hlinks : LinksOK base h) (hp : LevelOK base h p) :
    ∃ b p1 h1, p.Get h = some (b, p1, h1) ∧ LinksOK base h1 ∧ Ext base h h1 ∧
      LevelOK base h1 p1 ∧ Good base h1 b p.size ∧ p1.size = p.size := by
  cases hfree : p.free with
  | some b =>
    obtain ⟨p1, h1, hpop, r⟩ := pop_ok base p h b hlen hlinks hp hfree
    exact ⟨b, p1, h1, by simp only [Pool.Get, hfree, hpop], r⟩
  | none =>
    obtain ⟨hnum, hsize, hmax, _⟩ := hp
    obtain ⟨h1, b, hg, hlinks1, hext1, hgood1⟩ := grow_ok base p h hnum hsize hmax hlen hlinks
    have hp1 : LevelOK base h1 { p with free := some b } :=
      ⟨hnum, hsize, hmax, fun x hx => by
        simp only [Option.some.injEq] at hx
        subst hx; exact hgood1⟩
    obtain ⟨p2, h2, hpop, hlinks2, hext2, hp2, hgood2, hs2⟩ :=
      pop_ok base { p with free := some b } h1 b hext1.1 hlinks1 hp1 rfl
    exact ⟨b, p2, h2, by simp only [Pool.Get, hfree, hg, hpop], hlinks2,
      Ext.trans base h h1 h2 hext1 hext2, hp2, hgood2, hs2⟩

/-- The loop of `MultiLevelPool.Get` succeeds: it returns `nil` exactly when
every level is too small, and otherwise a good buffer whose size is the first
level size that is large enough. -/
theorem getLoop_ok (base : Nat) (size : Int) :
    ∀ (ps : List Pool) (h : Heap), base ≤ h.bufs.length → LinksOK base h →
      (∀ p ∈ ps, LevelOK base h p) →
      ∃ r ps1 h1, MultiLevelPool.getLoop ps size h = some (r, ps1, h1) ∧ LinksOK base h1 ∧
        Ext base h h1 ∧ (∀ p ∈ ps1, LevelOK base h1 p) ∧
        ps1.map Pool.size = ps.map Pool.size ∧
        (r = none ↔ ∀ p ∈ ps, p.size < size) ∧
        ∀ b, r = some b → ∃ c, Good base h1 b c ∧ FirstFit (ps.map Pool.size) size c := by
  intro ps
  induction ps with
  | nil =>
    intro h hlen hlinks _
    exact ⟨none, [], h, rfl, hlinks, Ext.refl base h hlen, by simp, rfl, by simp,
      fun b hb => absurd hb (by simp)⟩
  | cons p ps ih =>
    intro h hlen hlinks hps
    by_cases hge : p.size ≥ size
    · obtain ⟨b, p1, h1, hget, hlinks1, hext1, hp1, hgood1, hs1⟩ :=
        get_ok base p h hlen hlinks (hps p (List.mem_cons_self _ _))
      refine ⟨some b, p1 :: ps, h1, by simp only [MultiLevelPool.getLoop, hge, if_true, hget],
        hlinks1, hext1, ?_, by simp [hs1], ?_, ?_⟩
      · intro q hq
        rcases List.mem_cons.mp hq with rfl | hq
        · exact hp1
        · exact LevelOK.ext base h h1 q hext1 (hps q (List.mem_cons_of_mem _ hq))
      · constructor
        · intro hn; exact absurd hn (by simp)
        · intro hall
          have := hall p (List.mem_cons_self _ _)
          omega
      · intro b1 hb1
        simp only [Option.some.injEq] at hb1
        subst hb1
        exact ⟨p.size, hgood1, [], ps.map Pool.size, by simp, by simp, hge⟩
    · obtain ⟨r, ps1, h1, hloop, hlinks1, hext1, hps1, hmap1, hnone, hsome⟩ :=
        ih h hlen hlinks (fun q hq => hps q (List.mem_cons_of_mem _ hq))
      refine ⟨r, p :: ps1, h1, by simp only [MultiLevelPool.getLoop, hge, if_false, hloop],
        hlinks1, hext1, ?_, by simp [hmap1], ?_, ?_⟩
      · intro q hq
        rcases List.mem_cons.mp hq with rfl | hq
        · exact LevelOK.ext base h h1 q hext1 (hps q (List.mem_cons_self _ _))
        · exact hps1 q hq
      · rw [hnone]
        constructor
        · intro hall q hq
          rcases List.mem_cons.mp hq with rfl | hq
          · omega
          · exact hall q hq
        · intro hall q hq
          exact hall q (List.mem_cons_of_mem _ hq)
      · intro b hb
        obtain ⟨c, hgood, pre, post, hsplit, hpre, hc⟩ := hsome b hb
        refine ⟨c, hgood, p.size :: pre, post, by simp [hsplit], ?_, hc⟩
        intro x hx
        rcases List.mem_cons.mp hx with rfl | hx
        · omega
        · exact hpre x hx

/-- `Put` on a level of a good buffer of the level's size: the heap is
extended, links and level stay good. -/
theorem put_ok (base : Nat) (p : Pool) (h : Heap) (b : Nat) (hlen : base ≤ h.bufs.length)
    (hlinks : LinksOK base h) (hp : LevelOK base h p) (hb : Good base h b p.size) :
    ∃ p1 h1, p.Put h b = some (p1, h1) ∧ LinksOK base h1 ∧ Ext base h h1 ∧
      LevelOK base h1 p1 ∧ p1.size = p.size := by
  obtain ⟨hnum, hsize, hmax, hgood⟩ := hp
  obtain ⟨hbase, bv, hbv, hbs⟩ := hb
  have hext := ext_set base h b bv { bv with next := p.free } h.mem hlen hbv rfl
  refine ⟨{ p with free := some b }, ⟨h.bufs.set b { bv with next := p.free }, h.mem⟩,
    by simp only [Pool.Put, hbv], ?_, hext, ⟨hnum, hsize, hmax, ?_⟩, rfl⟩
  · refine linksOK_set base h b bv _ h.mem hlen hlinks hbv rfl ?_
    intro n hn
    rw [hbs]
    exact hgood n hn
  · intro x hx
    simp only [Option.some.injEq] at hx
    subst hx
    exact hext.2 _ p.size ⟨hbase, bv, hbv, hbs⟩

/-- The loop of `MultiLevelPool.Put` on a good buffer succeeds: the heap is
extended, links and levels stay good, and the level sizes are unchanged. -/
theorem putLoop_ok (base : Nat) (b : Nat) :
    ∀ (ps : List Pool) (h : Heap), base ≤ h.bufs.length → LinksOK base h →
      (∀ p ∈ ps, LevelOK base h p) → (∃ s, Good base h b s) →
      ∃ ps1 h1, MultiLevelPool.putLoop ps b h = some (ps1, h1) ∧ LinksOK base h1 ∧
        Ext base h h1 ∧ (∀ p ∈ ps1, LevelOK base h1 p) ∧
        ps1.map Pool.size = ps.map Pool.size := by
  intro ps
  induction ps with
  | nil =>
    intro h hlen hlinks _ _
    exact ⟨[], h, rfl, hlinks, Ext.refl base h hlen, by simp, rfl⟩
  | cons p ps ih =>
    intro h hlen hlinks hps hb
    obtain ⟨s, hbase, bv, hbv, hbs⟩ := hb
    by_cases heq : p.size = bv.size
    · obtain ⟨p1, h1, hput, hlinks1, hext1, hp1, hs1⟩ :=
        put_ok base p h b hlen hlinks (hps p (List.mem_cons_self _ _))
          ⟨hbase, bv, hbv, heq.symm⟩
      obtain ⟨ps1, h2, hloop, hlinks2, hext2, hps2, hmap2⟩ :=
        ih h1 hext1.1 hlinks1
          (fun q hq => LevelOK.ext base h h1 q hext1 (hps q (List.mem_cons_of_mem _ hq)))
          ⟨s, hext1.2 b s ⟨hbase, bv, hbv, hbs⟩⟩
      refine ⟨p1 :: ps1, h2, by simp only [MultiLevelPool.putLoop, hbv, heq, if_true, hput, hloop],
        hlinks2, Ext.trans base h h1 h2 hext1 hext2, ?_, by simp [hmap2, hs1]⟩
      intro q hq
      rcases List.mem_cons.mp hq with rfl | hq
      · exact LevelOK.ext base h1 h2 q hext2 hp1
      · exact hps2 q hq
    · obtain ⟨ps1, h2, hloop, hlinks2, hext2, hps2, hmap2⟩ :=
        ih h hlen hlinks (fun q hq => hps q (List.mem_cons_of_mem _ hq))
          ⟨s, hbase, bv, hbv, hbs⟩
      refine ⟨p :: ps1, h2, by simp only [MultiLevelPool.putLoop, hbv, heq, if_false, hloop],
        hlinks2, hext2, ?_, by simp [hmap2]⟩
      intro q hq
      rcases List.mem_cons.mp hq with rfl | hq
      · exact LevelOK.ext base h h2 q hext2 (hps q (List.mem_cons_self _ _))
      · exact hps2 q hq

/-- The loop of `NewMultiLevelPool`, when it succeeds, extends the heap and
makes one good level per option, in order, with the option's size. -/
theorem buildPools_ok (base : Nat) :
    ∀ (os : List PoolOpt) (h : Heap) (ps : List Pool) (h1 : Heap),
      (∀ o ∈ os, IsInt o.Size) → base ≤ h.bufs.length →
      LinksOK base h → buildPools os h = some (ps, h1) →
      LinksOK base h1 ∧ Ext base h h1 ∧ (∀ p ∈ ps, LevelOK base h1 p) ∧
        ps.map Pool.size = os.map PoolOpt.Size := by
  intro os
  induction os with
  | nil =>
    intro h ps h1 _ hlen hlinks hb
    simp only [buildPools, Option.some.injEq, Prod.mk.injEq] at hb
    obtain ⟨rfl, rfl⟩ := hb
    exact ⟨hlinks, Ext.refl base h hlen, by simp, rfl⟩
  | cons o os ih =>
    intro h ps h1 hint hlen hlinks hb
    simp only [buildPools] at hb
    split at hb
    · exact absurd hb (by simp)
    · rename_i p ha hnew
      split at hb
      · exact absurd hb (by simp)
      · rename_i ps1 h2 hrest
        simp only [Option.some.injEq, Prod.mk.injEq] at hb
        obtain ⟨rfl, rfl⟩ := hb
        obtain ⟨hnum, hsize, hfits⟩ :=
          newPool_params o.Num o.Size h p ha (hint o (List.mem_cons_self _ _)) hnew
        obtain ⟨hg1, b, hg, hlinksa, hexta, hgooda⟩ :=
          grow_ok base (Pool.mk none (wrapInt (o.Num * o.Size)) o.Num o.Size) h
            hnum hsize hfits hlen hlinks
        have hnew1 : NewPool o.Num o.Size h = some
            (Pool.mk (some b) (wrapInt (o.Num * o.Size)) o.Num o.Size, hg1) := hg
        rw [hnew] at hnew1
        simp only [Option.some.injEq, Prod.mk.injEq] at hnew1
        obtain ⟨rfl, rfl⟩ := hnew1
        obtain ⟨hlinks2, hext2, hps2, hmap2⟩ := ih ha ps1 h2
          (fun q hq => hint q (List.mem_cons_of_mem _ hq)) hexta.1 hlinksa hrest
        refine ⟨hlinks2, Ext.trans base h ha h2 hexta hext2, ?_, by simp [hmap2]⟩
        intro q hq
        rcases List.mem_cons.mp hq with rfl | hq
        · exact ⟨hnum, hsize, hfits, fun x hx => by
            simp only [Option.some.injEq] at hx
            subst hx; exact hext2.2 _ _ hgooda⟩
        · exact hps2 q hq

/-- Every state a multi-level pool reaches satisfies the invariant, for the
arena length `base` of the heap it was built on. -/
theorem mreach_inv (srt : List PoolOpt → List PoolOpt) (hsrt : SortsBySize srt)
    (opts : List PoolOpt) (w : MWorld)
    (hr : MReach srt opts w) : ∃ base, MInv base ((srt opts).map PoolOpt.Size) w := by
  induction hr with
  | init h0 mlp h hint hnew =>
    refine ⟨h0.bufs.length, ?_⟩
    unfold NewMultiLevelPool at hnew
    split at hnew
    · exact absurd hnew (by simp)
    · rename_i ps h1 hb
      simp only [Option.some.injEq, Prod.mk.injEq] at hnew
      obtain ⟨rfl, rfl⟩ := hnew
      have hlinks0 : LinksOK h0.bufs.length h0 := by
        intro b bv hb1 hbv
        have := (List.getElem?_eq_some.mp hbv).1
        omega
      obtain ⟨hlinks, hext, hps, hmap⟩ :=
        buildPools_ok h0.bufs.length (srt opts) h0 ps h1
          (fun o ho => (hint o ((hsrt opts).1.mem_iff.mp ho)).2) (le_refl _) hlinks0 hb
      exact ⟨hext.1, hlinks, hps, fun b hb => absurd hb (List.not_mem_nil b), hmap⟩
  | get w size b mlp1 h1 _ hget ih =>
    obtain ⟨base, hlen, hlinks, hps, hout, hmap⟩ := ih
    refine ⟨base, ?_⟩
    obtain ⟨r, ps1, h2, hloop, hlinks2, hext2, hps2, hmap2, _, hsome⟩ :=
      getLoop_ok base size w.mlp.pools w.heap hlen hlinks hps
    simp only [MultiLevelPool.Get, hloop, Option.some.injEq, Prod.mk.injEq] at hget
    obtain ⟨rfl, rfl, rfl⟩ := hget
    obtain ⟨c, ⟨hbase, bv, hbv, _⟩, _⟩ := hsome b rfl
    refine ⟨hext2.1, hlinks2, hps2, ?_, by rw [← hmap]; exact hmap2⟩
    intro x hx
    rcases List.mem_cons.mp hx with rfl | hx
    · exact ⟨bv, hbase, hbv⟩
    · obtain ⟨xv, hxb, hxv⟩ := hout x hx
      obtain ⟨_, xv1, hxv1, _⟩ := hext2.2 x xv.size ⟨hxb, xv, hxv, rfl⟩
      exact ⟨xv1, hxb, hxv1⟩
  | getNil w size mlp1 h1 _ hget ih =>
    obtain ⟨base, hlen, hlinks, hps, hout, hmap⟩ := ih
    refine ⟨base, ?_⟩
    obtain ⟨r, ps1, h2, hloop, hlinks2, hext2, hps2, hmap2, _, _⟩ :=
      getLoop_ok base size w.mlp.pools w.heap hlen hlinks hps
    simp only [MultiLevelPool.Get, hloop, Option.some.injEq, Prod.mk.injEq] at hget
    obtain ⟨rfl, rfl, rfl⟩ := hget
    refine ⟨hext2.1, hlinks2, hps2, ?_, by rw [← hmap]; exact hmap2⟩
    intro x hx
    obtain ⟨xv, hxb, hxv⟩ := hout x hx
    obtain ⟨_, xv1, hxv1, _⟩ := hext2.2 x xv.size ⟨hxb, xv, hxv, rfl⟩
    exact ⟨xv1, hxb, hxv1⟩
  | put w b mlp1 h1 _ hb hput ih =>
    obtain ⟨base, hlen, hlinks, hps, hout, hmap⟩ := ih
    refine ⟨base, ?_⟩
    obtain ⟨bv, hbase, hbv⟩ := hout b hb
    obtain ⟨ps1, h2, hloop, hlinks2, hext2, hps2, hmap2⟩ :=
      putLoop_ok base b w.mlp.pools w.heap hlen hlinks hps ⟨bv.size, hbase, bv, hbv, rfl⟩
    simp only [MultiLevelPool.Put, hloop, Option.some.injEq, Prod.mk.injEq] at hput
    obtain ⟨rfl, rfl⟩ := hput
    refine ⟨hext2.1, hlinks2, hps2, ?_, by rw [← hmap]; exact hmap2⟩
    intro x hx
    obtain ⟨xv, hxb, hxv⟩ := hout x (List.mem_of_mem_erase hx)
    obtain ⟨_, xv1, hxv1, _⟩ := hext2.2 x xv.size ⟨hxb, xv, hxv, rfl⟩
    exact ⟨xv1, hxb, hxv1⟩
  | use w b bv bv1 mem1 _ hb hbv hnext hsz ih =>
    obtain ⟨base, hlen, hlinks, hps, hout, hmap⟩ := ih
    refine ⟨base, ?_⟩
    obtain ⟨bv2, hbase, hbv2⟩ := hout b hb
    have hext := ext_set base w.heap b bv bv1 mem1 hlen hbv hsz
    refine ⟨hext.1, ?_, fun p hp => LevelOK.ext base _ _ p hext (hps p hp), ?_, hmap⟩
    · refine linksOK_set base w.heap b bv bv1 mem1 hlen hlinks hbv hsz ?_
      intro n hn
      rw [hnext] at hn
      exact hlinks b bv hbase hbv n hn
    · intro x hx
      obtain ⟨xv, hxb, hxv⟩ := hout x hx
      obtain ⟨_, xv1, hxv1, _⟩ := hext.2 x xv.size ⟨hxb, xv, hxv, rfl⟩
      exact ⟨xv1, hxb, hxv1⟩

/-! ## MultiLevelPool.Get and MultiLevelPool.Put -/

/-- C6: in every state a multi-level pool built by `NewMultiLevelPool` from
`opts` (in any order) reaches, `Get(size)` returns; it returns `nil` exactly
when `size` is greater than every configured size, and otherwise a buffer
whose `size` is at least `size`, is one of the configured sizes, and is the
smallest configured size that is at least `size`. -/
theorem MultiLevelPool.get_selects (srt : List PoolOpt → List PoolOpt) (hsrt : SortsBySize srt)
    (opts : List PoolOpt) (w : MWorld) (hr : MReach srt opts w) (size : Int) :
    ∃ r mlp1 h1, w.mlp.Get size w.heap = some (r, mlp1, h1) ∧
      (r = none ↔ ∀ o ∈ opts, o.Size < size) ∧
      ∀ b, r = some b → ∃ bv, h1.bufs[b]? = some bv ∧ size ≤ bv.size ∧
        (∃ o ∈ opts, o.Size = bv.size) ∧ ∀ o ∈ opts, size ≤ o.Size → bv.size ≤ o.Size := by
  obtain ⟨base, hlen, hlinks, hps, _, hmap⟩ := mreach_inv srt hsrt opts w hr
  obtain ⟨r, ps1, h1, hloop, _, _, _, _, hnone, hsome⟩ :=
    getLoop_ok base size w.mlp.pools w.heap hlen hlinks hps
  obtain ⟨hperm, hsorted⟩ := hsrt opts
  have hmem : ∀ x : Int, x ∈ w.mlp.pools.map Pool.size ↔ ∃ o ∈ opts, o.Size = x := by
    intro x
    rw [hmap, List.mem_map]
    constructor
    · rintro ⟨o, ho, rfl⟩
      exact ⟨o, hperm.mem_iff.mp ho, rfl⟩
    · rintro ⟨o, ho, rfl⟩
      exact ⟨o, hperm.mem_iff.mpr ho, rfl⟩
  refine ⟨r, ⟨ps1⟩, h1, by simp only [MultiLevelPool.Get, hloop], ?_, ?_⟩
  · rw [hnone]
    constructor
    · intro hall o ho
      obtain ⟨p, hp, hpo⟩ := List.mem_map.mp ((hmem o.Size).mpr ⟨o, ho, rfl⟩)
      rw [← hpo]
      exact hall p hp
    · intro hall p hp
      obtain ⟨o, ho, hop⟩ := (hmem p.size).mp (List.mem_map.mpr ⟨p, hp, rfl⟩)
      rw [← hop]
      exact hall o ho
  · intro b hb
    obtain ⟨c, ⟨_, bv, hbv, hbs⟩, pre, post, hsplit, hpre, hc⟩ := hsome b hb
    subst hbs
    have hcmem : bv.size ∈ w.mlp.pools.map Pool.size := by
      rw [hsplit]; simp
    have hsz : ((srt opts).map PoolOpt.Size).Pairwise (fun a b => a ≤ b) := by
      rw [List.pairwise_map]
      refine hsorted.imp ?_
      intro a b hab
      simp only [PoolOpt.Less, decide_eq_true_eq, not_lt] at hab
      exact hab
    rw [← hmap, hsplit] at hsz
    have hpost : ∀ y ∈ post, bv.size ≤ y :=
      (List.pairwise_cons.mp (List.pairwise_append.mp hsz).2.1).1
    refine ⟨bv, hbv, hc, (hmem bv.size).mp hcmem, ?_⟩
    intro o ho hso
    have : o.Size ∈ pre ++ bv.size :: post := by
      rw [← hsplit]; exact (hmem o.Size).mpr ⟨o, ho, rfl⟩
    rcases List.mem_append.mp this with h1 | h1
    · have := hpre _ h1
      omega
    · rcases List.mem_cons.mp h1 with h2 | h2
      · omega
      · exact hpost _ h2

/-- The insertion sort by `Size` is a sorting function in the sense of `SortsBySize`. -/
theorem sortSort_sorts : SortsBySize sortSort := by
  intro l
  refine ⟨List.perm_insertionSort _ l, ?_⟩
  haveI : IsTotal PoolOpt (fun a b => a.Size ≤ b.Size) := ⟨fun a b => le_total a.Size b.Size⟩
  haveI : IsTrans PoolOpt (fun a b => a.Size ≤ b.Size) :=
    ⟨fun a b c hab hbc => le_trans hab hbc⟩
  have hs : (sortSort l).Pairwise (fun a b => a.Size ≤ b.Size) :=
    List.sorted_insertionSort (fun a b : PoolOpt => a.Size ≤ b.Size) l
  refine hs.imp ?_
  intro a b hab
  simp only [PoolOpt.Less, decide_eq_true_eq, not_lt]
  exact hab

theorem mreach_mworld0 : MReach sortSort opts1020 mworld0 :=
  MReach.init emptyHeap mworld0.mlp mworld0.heap (by decide) (by decide)

theorem MultiLevelPool.get_selects_witness :
    SortsBySize sortSort ∧ MReach sortSort opts1020 mworld0 ∧
    (∃ r mlp1 h1, mworld0.mlp.Get 15 mworld0.heap = some (r, mlp1, h1) ∧
      (r = none ↔ ∀ o ∈ opts1020, o.Size < 15) ∧
      ∀ b, r = some b → ∃ bv, h1.bufs[b]? = some bv ∧ 15 ≤ bv.size ∧
        (∃ o ∈ opts1020, o.Size = bv.size) ∧
        ∀ o ∈ opts1020, 15 ≤ o.Size → bv.size ≤ o.Size) ∧
    gotSize (mworld0.mlp.Get 5 mworld0.heap) = some (some 10) ∧
    gotSize (mworld0.mlp.Get 15 mworld0.heap) = some (some 20) ∧
    gotSize (mworld0.mlp.Get 25 mworld0.heap) = some none :=
  ⟨sortSort_sorts, mreach_mworld0,
    MultiLevelPool.get_selects sortSort sortSort_sorts opts1020 mworld0 mreach_mworld0 15,
    by decide, by decide, by decide⟩

/-- The loop of `MultiLevelPool.Put` changes nothing when no level has the
size of the buffer. -/
theorem putLoop_no_match (b : Nat) (bv : Buffer) :
    ∀ (ps : List Pool) (h : Heap), h.bufs[b]? = some bv → (∀ p ∈ ps, p.size ≠ bv.size) →
      MultiLevelPool.putLoop ps b h = some (ps, h) := by
  intro ps
  induction ps with
  | nil => intro h _ _; rfl
  | cons p ps ih =>
    intro h hbv hne
    have h1 : ¬ (p.size = bv.size) := hne p (List.mem_cons_self _ _)
    simp only [MultiLevelPool.putLoop, hbv, h1, if_false,
      ih h hbv (fun q hq => hne q (List.mem_cons_of_mem _ hq))]

/-- The loop of `MultiLevelPool.Put` over levels of pairwise distinct sizes:
the level of the buffer's size gets the buffer as head of its free list, the
buffer's link is set to the old head, and nothing else changes. -/
theorem putLoop_distinct (b : Nat) (bv : Buffer) :
    ∀ (ps : List Pool) (h : Heap), h.bufs[b]? = some bv → (ps.map Pool.size).Nodup →
      ∃ h1, MultiLevelPool.putLoop ps b h =
          some (ps.map (fun p => if p.size = bv.size then { p with free := some b } else p), h1) ∧
        (∀ p ∈ ps, p.size = bv.size →
          h1 = { h with bufs := h.bufs.set b { bv with next := p.free } }) ∧
        ((∀ p ∈ ps, p.size ≠ bv.size) → h1 = h) := by
  intro ps
  induction ps with
  | nil =>
    intro h _ _
    exact ⟨h, rfl, fun p hp => absurd hp (List.not_mem_nil p), fun _ => rfl⟩
  | cons p ps ih =>
    intro h hbv hnd
    rw [List.map_cons, List.nodup_cons] at hnd
    obtain ⟨hp, hnd1⟩ := hnd
    by_cases heq : p.size = bv.size
    · have hrest : ∀ q ∈ ps, q.size ≠ bv.size := by
        intro q hq hqs
        exact hp (List.mem_map.mpr ⟨q, hq, by rw [hqs, heq]⟩)
      have hlt : b < h.bufs.length := (List.getElem?_eq_some.mp hbv).1
      have hbv1 : (Heap.mk (h.bufs.set b { bv with next := p.free }) h.mem).bufs[b]? =
          some { bv with next := p.free } := List.getElem?_set_self hlt
      have hloop := putLoop_no_match b { bv with next := p.free } ps
        (Heap.mk (h.bufs.set b { bv with next := p.free }) h.mem) hbv1 hrest
      have hmap : ps.map (fun p => if p.size = bv.size then { p with free := some b } else p)
          = ps := by
        conv_rhs => rw [← List.map_id ps]
        refine List.map_congr_left ?_
        intro q hq
        simp only [if_neg (hrest q hq), id]
      refine ⟨Heap.mk (h.bufs.set b { bv with next := p.free }) h.mem, ?_, ?_, ?_⟩
      · simp only [MultiLevelPool.putLoop, hbv, heq, if_true, Pool.Put, hloop, List.map_cons,
          hmap]
      · intro q hq hqs
        rcases List.mem_cons.mp hq with rfl | hq
        · rfl
        · exact absurd hqs (hrest q hq)
      · intro hall
        exact absurd heq (hall p (List.mem_cons_self _ _))
    · obtain ⟨h1, hloop, hmatch, hnone⟩ := ih h hbv hnd1
      refine ⟨h1, ?_, ?_, ?_⟩
      · simp only [MultiLevelPool.putLoop, hbv, heq, if_false, hloop, List.map_cons]
      · intro q hq hqs
        rcases List.mem_cons.mp hq with rfl | hq
        · exact absurd hqs heq
        · exact hmatch q hq hqs
      · intro hall
        exact hnone (fun q hq => hall q (List.mem_cons_of_mem _ hq))

/-- A buffer linked to itself is the head of no free list. -/
theorem isFreeList_self_loop (h : Heap) (b : Nat) (bv : Buffer) (hbv : h.bufs[b]? = some bv)
    (hn : bv.next = some b) : ∀ l, isFreeList h (some b) l = false := by
  intro l
  induction l with
  | nil => rfl
  | cons x l ih =>
    simp only [isFreeList, hbv, hn, ih, Bool.and_false]

theorem mreach_mworldTwo0 : MReach sortSort opts2010 (mworldTwo (some 1) 20 []) :=
  MReach.init emptyHeap (mworldTwo (some 1) 20 []).mlp (mworldTwo (some 1) 20 []).heap
    (by decide) (by decide)

theorem mreach_mworldTwo1 : MReach sortSort opts2010 (mworldTwo (some 2) 0 [1]) :=
  MReach.get (mworldTwo (some 1) 20 []) 15 1 (mworldTwo (some 2) 0 [1]).mlp
    (mworldTwo (some 2) 0 [1]).heap mreach_mworldTwo0 (by decide)

/-- C9, as the claim states it, fails for a buffer that is on a free list.  In
the pool with levels of sizes 10 and 20 just built, buffer 1 is the whole free
list of the level of size 20.  `Put(1)` makes buffer 1 the head again and
links it to itself: the previous list does not follow it, and following
`next` from the head never reaches `nil`. -/
theorem MultiLevelPool.put_of_free_buffer :
    MReach sortSort opts1020 mworld0 ∧ (mworld0.mlp.pools.map Pool.size).Nodup ∧
    mworld0.mlp.pools[1]? = some { free := some 1, max := 20, num := 1, size := 20 } ∧
    mworld0.heap.bufs[1]? =
      some { buf := { ptr := 10, len := 20, cap := 20 }, next := none, off := 0, size := 20 } ∧
    isFreeList mworld0.heap (some 1) [1] = true ∧
    ∃ mlp1 h1, mworld0.mlp.Put 1 mworld0.heap = some (mlp1, h1) ∧
      mlp1.pools[1]? = some { free := some 1, max := 20, num := 1, size := 20 } ∧
      h1.bufs[1]? =
        some { buf := { ptr := 10, len := 20, cap := 20 }, next := some 1, off := 0, size := 20 } ∧
      isFreeList h1 (some 1) [1, 1] = false ∧ ∀ l, isFreeList h1 (some 1) l = false :=
  ⟨mreach_mworld0, by decide, by decide, by decide, by decide,
    mworld0.mlp,
    Heap.mk (mworld0.heap.bufs.set 1
      { buf := { ptr := 10, len := 20, cap := 20 }, next := some 1, off := 0, size := 20 })
      mworld0.heap.mem,
    by decide, by decide, by decide, by decide,
    isFreeList_self_loop _ 1
      { buf := { ptr := 10, len := 20, cap := 20 }, next := some 1, off := 0, size := 20 }
      (by decide) rfl⟩

/-- C9, amended: for levels of pairwise distinct sizes and a buffer `b`,
`Put(b)` returns without a panic and leaves memory and every other buffer
alone.  A level whose size is `b.size` gets `b` as the head of its free list,
`b.next` being the old head, so the old list follows `b` when `b` is not on
it; every other level keeps its head, and its list when `b` is not on it.
When no level has size `b.size`, pool and heap are exactly as before. -/
theorem MultiLevelPool.put_frame (mlp : MultiLevelPool) (h : Heap) (b : Nat) (bv : Buffer)
    (hdist : (mlp.pools.map Pool.size).Nodup) (hbv : h.bufs[b]? = some bv) :
    ∃ mlp1 h1, mlp.Put b h = some (mlp1, h1) ∧ h1.mem = h.mem ∧
      (∀ x, x ≠ b → h1.bufs[x]? = h.bufs[x]?) ∧
      (∀ (i : Nat) (p : Pool), mlp.pools[i]? = some p → p.size = bv.size →
        mlp1.pools[i]? = some { p with free := some b } ∧
        h1.bufs[b]? = some { bv with next := p.free } ∧
        ∀ l, b ∉ l → isFreeList h p.free l = true → isFreeList h1 (some b) (b :: l) = true) ∧
      (∀ (i : Nat) (p : Pool), mlp.pools[i]? = some p → p.size ≠ bv.size →
        mlp1.pools[i]? = some p ∧
        ∀ l, b ∉ l → isFreeList h p.free l = true → isFreeList h1 p.free l = true) ∧
      ((∀ p ∈ mlp.pools, p.size ≠ bv.size) → mlp1 = mlp ∧ h1 = h) := by
  obtain ⟨h1, hloop, hmatch, hnone⟩ := putLoop_distinct b bv mlp.pools h hbv hdist
  have hlt : b < h.bufs.length := (List.getElem?_eq_some.mp hbv).1
  have hcases : h1 = h ∨ ∃ p ∈ mlp.pools, p.size = bv.size ∧
      h1 = { h with bufs := h.bufs.set b { bv with next := p.free } } := by
    by_cases hex : ∃ p ∈ mlp.pools, p.size = bv.size
    · obtain ⟨p, hp, hps⟩ := hex
      exact Or.inr ⟨p, hp, hps, hmatch p hp hps⟩
    · exact Or.inl (hnone (fun p hp hps => hex ⟨p, hp, hps⟩))
  have hother : ∀ x, x ≠ b → h1.bufs[x]? = h.bufs[x]? := by
    intro x hx
    rcases hcases with rfl | ⟨p, _, _, rfl⟩
    · rfl
    · exact List.getElem?_set_ne (Ne.symm hx)
  have hchain : ∀ (f : Option Nat) (l : List Nat), b ∉ l → isFreeList h f l = true →
      isFreeList h1 f l = true := by
    intro f l hbl hl
    refine isFreeList_congr h h1 l f ?_ hl
    intro x hx xv hxv
    have hne : x ≠ b := fun e => hbl (e ▸ hx)
    exact ⟨xv, by rw [hother x hne, hxv], rfl⟩
  refine ⟨MultiLevelPool.mk (mlp.pools.map
      (fun p => if p.size = bv.size then { p with free := some b } else p)), h1,
    by simp only [MultiLevelPool.Put, hloop], ?_, hother, ?_, ?_, ?_⟩
  · rcases hcases with rfl | ⟨p, _, _, rfl⟩ <;> rfl
  · intro i p hip hps
    have hmem : p ∈ mlp.pools := List.getElem?_mem hip
    have hh1 := hmatch p hmem hps
    have hb1 : h1.bufs[b]? = some { bv with next := p.free } := by
      rw [hh1]; exact List.getElem?_set_self hlt
    refine ⟨by simp only [List.getElem?_map, hip, Option.map_some', hps, if_true], hb1, ?_⟩
    intro l hbl hl
    rw [isFreeList_cons h1 b l _ hb1]
    exact hchain p.free l hbl hl
  · intro i p hip hps
    exact ⟨by simp only [List.getElem?_map, hip, Option.map_some', hps, if_false],
      fun l hbl hl => hchain p.free l hbl hl⟩
  · intro hall
    refine ⟨?_, hnone hall⟩
    have hmap : mlp.pools.map (fun p => if p.size = bv.size then { p with free := some b } else p)
        = mlp.pools := by
      conv_rhs => rw [← List.map_id mlp.pools]
      refine List.map_congr_left ?_
      intro q hq
      simp only [if_neg (hall q hq), id]
    rw [hmap]

theorem MultiLevelPool.put_frame_witness :
    MReach sortSort opts2010 (mworldTwo (some 2) 0 [1]) ∧ 1 ∈ (mworldTwo (some 2) 0 [1]).out ∧
    isFreeList (mworldTwo (some 2) 0 [1]).heap (some 2) [2] = true ∧ 1 ∉ [2] ∧
    ((mworldTwo (some 2) 0 [1]).mlp.Put 1 (mworldTwo (some 2) 0 [1]).heap).map
      (fun r => (r.1.pools.map Pool.free, isFreeList r.2 (some 1) [1, 2])) =
      some ([some 0, some 1], true) ∧
    ((mworldTwo (some 2) 0 [1]).mlp.pools.map Pool.size).Nodup ∧
    (mworldTwo (some 2) 0 [1]).heap.bufs[1]? =
      some { buf := { ptr := 10, len := 0, cap := 40 }, next := some 2, off := 0, size := 20 } ∧
    ∃ mlp1 h1, (mworldTwo (some 2) 0 [1]).mlp.Put 1 (mworldTwo (some 2) 0 [1]).heap =
        some (mlp1, h1) ∧ h1.mem = (mworldTwo (some 2) 0 [1]).heap.mem ∧
      (∀ x, x ≠ 1 → h1.bufs[x]? = (mworldTwo (some 2) 0 [1]).heap.bufs[x]?) ∧
      (∀ (i : Nat) (p : Pool), (mworldTwo (some 2) 0 [1]).mlp.pools[i]? = some p → p.size = 20 →
        mlp1.pools[i]? = some { p with free := some 1 } ∧
        h1.bufs[1]? = some { buf := { ptr := 10, len := 0, cap := 40 }, next := p.free,
                             off := 0, size := 20 } ∧
        ∀ l, 1 ∉ l → isFreeList (mworldTwo (some 2) 0 [1]).heap p.free l = true →
          isFreeList h1 (some 1) (1 :: l) = true) ∧
      (∀ (i : Nat) (p : Pool), (mworldTwo (some 2) 0 [1]).mlp.pools[i]? = some p → p.size ≠ 20 →
        mlp1.pools[i]? = some p ∧
        ∀ l, 1 ∉ l → isFreeList (mworldTwo (some 2) 0 [1]).heap p.free l = true →
          isFreeList h1 p.free l = true) ∧
      ((∀ p ∈ (mworldTwo (some 2) 0 [1]).mlp.pools, p.size ≠ 20) →
        mlp1 = (mworldTwo (some 2) 0 [1]).mlp ∧ h1 = (mworldTwo (some 2) 0 [1]).heap) :=
  ⟨mreach_mworldTwo1, by decide, by decide, by decide, by decide, by decide, by decide,
    MultiLevelPool.put_frame (mworldTwo (some 2) 0 [1]).mlp (mworldTwo (some 2) 0 [1]).heap 1
      { buf := { ptr := 10, len := 0, cap := 40 }, next := some 2, off := 0, size := 20 }
      (by decide) (by decide)⟩

/-! ## NewMultiLevelPool -/

/-- The loop of `NewMultiLevelPool` keeps count and size of every option, in order. -/
theorem buildPools_params :
    ∀ (os : List PoolOpt) (h : Heap) (ps : List Pool) (h1 : Heap),
      buildPools os h = some (ps, h1) →
      ps.map (fun p => (⟨p.num, p.size⟩ : PoolOpt)) = os := by
  intro os
  induction os with
  | nil =>
    intro h ps h1 hb
    simp only [buildPools, Option.some.injEq, Prod.mk.injEq] at hb
    rw [← hb.1]; rfl
  | cons o os ih =>
    intro h ps h1 hb
    simp only [buildPools] at hb
    split at hb
    · exact absurd hb (by simp)
    · rename_i p ha hnew
      split at hb
      · exact absurd hb (by simp)
      · rename_i ps1 h2 hrest
        simp only [Option.some.injEq, Prod.mk.injEq] at hb
        obtain ⟨rfl, rfl⟩ := hb
        have hp := newPool_fields o.Num o.Size h p ha hnew
        rw [List.map_cons, ih ha ps1 h2 hrest, hp]

/-- The loop of `NewMultiLevelPool` succeeds when every option has a positive
count, a size that is not negative, and allocations within the limit of `make`. -/
theorem buildPools_isSome :
    ∀ (os : List PoolOpt) (h : Heap),
      (∀ o ∈ os, 1 ≤ o.Num ∧ 0 ≤ o.Size ∧ o.Num * o.Size ≤ maxAlloc ∧
        o.Num * sizeofBuffer ≤ maxAlloc) →
      ∃ ps h1, buildPools os h = some (ps, h1) := by
  intro os
  induction os with
  | nil => intro h _; exact ⟨[], h, rfl⟩
  | cons o os ih =>
    intro h hv
    obtain ⟨v1, v2, v3, v4⟩ := hv o (List.mem_cons_self _ _)
    obtain ⟨p, ha, hnew⟩ := newPool_isSome o.Num o.Size h v1 v2 v3 v4
    obtain ⟨ps, h1, hrest⟩ := ih ha (fun q hq => hv q (List.mem_cons_of_mem _ hq))
    exact ⟨p :: ps, h1, by simp only [buildPools, hnew, hrest]⟩

/-- The loop of `NewMultiLevelPool` panics only where `NewPool` does. -/
theorem buildPools_none :
    ∀ (os : List PoolOpt) (h : Heap), buildPools os h = none →
      ∃ o ∈ os, ∃ h1, NewPool o.Num o.Size h1 = none := by
  intro os
  induction os with
  | nil => intro h hb; exact absurd hb (by simp [buildPools])
  | cons o os ih =>
    intro h hb
    cases hnew : NewPool o.Num o.Size h with
    | none => exact ⟨o, List.mem_cons_self _ _, h, hnew⟩
    | some r =>
      obtain ⟨p, ha⟩ := r
      cases hrest : buildPools os ha with
      | none =>
        obtain ⟨q, hq, h1, hq1⟩ := ih ha hrest
        exact ⟨q, List.mem_cons_of_mem _ hq, h1, hq1⟩
      | some r2 =>
        simp only [buildPools, hnew, hrest] at hb
        exact absurd hb (by simp)

/-- C13: the pool `NewMultiLevelPool` returns has one level per option, the
level sizes are in non-decreasing order, and the (count, size) pairs of the
levels are a rearrangement of the options. -/
theorem NewMultiLevelPool_levels (srt : List PoolOpt → List PoolOpt) (hsrt : SortsBySize srt)
    (opts : List PoolOpt) (h0 : Heap) (mlp : MultiLevelPool) (h : Heap)
    (hnew : NewMultiLevelPool srt opts h0 = some (mlp, h)) :
    mlp.pools.length = opts.length ∧
      (mlp.pools.map Pool.size).Pairwise (fun a b => a ≤ b) ∧
      (mlp.pools.map (fun p => (⟨p.num, p.size⟩ : PoolOpt))).Perm opts := by
  obtain ⟨hperm, hsorted⟩ := hsrt opts
  unfold NewMultiLevelPool at hnew
  split at hnew
  · exact absurd hnew (by simp)
  · rename_i ps h1 hb
    simp only [Option.some.injEq, Prod.mk.injEq] at hnew
    obtain ⟨rfl, rfl⟩ := hnew
    have hpar := buildPools_params (srt opts) h0 ps h1 hb
    have hsz : ps.map Pool.size = (srt opts).map PoolOpt.Size := by
      rw [← hpar, List.map_map]; rfl
    refine ⟨?_, ?_, ?_⟩
    · have := congrArg List.length hpar
      simp only [List.length_map] at this
      rw [this]; exact hperm.length_eq
    · show (ps.map Pool.size).Pairwise (fun a b => a ≤ b)
      rw [hsz, List.pairwise_map]
      refine hsorted.imp ?_
      intro a b hab
      simp only [PoolOpt.Less, decide_eq_true_eq, not_lt] at hab
      exact hab
    · show (ps.map (fun p => (⟨p.num, p.size⟩ : PoolOpt))).Perm opts
      rw [hpar]; exact hperm

theorem NewMultiLevelPool_levels_witness :
    SortsBySize sortSort ∧
    NewMultiLevelPool sortSort opts1020 emptyHeap = some (mworld0.mlp, mworld0.heap) ∧
    (mworld0.mlp.pools.length = opts1020.length ∧
      (mworld0.mlp.pools.map Pool.size).Pairwise (fun a b => a ≤ b) ∧
      (mworld0.mlp.pools.map (fun p => (⟨p.num, p.size⟩ : PoolOpt))).Perm opts1020) :=
  ⟨sortSort_sorts, by decide,
    NewMultiLevelPool_levels sortSort sortSort_sorts opts1020 emptyHeap mworld0.mlp mworld0.heap
      (by decide)⟩

/-- C14, as the claim states it, fails: from two options of size 10
`NewMultiLevelPool` returns, without any report, a pool with two levels of
size 10. -/
theorem NewMultiLevelPool_accepts_equal_sizes :
    ¬ (optsDup.map PoolOpt.Size).Nodup ∧
    NewMultiLevelPool sortSort optsDup emptyHeap = some ((mworldDup 0).mlp, (mworldDup 0).heap) ∧
    (mworldDup 0).mlp.pools.map Pool.size = [10, 10] := by
  decide

/-- C14, amended: `NewMultiLevelPool` does not look for equal sizes.  On
options two of which have the same size it panics only if `NewPool` panics on
one of the options, and the pool it returns has one level per option, two of
which have the same size. -/
theorem NewMultiLevelPool_keeps_equal_sizes (srt : List PoolOpt → List PoolOpt)
    (hsrt : SortsBySize srt) (opts : List PoolOpt) (h0 : Heap)
    (hdup : ¬ (opts.map PoolOpt.Size).Nodup) :
    (NewMultiLevelPool srt opts h0 = none → ∃ o ∈ opts, ∃ h, NewPool o.Num o.Size h = none) ∧
    ∀ mlp h, NewMultiLevelPool srt opts h0 = some (mlp, h) →
      mlp.pools.length = opts.length ∧ ¬ (mlp.pools.map Pool.size).Nodup := by
  obtain ⟨hperm, _⟩ := hsrt opts
  constructor
  · intro hnone
    cases hb : buildPools (srt opts) h0 with
    | none =>
      obtain ⟨o, ho, h, hnew⟩ := buildPools_none (srt opts) h0 hb
      exact ⟨o, hperm.mem_iff.mp ho, h, hnew⟩
    | some r =>
      simp only [NewMultiLevelPool, hb] at hnone
      exact absurd hnone (by simp)
  · intro mlp h hnew
    unfold NewMultiLevelPool at hnew
    split at hnew
    · exact absurd hnew (by simp)
    · rename_i ps h1 hb
      simp only [Option.some.injEq, Prod.mk.injEq] at hnew
      obtain ⟨rfl, rfl⟩ := hnew
      have hpar := buildPools_params (srt opts) h0 ps h1 hb
      have hsz : ps.map Pool.size = (srt opts).map PoolOpt.Size := by
        rw [← hpar, List.map_map]; rfl
      refine ⟨?_, ?_⟩
      · have := congrArg List.length hpar
        simp only [List.length_map] at this
        show ps.length = opts.length
        rw [this]; exact hperm.length_eq
      · show ¬ (ps.map Pool.size).Nodup
        rw [hsz]
        intro hnd
        exact hdup ((hperm.map PoolOpt.Size).nodup_iff.mp hnd)

theorem NewMultiLevelPool_keeps_equal_sizes_witness :
    SortsBySize sortSort ∧ ¬ (optsDup.map PoolOpt.Size).Nodup ∧
    NewMultiLevelPool sortSort optsDup emptyHeap = some ((mworldDup 0).mlp, (mworldDup 0).heap) ∧
    ((NewMultiLevelPool sortSort optsDup emptyHeap = none →
        ∃ o ∈ optsDup, ∃ h, NewPool o.Num o.Size h = none) ∧
      ∀ mlp h, NewMultiLevelPool sortSort optsDup emptyHeap = some (mlp, h) →
        mlp.pools.length = optsDup.length ∧ ¬ (mlp.pools.map Pool.size).Nodup) :=
  ⟨sortSort_sorts, by decide, by decide,
    NewMultiLevelPool_keeps_equal_sizes sortSort sortSort_sorts optsDup emptyHeap (by decide)⟩

/-! ## NewPool with a count or a size that is not positive -/

/-- C15, as the claim states it, fails: `NewPool(1, 0)` returns a pool. -/
theorem NewPool_zero_size_returns :
    ((1 : Int) ≤ 0 ∨ (0 : Int) ≤ 0) ∧
    NewPool 1 0 emptyHeap = some
      ({ free := some 0, max := 0, num := 1, size := 0 },
       { bufs := [{ buf := { ptr := 0, len := 0, cap := 0 }, next := none, off := 0, size := 0 }],
         mem := [] }) := by
  decide

/-- C15, amended: for a count `num` and an `int` `size` with `num <= 0` or
`size < 0`, `NewPool(num, size)` panics; a size of 0 alone is no failure:
`NewPool(1, 0)` returns a pool, whose buffer has size 0. -/
theorem NewPool_fails_fast (num size : Int) (h0 : Heap) (hint : IsInt size)
    (hbad : num ≤ 0 ∨ size < 0) :
    NewPool num size h0 = none ∧ ∃ p h, NewPool 1 0 h0 = some (p, h) ∧ p.size = 0 := by
  constructor
  · cases hnew : NewPool num size h0 with
    | none => rfl
    | some r =>
      obtain ⟨hn, hs, _⟩ := newPool_params num size h0 r.1 r.2 hint hnew
      omega
  · obtain ⟨p, h, hnew⟩ := newPool_isSome 1 0 h0 (by decide) (by decide) (by decide) (by decide)
    exact ⟨p, h, hnew, by rw [newPool_fields 1 0 h0 p h hnew]⟩

/-! ## MultiLevelPool with two levels of the same size -/

theorem mreach_mworldDup1 : MReach sortSort optsDup (mworldDup 1) :=
  MReach.get (mworldDup 0) 5 0 (mworldDup 1).mlp (mworldDup 1).heap
    (MReach.init emptyHeap (mworldDup 0).mlp (mworldDup 0).heap (by decide) (by decide)) (by decide)

theorem mreach_mworldDup3 : MReach sortSort optsDup (mworldDup 3) :=
  MReach.get (mworldDup 2) 5 0 (mworldDup 3).mlp (mworldDup 3).heap
    (MReach.put (mworldDup 1) 0 (mworldDup 2).mlp (mworldDup 2).heap mreach_mworldDup1
      (by decide) (by decide)) (by decide)

theorem mreach_mworldDup5 : MReach sortSort optsDup (mworldDup 5) :=
  MReach.get (mworldDup 4) 5 0 (mworldDup 5).mlp (mworldDup 5).heap
    (MReach.put (mworldDup 3) 0 (mworldDup 4).mlp (mworldDup 4).heap mreach_mworldDup3
      (by decide) (by decide)) (by decide)

/-- C17 fails on the code: after `Get(5)`, `Put(0)`, `Get(5)`, `Put(0)`,
`Get(5)` on a pool with two levels of size 10, every `Put` giving back the
buffer just handed out, buffer 0 is checked out, and the next `Get(5)` hands
out buffer 0 again. -/
theorem MultiLevelPool.get_hands_out_twice :
    MReach sortSort optsDup (mworldDup 5) ∧ 0 ∈ (mworldDup 5).out ∧
    ∃ mlp1 h1, (mworldDup 5).mlp.Get 5 (mworldDup 5).heap = some (some 0, mlp1, h1) :=
  ⟨mreach_mworldDup5, by decide, (mworldDup 5).mlp, (mworldDup 5).heap, by decide⟩

theorem NewPool_fails_fast_witness :
    IsInt (-3) ∧ ((2 : Int) ≤ 0 ∨ (-3 : Int) < 0) ∧
    (NewPool 2 (-3) emptyHeap = none ∧
      ∃ p h, NewPool 1 0 emptyHeap = some (p, h) ∧ p.size = 0) :=
  ⟨by decide, by decide, NewPool_fails_fast 2 (-3) emptyHeap (by decide) (by decide)⟩

/-! ## The layout of a batch -/

theorem toNat_natCast_mul (n : Nat) (s : Int) (hs : 0 ≤ s) :
    ((n : Int) * s).toNat = n * s.toNat := by
  obtain ⟨m, rfl⟩ := Int.eq_ofNat_of_zero_le hs
  rw [← Nat.cast_mul, Int.toNat_natCast, Int.toNat_natCast]

/-- The slice `buf[(i-1)*size : i*size]` of `grow`, when it is in range. -/
theorem slice_batch (buf s : Slice) (size : Int) (i : Nat) (hi : 1 ≤ i) (hsize : 0 ≤ size)
    (hs : buf.slice (((i : Int) - 1) * size) ((i : Int) * size) = some s) :
    s.ptr = buf.ptr + (i - 1) * size.toNat ∧ s.len = size.toNat ∧
      s.cap = buf.cap - (i - 1) * size.toNat ∧ i * size.toNat ≤ buf.cap := by
  have e1 : ((i : Int) - 1) = ((i - 1 : Nat) : Int) := by omega
  have e2 : (((i : Int) - 1) * size).toNat = (i - 1) * size.toNat := by
    rw [e1]; exact toNat_natCast_mul _ _ hsize
  have e3 : ((i : Int) * size - ((i : Int) - 1) * size).toNat = size.toNat := by
    congr 1; ring
  unfold Slice.slice at hs
  split at hs
  · rename_i hc
    simp only [Option.some.injEq] at hs
    subst hs
    refine ⟨by simp only [e2], by simp only [e3], by simp only [e2], ?_⟩
    have h4 : ((i : Int) * size).toNat ≤ buf.cap := by omega
    rw [toNat_natCast_mul _ _ hsize] at h4
    exact h4
  · exact absurd hs (by simp)

/-- The products of pass `i` of the loop of `grow` do not wrap when the
batch fits an allocation of fewer than `2^63` bytes. -/
theorem wrapInt_batch (size : Int) (cap i n : Nat) (hsize : 0 ≤ size) (hi : 1 ≤ i) (hin : i ≤ n)
    (hcap : (n : Int) * size ≤ (cap : Int)) (hcapi : (cap : Int) < 9223372036854775808) :
    wrapInt (((i : Int) - 1) * size) = ((i : Int) - 1) * size ∧
      wrapInt ((i : Int) * size) = (i : Int) * size := by
  have h1 : (0 : Int) ≤ ((i : Int) - 1) * size := mul_nonneg (by omega) hsize
  have h2 : ((i : Int) - 1) * size ≤ (i : Int) * size := by nlinarith
  have h3 : (i : Int) * size ≤ (n : Int) * size :=
    mul_le_mul_of_nonneg_right (by omega) hsize
  exact ⟨wrapInt_of_isInt _ ⟨by omega, by omega⟩, wrapInt_of_isInt _ ⟨by omega, by omega⟩⟩

/-- The `j`-th record `grow` writes: its slice starts `(i-1+j)*size` bytes
into the allocation and is `size` bytes long, its link leads to the next
record, the last link is `nil`. -/
theorem Pool.growFill_get (p : Pool) (buf : Slice) (bs : Nat) (hsize : 0 ≤ p.size)
    (hcapi : (buf.cap : Int) < 9223372036854775808) :
    ∀ (k i : Nat) (l : List Buffer), 1 ≤ i →
      ((i + k : Nat) : Int) * p.size ≤ (buf.cap : Int) → Pool.growFill p buf bs k i = some l →
      ∀ j, j ≤ k → ∃ bv, l[j]? = some bv ∧ bv.size = p.size ∧ bv.off = 0 ∧
        bv.buf.ptr = buf.ptr + (i - 1 + j) * p.size.toNat ∧ bv.buf.len = p.size.toNat ∧
        bv.buf.cap = buf.cap - (i - 1 + j) * p.size.toNat ∧
        (i + j) * p.size.toNat ≤ buf.cap ∧
        bv.next = if j < k then some (bs + i + j) else none := by
  intro k
  induction k with
  | zero =>
    intro i l hi hfit hl j hj
    have hj0 : j = 0 := by omega
    subst hj0
    obtain ⟨w1, w2⟩ := wrapInt_batch p.size buf.cap i (i + 0) hsize hi (by omega) hfit hcapi
    simp only [Pool.growFill] at hl
    split at hl
    · exact absurd hl (by simp)
    · rename_i s hs
      simp only [Option.some.injEq] at hl
      subst hl
      rw [w1, w2] at hs
      obtain ⟨h1, h2, h3, h4⟩ := slice_batch buf s p.size i hi hsize hs
      exact ⟨Buffer.mk s none 0 p.size, rfl, rfl, rfl, by simpa using h1, h2,
        by simpa using h3, by simpa using h4, rfl⟩
  | succ k ih =>
    intro i l hi hfit hl j hj
    obtain ⟨w1, w2⟩ := wrapInt_batch p.size buf.cap i (i + (k + 1)) hsize hi (by omega) hfit hcapi
    simp only [Pool.growFill] at hl
    split at hl
    · exact absurd hl (by simp)
    · rename_i s hs
      split at hl
      · exact absurd hl (by simp)
      · rename_i rest hrest
        simp only [Option.some.injEq] at hl
        subst hl
        rw [w1, w2] at hs
        obtain ⟨h1, h2, h3, h4⟩ := slice_batch buf s p.size i hi hsize hs
        cases j with
        | zero =>
          exact ⟨Buffer.mk s (some (bs + i)) 0 p.size, by simp, rfl, rfl, by simpa using h1, h2,
            by simpa using h3, by simpa using h4, by simp⟩
        | succ j =>
          obtain ⟨bv, hbv, r1, r2, r3, r4, r5, r6, r7⟩ := ih (i + 1) rest (by omega)
            (by have e : i + 1 + k = i + (k + 1) := by omega
                rw [e]; exact hfit) hrest j (by omega)
          have e1 : i + 1 - 1 + j = i - 1 + (j + 1) := by omega
          have e2 : i + 1 + j = i + (j + 1) := by omega
          refine ⟨bv, by simpa using hbv, r1, r2, by rw [r3, e1], r4, by rw [r5, e1],
            by rw [← e2]; exact r6, ?_⟩
          rw [r7]
          by_cases hjk : j < k
          · rw [if_pos hjk, if_pos (by omega)]
            congr 1; omega
          · rw [if_neg hjk, if_neg (by omega)]

/-- What `grow` appends to the arena: record `j` of the batch has the pool's
size and stands for bytes `j*size` to `(j+1)*size` of the new allocation. -/
theorem Pool.grow_layout (p : Pool) (h : Heap) (hnum : 1 ≤ p.num) (hsize : 0 ≤ p.size)
    (hmax : p.Fits) :
    ∃ l, p.grow h = some ({ p with free := some h.bufs.length },
        { bufs := h.bufs ++ l, mem := h.mem ++ List.replicate p.max.toNat 0 }) ∧
      l.length = p.num.toNat ∧
      ∀ j, j < p.num.toNat → ∃ bv, l[j]? = some bv ∧ bv.size = p.size ∧ bv.off = 0 ∧
        bv.buf.ptr = h.mem.length + j * p.size.toNat ∧ bv.buf.len = p.size.toNat ∧
        bv.buf.cap = p.max.toNat - j * p.size.toNat ∧ (j + 1) * p.size.toNat ≤ p.max.toNat ∧
        bv.next = if j + 1 < p.num.toNat then some (h.bufs.length + 1 + j) else none := by
  obtain ⟨l, hg, hl, _, _⟩ := Pool.grow_spec p h hnum hsize hmax
  have hfill : Pool.growFill p (Slice.mk h.mem.length p.max.toNat p.max.toNat) h.bufs.length
      (p.num.toNat - 1) 1 = some l := by
    obtain ⟨l1, hl1, hr⟩ := Pool.grow_fill p h _ hg
    simp only [Prod.mk.injEq, Heap.mk.injEq, List.append_cancel_left_eq, true_and,
      and_true] at hr
    rw [hr]; exact hl1
  obtain ⟨hmax0, hmaxi⟩ := Pool.Fits.max_range p hnum hsize hmax
  have hcap : ((1 + (p.num.toNat - 1) : Nat) : Int) * p.size ≤
      ((Slice.mk h.mem.length p.max.toNat p.max.toNat).cap : Int) := by
    have e : ((1 + (p.num.toNat - 1) : Nat) : Int) = p.num := by omega
    rw [e, ← hmax.1]
    simp only
    omega
  refine ⟨l, hg, hl, ?_⟩
  intro j hj
  obtain ⟨bv, hbv, r1, r2, r3, r4, r5, r6, r7⟩ :=
    Pool.growFill_get p _ h.bufs.length hsize (by simp only; omega) (p.num.toNat - 1) 1 l
      (le_refl 1) hcap hfill j (by omega)
  refine ⟨bv, hbv, r1, r2, by simpa using r3, r4, by simpa using r5, ?_, ?_⟩
  · have : (1 + j) * p.size.toNat ≤ p.max.toNat := r6
    rw [Nat.add_comm]; exact this
  · rw [r7]
    by_cases hjk : j < p.num.toNat - 1
    · rw [if_pos hjk, if_pos (by omega)]
    · rw [if_neg hjk, if_neg (by omega)]

/-- C12: for `int`s `num >= 1` and `size >= 1`, the pool and the heap that
`NewPool(num, size)` returns hold one new allocation of `num*size` zero bytes
and `num` new buffers; the free list holds exactly these `num` buffers, each
once; buffer `i` on it has size `size` and its slice is bytes `i*size` to
`(i+1)*size` of the allocation; every byte of the allocation lies in the slice
of exactly one buffer. -/
theorem NewPool_layout (num size : Int) (h0 : Heap) (p : Pool) (h : Heap) (hnum : 1 ≤ num)
    (hsize : 1 ≤ size) (hint : IsInt size) (hnew : NewPool num size h0 = some (p, h)) :
    h.mem = h0.mem ++ List.replicate (num * size).toNat 0 ∧
      h.bufs.take h0.bufs.length = h0.bufs ∧
      isFreeList h p.free (List.range' h0.bufs.length num.toNat) = true ∧
      (List.range' h0.bufs.length num.toNat).Nodup ∧
      (List.range' h0.bufs.length num.toNat).length = num.toNat ∧
      (∀ i, i < num.toNat → ∃ bv, h.bufs[h0.bufs.length + i]? = some bv ∧ bv.size = size ∧
        bv.buf.ptr = h0.mem.length + i * size.toNat ∧ bv.buf.len = size.toNat ∧
        bv.buf.ptr + bv.buf.len ≤ h.mem.length) ∧
      ∀ a, h0.mem.length ≤ a → a < h0.mem.length + (num * size).toNat →
        ∃ i, (i < num.toNat ∧ h0.mem.length + i * size.toNat ≤ a ∧
            a < h0.mem.length + (i + 1) * size.toNat) ∧
          ∀ j, (j < num.toNat ∧ h0.mem.length + j * size.toNat ≤ a ∧
            a < h0.mem.length + (j + 1) * size.toNat) → j = i := by
  obtain ⟨_, hsize0, hfits⟩ := newPool_params num size h0 p h hint hnew
  have hw : wrapInt (num * size) = num * size := hfits.1
  obtain ⟨l, hg, hl, hget⟩ :=
    Pool.grow_layout (Pool.mk none (wrapInt (num * size)) num size) h0 hnum hsize0 hfits
  obtain ⟨l2, hg2, _, _, hchain⟩ :=
    Pool.grow_spec (Pool.mk none (wrapInt (num * size)) num size) h0 hnum hsize0 hfits
  rw [hg] at hg2
  simp only [Option.some.injEq, Prod.mk.injEq, Heap.mk.injEq, List.append_cancel_left_eq,
    true_and, and_true] at hg2
  subst hg2
  have hnew1 : NewPool num size h0 = some
      (Pool.mk (some h0.bufs.length) (wrapInt (num * size)) num size,
        Heap.mk (h0.bufs ++ l) (h0.mem ++ List.replicate (wrapInt (num * size)).toNat 0)) := hg
  rw [hnew] at hnew1
  simp only [Option.some.injEq, Prod.mk.injEq] at hnew1
  obtain ⟨rfl, rfl⟩ := hnew1
  simp only [hw] at hl hget hchain ⊢
  have htot : (num * size).toNat = num.toNat * size.toNat := by
    have e : ((num.toNat : Nat) : Int) = num := Int.toNat_of_nonneg (by omega)
    rw [← toNat_natCast_mul _ _ (by omega : (0 : Int) ≤ size), e]
  refine ⟨trivial, by simp, hchain, List.nodup_range' _ _, by simp, ?_, ?_⟩
  · intro i hi
    obtain ⟨bv, hbv, r1, _, r3, r4, _, r6, _⟩ := hget i hi
    refine ⟨bv, ?_, r1, r3, r4, ?_⟩
    · show (h0.bufs ++ l)[h0.bufs.length + i]? = some bv
      rw [List.getElem?_append_right (by omega)]
      simpa using hbv
    · show bv.buf.ptr + bv.buf.len ≤ (h0.mem ++ List.replicate (num * size).toNat 0).length
      rw [r3, r4, List.length_append, List.length_replicate]
      have : i * size.toNat + size.toNat ≤ (num * size).toNat := by
        have := r6; rw [Nat.add_mul, Nat.one_mul] at this; exact this
      omega
  · intro a ha1 ha2
    have hs0 : 0 < size.toNat := by omega
    rw [htot] at ha2
    have hq : (a - h0.mem.length) / size.toNat < num.toNat := by
      rw [Nat.div_lt_iff_lt_mul hs0]; omega
    have hd := Nat.div_add_mod (a - h0.mem.length) size.toNat
    have hm := Nat.mod_lt (a - h0.mem.length) hs0
    refine ⟨(a - h0.mem.length) / size.toNat, ⟨hq, ?_, ?_⟩, ?_⟩
    · rw [Nat.mul_comm]; omega
    · rw [Nat.add_mul, Nat.one_mul, Nat.mul_comm]; omega
    · rintro j ⟨_, hj1, hj2⟩
      rw [Nat.add_mul, Nat.one_mul] at hj2
      have h1 : j * size.toNat ≤ a - h0.mem.length := by omega
      have h2 : a - h0.mem.length < (j + 1) * size.toNat := by
        rw [Nat.add_mul, Nat.one_mul]; omega
      have h3 : j ≤ (a - h0.mem.length) / size.toNat := (Nat.le_div_iff_mul_le hs0).mpr h1
      have h4 : (a - h0.mem.length) / size.toNat < j + 1 := (Nat.div_lt_iff_lt_mul hs0).mpr h2
      omega

theorem NewPool_layout_witness :
    (1 : Int) ≤ 2 ∧ (1 : Int) ≤ 3 ∧ IsInt 3 ∧
    NewPool 2 3 emptyHeap = some (world0.pool, world0.heap) ∧
    (world0.heap.mem = emptyHeap.mem ++ List.replicate ((2 : Int) * 3).toNat 0 ∧
      world0.heap.bufs.take emptyHeap.bufs.length = emptyHeap.bufs ∧
      isFreeList world0.heap world0.pool.free
        (List.range' emptyHeap.bufs.length (2 : Int).toNat) = true ∧
      (List.range' emptyHeap.bufs.length (2 : Int).toNat).Nodup ∧
      (List.range' emptyHeap.bufs.length (2 : Int).toNat).length = (2 : Int).toNat ∧
      (∀ i, i < (2 : Int).toNat → ∃ bv, world0.heap.bufs[emptyHeap.bufs.length + i]? = some bv ∧
        bv.size = 3 ∧ bv.buf.ptr = emptyHeap.mem.length + i * (3 : Int).toNat ∧
        bv.buf.len = (3 : Int).toNat ∧ bv.buf.ptr + bv.buf.len ≤ world0.heap.mem.length) ∧
      ∀ a, emptyHeap.mem.length ≤ a → a < emptyHeap.mem.length + ((2 : Int) * 3).toNat →
        ∃ i, (i < (2 : Int).toNat ∧ emptyHeap.mem.length + i * (3 : Int).toNat ≤ a ∧
            a < emptyHeap.mem.length + (i + 1) * (3 : Int).toNat) ∧
          ∀ j, (j < (2 : Int).toNat ∧ emptyHeap.mem.length + j * (3 : Int).toNat ≤ a ∧
            a < emptyHeap.mem.length + (j + 1) * (3 : Int).toNat) → j = i) :=
  ⟨by decide, by decide, by decide, by decide,
    NewPool_layout 2 3 emptyHeap world0.pool world0.heap (by decide) (by decide) (by decide)
      (by decide)⟩

/-! ## Buffer.ReadAll from any source -/

theorem store_getElem?_lt (mem p : List Byte) (a i : Nat) (ha : a ≤ mem.length) (hi : i < a) :
    (store mem a p)[i]? = mem[i]? := by
  unfold store
  rw [List.getElem?_append_left (by simp; omega), List.getElem?_take_of_lt hi]

/-- The slice expression `s[:len(s)+n]` for a count `n` that fits the capacity. -/
theorem Slice.slice_extend (s : Slice) (n : Int) (h0 : 0 ≤ n) (h1 : (s.len : Int) + n ≤ s.cap) :
    s.slice 0 ((s.len : Int) + n) = some { s with len := s.len + n.toNat } := by
  rw [Slice.slice_of_le _ _ _ ⟨le_refl _, by omega, h1⟩]
  have e : ((s.len : Int) + n - 0).toNat = s.len + n.toNat := by omega
  simp only [e, Int.toNat_zero, Nat.add_zero, Nat.sub_zero]

theorem store_getElem?_ge (mem p : List Byte) (a i : Nat) (ha : a + p.length ≤ mem.length)
    (hi : a + p.length ≤ i) : (store mem a p)[i]? = mem[i]? := by
  unfold store
  have h1 : (mem.take a).length = a := by simp; omega
  rw [List.getElem?_append_right (by omega), h1,
    List.getElem?_append_right (by omega), List.getElem?_drop]
  congr 1
  omega

/-- One pass of the loop of `ReadAll` when the call to the source returns a
count between 0 and the length of its destination. -/
theorem Buffer.readAllLoop_step {σ : Type} (rd : Reader σ) (fuel : Nat) (b : Buffer)
    (mem : List Byte) (r : σ) (hlen : (b.buf.len : Int) ≤ b.size)
    (hcap : b.size ≤ (b.buf.cap : Int))
    (hn : 0 ≤ (rd r (b.size - (b.buf.len : Int)).toNat).n ∧
      (rd r (b.size - (b.buf.len : Int)).toNat).n ≤ b.size - (b.buf.len : Int)) :
    Buffer.readAllLoop rd (fuel + 1) b mem r =
      if (rd r (b.size - (b.buf.len : Int)).toNat).err = some Err.EOF then
        .ok { b := { b with buf := { b.buf with len := b.buf.len +
                (rd r (b.size - (b.buf.len : Int)).toNat).n.toNat } },
              mem := store mem (b.buf.ptr + b.buf.len)
                ((rd r (b.size - (b.buf.len : Int)).toNat).data.take
                  (b.size - (b.buf.len : Int)).toNat),
              src := (rd r (b.size - (b.buf.len : Int)).toNat).st,
              ret := { b.buf with len := b.buf.len +
                (rd r (b.size - (b.buf.len : Int)).toNat).n.toNat },
              err := none }
      else if (rd r (b.size - (b.buf.len : Int)).toNat).err ≠ none then
        .ok { b := { b with buf := { b.buf with len := b.buf.len +
                (rd r (b.size - (b.buf.len : Int)).toNat).n.toNat } },
              mem := store mem (b.buf.ptr + b.buf.len)
                ((rd r (b.size - (b.buf.len : Int)).toNat).data.take
                  (b.size - (b.buf.len : Int)).toNat),
              src := (rd r (b.size - (b.buf.len : Int)).toNat).st,
              ret := { b.buf with len := b.buf.len +
                (rd r (b.size - (b.buf.len : Int)).toNat).n.toNat },
              err := (rd r (b.size - (b.buf.len : Int)).toNat).err }
      else if (rd r (b.size - (b.buf.len : Int)).toNat).n = 0 ∧
          ((b.buf.len + (rd r (b.size - (b.buf.len : Int)).toNat).n.toNat : Nat) : Int)
            = b.size then
        .ok { b := { b with buf := { b.buf with len := b.buf.len +
                (rd r (b.size - (b.buf.len : Int)).toNat).n.toNat } },
              mem := store mem (b.buf.ptr + b.buf.len)
                ((rd r (b.size - (b.buf.len : Int)).toNat).data.take
                  (b.size - (b.buf.len : Int)).toNat),
              src := (rd r (b.size - (b.buf.len : Int)).toNat).st,
              ret := { b.buf with len := b.buf.len +
                (rd r (b.size - (b.buf.len : Int)).toNat).n.toNat },
              err := some Err.ErrBufNotEnough }
      else
        Buffer.readAllLoop rd fuel
          { b with buf := { b.buf with len := b.buf.len +
              (rd r (b.size - (b.buf.len : Int)).toNat).n.toNat } }
          (store mem (b.buf.ptr + b.buf.len)
            ((rd r (b.size - (b.buf.len : Int)).toNat).data.take
              (b.size - (b.buf.len : Int)).toNat))
          (rd r (b.size - (b.buf.len : Int)).toNat).st := by
  have hdst : b.buf.slice (b.buf.len : Int) b.size =
      some { ptr := b.buf.ptr + b.buf.len, len := (b.size - (b.buf.len : Int)).toNat,
             cap := b.buf.cap - b.buf.len } := by
    rw [Slice.slice_of_le _ _ _ ⟨by omega, hlen, hcap⟩]
    simp
  have hre : b.buf.slice 0 ((b.buf.len : Int) + (rd r (b.size - (b.buf.len : Int)).toNat).n) =
      some { b.buf with len := b.buf.len + (rd r (b.size - (b.buf.len : Int)).toNat).n.toNat } :=
    Slice.slice_extend _ _ hn.1 (by omega)
  simp only [Buffer.readAllLoop, hdst, hre, Buffer.Bytes]

/-- What one pass of the loop of `ReadAll` leaves: the bytes stored lie in
the room between the length and the capacity of the buffer. -/
theorem store_in_room (b : Buffer) (mem d : List Byte)
    (hmem : b.buf.ptr + b.buf.cap ≤ mem.length) (hlen : (b.buf.len : Int) ≤ b.size)
    (hcap : b.size ≤ (b.buf.cap : Int)) :
    (store mem (b.buf.ptr + b.buf.len) (d.take (b.size - (b.buf.len : Int)).toNat)).length
        = mem.length ∧
      ∀ a, (a < b.buf.ptr + b.buf.len ∨ b.buf.ptr + b.size.toNat ≤ a) →
        (store mem (b.buf.ptr + b.buf.len) (d.take (b.size - (b.buf.len : Int)).toNat))[a]?
          = mem[a]? := by
  have hd : (d.take (b.size - (b.buf.len : Int)).toNat).length ≤
      (b.size - (b.buf.len : Int)).toNat := List.length_take_le _ _
  refine ⟨store_length _ _ _ (by omega), ?_⟩
  intro a ha
  rcases ha with ha | ha
  · exact store_getElem?_lt _ _ _ _ (by omega) ha
  · exact store_getElem?_ge _ _ _ _ (by omega) (by omega)

/-- With a source that reports between 0 and `len(dst)` bytes, the loop of
`ReadAll` never panics; when it returns, the buffer has the same backing
window, size, cursor and link, a length between the old one and the size, and
memory is unchanged outside the room between the old length and the size. -/
theorem Buffer.readAllLoop_safe {σ : Type} (rd : Reader σ) (hb : Bounded rd) :
    ∀ (fuel : Nat) (b : Buffer) (mem : List Byte) (r : σ),
      b.buf.ptr + b.buf.cap ≤ mem.length → (b.buf.len : Int) ≤ b.size →
      b.size ≤ (b.buf.cap : Int) →
      Buffer.readAllLoop rd fuel b mem r ≠ .error Fault.panicked ∧
      ∀ res, Buffer.readAllLoop rd fuel b mem r = .ok res →
        res.b.size = b.size ∧ res.b.off = b.off ∧ res.b.next = b.next ∧
        res.b.buf.ptr = b.buf.ptr ∧ res.b.buf.cap = b.buf.cap ∧
        b.buf.len ≤ res.b.buf.len ∧ (res.b.buf.len : Int) ≤ b.size ∧ res.ret = res.b.buf ∧
        res.mem.length = mem.length ∧
        ∀ a, (a < b.buf.ptr + b.buf.len ∨ b.buf.ptr + b.size.toNat ≤ a) →
          res.mem[a]? = mem[a]? := by
  intro fuel
  induction fuel with
  | zero =>
    intro b mem r _ _ _
    exact ⟨by simp [Buffer.readAllLoop], fun res h => by simp [Buffer.readAllLoop] at h⟩
  | succ fuel ih =>
    intro b mem r hmem hlen hcap
    have hn := hb r (b.size - (b.buf.len : Int)).toNat
    have hn1 : (rd r (b.size - (b.buf.len : Int)).toNat).n ≤ b.size - (b.buf.len : Int) := by
      have := hn.2; omega
    obtain ⟨hsl, hfr⟩ := store_in_room b mem (rd r (b.size - (b.buf.len : Int)).toNat).data
      hmem hlen hcap
    rw [Buffer.readAllLoop_step rd fuel b mem r hlen hcap ⟨hn.1, hn1⟩]
    have hfin : ∀ e : Option Err,
        ∀ res, (Except.ok
          { b := { b with buf := { b.buf with len := b.buf.len +
                (rd r (b.size - (b.buf.len : Int)).toNat).n.toNat } },
            mem := store mem (b.buf.ptr + b.buf.len)
              ((rd r (b.size - (b.buf.len : Int)).toNat).data.take
                (b.size - (b.buf.len : Int)).toNat),
            src := (rd r (b.size - (b.buf.len : Int)).toNat).st,
            ret := { b.buf with len := b.buf.len +
              (rd r (b.size - (b.buf.len : Int)).toNat).n.toNat },
            err := e } : Except Fault (ReadAllResult σ)) = .ok res →
        res.b.size = b.size ∧ res.b.off = b.off ∧ res.b.next = b.next ∧
        res.b.buf.ptr = b.buf.ptr ∧ res.b.buf.cap = b.buf.cap ∧
        b.buf.len ≤ res.b.buf.len ∧ (res.b.buf.len : Int) ≤ b.size ∧ res.ret = res.b.buf ∧
        res.mem.length = mem.length ∧
        ∀ a, (a < b.buf.ptr + b.buf.len ∨ b.buf.ptr + b.size.toNat ≤ a) →
          res.mem[a]? = mem[a]? := by
      intro e res hres
      simp only [Except.ok.injEq] at hres
      subst hres
      exact ⟨rfl, rfl, rfl, rfl, rfl, by simp, by simp only [Nat.cast_add]; omega, rfl, hsl, hfr⟩
    split
    · exact ⟨by simp, hfin _⟩
    · split
      · exact ⟨by simp, hfin _⟩
      · split
        · exact ⟨by simp, hfin _⟩
        · obtain ⟨hnp, hok⟩ := ih
            { b with buf := { b.buf with len := b.buf.len +
              (rd r (b.size - (b.buf.len : Int)).toNat).n.toNat } }
            (store mem (b.buf.ptr + b.buf.len)
              ((rd r (b.size - (b.buf.len : Int)).toNat).data.take
                (b.size - (b.buf.len : Int)).toNat))
            (rd r (b.size - (b.buf.len : Int)).toNat).st
            (by rw [hsl]; exact hmem) (by simp only [Nat.cast_add]; omega) hcap
          refine ⟨hnp, ?_⟩
          intro res hres
          obtain ⟨r1, r2, r3, r4, r5, r6, r7, r8, r9, r10⟩ := hok res hres
          simp only at r1 r2 r3 r4 r5 r6 r7 r9 r10
          refine ⟨r1, r2, r3, r4, r5, by omega, r7, r8, by rw [r9, hsl], ?_⟩
          intro a ha
          rw [r10 a (by omega), hfr a ha]

/-- With cursor 0, `ReadAll` starts from the buffer as it is. -/
theorem Buffer.readAll_start (b : Buffer) (hlen : (b.buf.len : Int) ≤ b.size)
    (hoff : b.off = 0) : (if b.off ≥ b.size then b.Reset else b) = b := by
  split
  · rename_i h
    have h0 : b.buf.len = 0 := by omega
    cases b with
    | mk buf next off size =>
      cases buf with
      | mk ptr len cap =>
        simp only [Buffer.Reset] at *
        subst h0; subst hoff; rfl
  · rfl

/-- The loop of `ReadAll` on a source that delivers the chunks `ds` with nil
errors and then the chunk `d` with the error `e`: it returns `e` with the
content, the chunks and `d`, and leaves the rest of the script unplayed. -/
theorem Buffer.readAllLoop_script (d : List Byte) (e : Err) (he : e ≠ Err.EOF)
    (rest : List (List Byte × Option Err)) :
    ∀ (ds : List (List Byte)) (fuel : Nat) (b : Buffer) (mem : List Byte),
      b.buf.ptr + b.buf.cap ≤ mem.length → (b.buf.len : Int) ≤ b.size →
      b.size ≤ (b.buf.cap : Int) → passes b.buf.len b.size ds →
      ((b.buf.len + ds.flatten.length + d.length : Nat) : Int) ≤ b.size → ds.length + 1 ≤ fuel →
      ∃ res, Buffer.readAllLoop ScriptReader.Read fuel b mem
          (ds.map (fun x => (x, none)) ++ (d, some e) :: rest) = .ok res ∧
        res.err = some e ∧ res.src = rest ∧ res.ret = res.b.buf ∧
        res.ret.bytes res.mem = b.buf.bytes mem ++ ds.flatten ++ d := by
  intro ds
  induction ds with
  | nil =>
    intro fuel b mem hmem hlen hcap _ hfit hfuel
    obtain ⟨f, rfl⟩ : ∃ f, fuel = f + 1 := ⟨fuel - 1, by omega⟩
    simp only [List.flatten_nil, List.length_nil, Nat.add_zero] at hfit
    have htk : d.take (b.size - (b.buf.len : Int)).toNat = d :=
      List.take_of_length_le (by omega)
    have hcall : ScriptReader.Read ((d, some e) :: rest) (b.size - (b.buf.len : Int)).toNat =
        { st := rest, data := d, n := (d.length : Int), err := some e } := by
      simp only [ScriptReader.Read, htk]
    simp only [List.map_nil, List.nil_append, List.flatten_nil, List.append_nil]
    rw [Buffer.readAllLoop_step _ f b mem _ hlen hcap (by rw [hcall]; simp only; omega), hcall]
    simp only [htk, Int.toNat_ofNat]
    rw [if_neg (by simpa using he), if_pos (by simp)]
    exact ⟨_, rfl, rfl, rfl, rfl, drop_take_store mem d b.buf.ptr b.buf.len (by omega)⟩
  | cons x xs ih =>
    intro fuel b mem hmem hlen hcap hpass hfit hfuel
    obtain ⟨f, rfl⟩ : ∃ f, fuel = f + 1 := ⟨fuel - 1, by omega⟩
    obtain ⟨hx, hfull, hrest⟩ := hpass
    have htk : x.take (b.size - (b.buf.len : Int)).toNat = x :=
      List.take_of_length_le (by omega)
    have hcall : ScriptReader.Read
        ((x :: xs).map (fun x => (x, none)) ++ (d, some e) :: rest)
        (b.size - (b.buf.len : Int)).toNat =
        { st := xs.map (fun x => (x, none)) ++ (d, some e) :: rest, data := x,
          n := (x.length : Int), err := none } := by
      simp only [List.map_cons, List.cons_append, ScriptReader.Read, htk]
    rw [Buffer.readAllLoop_step _ f b mem _ hlen hcap (by rw [hcall]; simp only; omega), hcall]
    simp only [htk, Int.toNat_ofNat]
    rw [if_neg (by simp), if_neg (by simp), if_neg (by
      intro hc
      exact hfull ⟨by have := hc.1; omega, hc.2⟩)]
    have hcont : (Slice.mk b.buf.ptr (b.buf.len + x.length) b.buf.cap).bytes
        (store mem (b.buf.ptr + b.buf.len) x) = b.buf.bytes mem ++ x :=
      drop_take_store mem x b.buf.ptr b.buf.len (by omega)
    obtain ⟨res, hres, r1, r2, r3, r4⟩ := ih f
      { b with buf := { b.buf with len := b.buf.len + x.length } }
      (store mem (b.buf.ptr + b.buf.len) x)
      (by rw [store_length _ _ _ (by omega)]; exact hmem) hx hcap hrest
      (by simp only [List.flatten_cons, List.length_append] at hfit
          have e1 : b.buf.len + x.length + xs.flatten.length + d.length =
            b.buf.len + (x.length + xs.flatten.length) + d.length := by omega
          simp only [e1]; exact hfit)
      (by simp only [List.length_cons] at hfuel; omega)
    refine ⟨res, hres, r1, r2, r3, ?_⟩
    rw [r4]
    show (Slice.mk b.buf.ptr (b.buf.len + x.length) b.buf.cap).bytes
      (store mem (b.buf.ptr + b.buf.len) x) ++ xs.flatten ++ d = _
    rw [hcont]
    simp only [List.flatten_cons, List.append_assoc]

/-- C11: a well-formed buffer with cursor 0 and content `c`, and a source
whose calls deliver the chunks `ds` with nil errors and then the chunk `d` with
an error `e` other than `io.EOF`, all of it fitting the buffer and no call
before the failing one reporting it full: `ReadAll` returns `e` itself with
`c`, the chunks and `d`, and the source is left where the failing call left
it, so no further call was made. -/
theorem Buffer.readAll_source_error (b : Buffer) (mem : List Byte) (ds : List (List Byte))
    (d : List Byte) (e : Err) (rest : List (List Byte × Option Err)) (fuel : Nat)
    (hwf : b.WF mem) (hoff : b.off = 0) (he : e ≠ Err.EOF) (hpass : passes b.buf.len b.size ds)
    (hfit : ((b.buf.len + ds.flatten.length + d.length : Nat) : Int) ≤ b.size)
    (hfuel : ds.length + 1 ≤ fuel) :
    ∃ res, b.ReadAll ScriptReader.Read fuel mem
        (ds.map (fun x => (x, none)) ++ (d, some e) :: rest) = .ok res ∧
      res.err = some e ∧ res.src = rest ∧
      res.ret.bytes res.mem = b.Bytes.bytes mem ++ ds.flatten ++ d ∧
      res.b.Bytes.bytes res.mem = b.Bytes.bytes mem ++ ds.flatten ++ d := by
  obtain ⟨hmem, hlen, hcap, _⟩ := hwf
  unfold Buffer.ReadAll
  rw [Buffer.readAll_start b hlen hoff]
  obtain ⟨res, hres, r1, r2, r3, r4⟩ :=
    Buffer.readAllLoop_script d e he rest ds fuel b mem hmem hlen hcap hpass hfit hfuel
  exact ⟨res, hres, r1, r2, r4, by rw [Buffer.Bytes, ← r3]; exact r4⟩

theorem Buffer.readAll_source_error_witness :
    Buffer.WF ⟨⟨0, 1, 6⟩, none, 0, 5⟩ [9, 0, 0, 0, 0, 0] ∧ Err.other 7 ≠ Err.EOF ∧
    passes 1 5 [[1], [2, 3]] ∧
    ∃ res, Buffer.ReadAll ScriptReader.Read 3 ⟨⟨0, 1, 6⟩, none, 0, 5⟩ [9, 0, 0, 0, 0, 0]
        (([[1], [2, 3]] : List (List Byte)).map (fun x => (x, none)) ++
          ([4], some (Err.other 7)) :: [([5], none)]) = .ok res ∧
      res.err = some (Err.other 7) ∧ res.src = [([5], none)] ∧
      res.ret.bytes res.mem = (Buffer.Bytes ⟨⟨0, 1, 6⟩, none, 0, 5⟩).bytes [9, 0, 0, 0, 0, 0] ++
        ([[1], [2, 3]] : List (List Byte)).flatten ++ [4] ∧
      res.b.Bytes.bytes res.mem =
        (Buffer.Bytes ⟨⟨0, 1, 6⟩, none, 0, 5⟩).bytes [9, 0, 0, 0, 0, 0] ++
        ([[1], [2, 3]] : List (List Byte)).flatten ++ [4] :=
  ⟨by decide, by decide, ⟨by decide, by decide, by decide, by decide, trivial⟩,
    Buffer.readAll_source_error ⟨⟨0, 1, 6⟩, none, 0, 5⟩ [9, 0, 0, 0, 0, 0] [[1], [2, 3]] [4]
      (Err.other 7) [([5], none)] 3 (by decide) rfl (by decide)
      ⟨by decide, by decide, by decide, by decide, trivial⟩ (by decide) (by decide)⟩

/-! ## Traced sources -/

theorem bounded_of_lawful {σ : Type} (rd : Reader σ) (hl : Lawful rd) : Bounded rd := by
  intro st k
  obtain ⟨h1, h2⟩ := hl st k
  rw [h1]
  exact ⟨by omega, by omega⟩

theorem bounded_traced {σ : Type} (rd : Reader σ) (hb : Bounded rd) : Bounded (traced rd) :=
  fun st k => hb st.1 k

/-- Tracing a source changes nothing in what `ReadAll` does. -/
theorem Buffer.readAllLoop_traced {σ : Type} (rd : Reader σ) :
    ∀ (fuel : Nat) (b : Buffer) (mem : List Byte) (s : σ) (log : List Byte) (c : Nat),
      (Buffer.readAllLoop (traced rd) fuel b mem (s, log, c)).map ReadAllResult.untraced =
        Buffer.readAllLoop rd fuel b mem s := by
  intro fuel
  induction fuel with
  | zero => intro b mem s log c; rfl
  | succ fuel ih =>
    intro b mem s log c
    simp only [Buffer.readAllLoop]
    cases b.buf.slice (b.buf.len : Int) b.size with
    | none => rfl
    | some dst =>
      simp only [traced]
      cases b.buf.slice 0 ((b.buf.len : Int) + (rd s dst.len).n) with
      | none => rfl
      | some sl =>
        simp only
        split
        · rfl
        · split
          · rfl
          · split
            · rfl
            · exact ih _ _ _ _ _

/-- With a source that reports between 0 and `len(dst)` bytes and makes
progress, the loop of `ReadAll` returns once the fuel covers the room left in
the buffer and one more pass; it makes at least one call and at most one more
than there is room. -/
theorem Buffer.readAllLoop_terminates {σ : Type} (rd : Reader σ) (hb : Bounded rd)
    (hp : Progress rd) :
    ∀ (fuel : Nat) (b : Buffer) (mem : List Byte) (s : σ) (log : List Byte) (c : Nat),
      (b.buf.len : Int) ≤ b.size → b.size ≤ (b.buf.cap : Int) →
      (b.size - (b.buf.len : Int)).toNat + 1 ≤ fuel →
      ∃ res, Buffer.readAllLoop (traced rd) fuel b mem (s, log, c) = .ok res ∧
        c < res.src.2.2 ∧ res.src.2.2 ≤ c + (b.size - (b.buf.len : Int)).toNat + 1 := by
  intro fuel
  induction fuel with
  | zero => intro b mem s log c _ _ hf; omega
  | succ fuel ih =>
    intro b mem s log c hlen hcap hf
    have hn := hb s (b.size - (b.buf.len : Int)).toNat
    have hn1 : (rd s (b.size - (b.buf.len : Int)).toNat).n ≤ b.size - (b.buf.len : Int) := by
      have := hn.2; omega
    rw [Buffer.readAllLoop_step (traced rd) fuel b mem (s, log, c) hlen hcap ⟨hn.1, hn1⟩]
    simp only [traced]
    split
    · exact ⟨_, rfl, by simp, by simp⟩
    · split
      · exact ⟨_, rfl, by simp, by simp⟩
      · split
        · exact ⟨_, rfl, by simp, by simp⟩
        · rename_i h1 h2 h3
          have herr : (rd s (b.size - (b.buf.len : Int)).toNat).err = none := by
            by_contra hc; exact h2 hc
          have hpos : 1 ≤ (rd s (b.size - (b.buf.len : Int)).toNat).n := by
            by_cases hk : 0 < (b.size - (b.buf.len : Int)).toNat
            · rcases hp s _ hk with h | h
              · exact absurd herr h
              · exact h
            · exfalso
              apply h3
              constructor
              · omega
              · simp only [Nat.cast_add]; omega
          obtain ⟨res, hres, r1, r2⟩ := ih
            { b with buf := { b.buf with len := b.buf.len +
              (rd s (b.size - (b.buf.len : Int)).toNat).n.toNat } }
            (store mem (b.buf.ptr + b.buf.len)
              ((rd s (b.size - (b.buf.len : Int)).toNat).data.take
                (b.size - (b.buf.len : Int)).toNat))
            (rd s (b.size - (b.buf.len : Int)).toNat).st
            (log ++ (rd s (b.size - (b.buf.len : Int)).toNat).data) (c + 1)
            (by simp only [Nat.cast_add]; omega) hcap
            (by simp only [Nat.cast_add]; omega)
          refine ⟨res, hres, by omega, ?_⟩
          simp only [Nat.cast_add] at r2
          omega

/-- With a source that keeps the contract of `io.Reader`, what the loop of
`ReadAll` returns is the content the buffer had, followed by the bytes the
source delivered during the loop. -/
theorem Buffer.readAllLoop_content {σ : Type} (rd : Reader σ) (hl : Lawful rd) :
    ∀ (fuel : Nat) (b : Buffer) (mem : List Byte) (s : σ) (log : List Byte) (c : Nat),
      b.buf.ptr + b.buf.cap ≤ mem.length → (b.buf.len : Int) ≤ b.size →
      b.size ≤ (b.buf.cap : Int) →
      ∀ res, Buffer.readAllLoop (traced rd) fuel b mem (s, log, c) = .ok res →
        ∃ d, res.src.2.1 = log ++ d ∧ res.ret.bytes res.mem = b.buf.bytes mem ++ d := by
  intro fuel
  induction fuel with
  | zero => intro b mem s log c _ _ _ res h; simp [Buffer.readAllLoop] at h
  | succ fuel ih =>
    intro b mem s log c hmem hlen hcap res hres
    obtain ⟨hn, hd⟩ := hl s (b.size - (b.buf.len : Int)).toNat
    have htk : (rd s (b.size - (b.buf.len : Int)).toNat).data.take
        (b.size - (b.buf.len : Int)).toNat = (rd s (b.size - (b.buf.len : Int)).toNat).data :=
      List.take_of_length_le hd
    have hcont : (Slice.mk b.buf.ptr
        (b.buf.len + (rd s (b.size - (b.buf.len : Int)).toNat).data.length) b.buf.cap).bytes
        (store mem (b.buf.ptr + b.buf.len) (rd s (b.size - (b.buf.len : Int)).toNat).data) =
        b.buf.bytes mem ++ (rd s (b.size - (b.buf.len : Int)).toNat).data :=
      drop_take_store mem _ b.buf.ptr b.buf.len (by omega)
    rw [Buffer.readAllLoop_step (traced rd) fuel b mem (s, log, c) hlen hcap
      (by show 0 ≤ (rd s _).n ∧ (rd s _).n ≤ _
          rw [hn]; exact ⟨by omega, by omega⟩)] at hres
    simp only [traced, hn, htk, Int.toNat_ofNat] at hres
    have hfin : ∀ e : Option Err,
        (Except.ok
          { b := { b with buf := { b.buf with len := b.buf.len +
                (rd s (b.size - (b.buf.len : Int)).toNat).data.length } },
            mem := store mem (b.buf.ptr + b.buf.len)
              (rd s (b.size - (b.buf.len : Int)).toNat).data,
            src := ((rd s (b.size - (b.buf.len : Int)).toNat).st,
              log ++ (rd s (b.size - (b.buf.len : Int)).toNat).data, c + 1),
            ret := { b.buf with len := b.buf.len +
              (rd s (b.size - (b.buf.len : Int)).toNat).data.length },
            err := e } : Except Fault (ReadAllResult (σ × List Byte × Nat))) = .ok res →
        ∃ d, res.src.2.1 = log ++ d ∧ res.ret.bytes res.mem = b.buf.bytes mem ++ d := by
      intro e h
      simp only [Except.ok.injEq] at h
      subst h
      exact ⟨_, rfl, hcont⟩
    split at hres
    · exact hfin _ hres
    · split at hres
      · exact hfin _ hres
      · split at hres
        · exact hfin _ hres
        · obtain ⟨d, hd1, hd2⟩ := ih
            { b with buf := { b.buf with len := b.buf.len +
              (rd s (b.size - (b.buf.len : Int)).toNat).data.length } }
            (store mem (b.buf.ptr + b.buf.len) (rd s (b.size - (b.buf.len : Int)).toNat).data)
            (rd s (b.size - (b.buf.len : Int)).toNat).st
            (log ++ (rd s (b.size - (b.buf.len : Int)).toNat).data) (c + 1)
            (by rw [store_length _ _ _ (by omega)]; exact hmem)
            (by simp only [Nat.cast_add]; omega) hcap res hres
          refine ⟨(rd s (b.size - (b.buf.len : Int)).toNat).data ++ d, ?_, ?_⟩
          · rw [hd1, List.append_assoc]
          · rw [hd2]
            show (Slice.mk b.buf.ptr
              (b.buf.len + (rd s (b.size - (b.buf.len : Int)).toNat).data.length)
              b.buf.cap).bytes _ ++ d = _
            rw [hcont, List.append_assoc]

theorem bytesReader_lawful : Lawful BytesReader.Read := by
  intro st k
  unfold BytesReader.Read
  split
  · exact ⟨rfl, Nat.zero_le _⟩
  · exact ⟨rfl, List.length_take_le _ _⟩

theorem bytesReader_progress : Progress BytesReader.Read := by
  intro st k hk
  unfold BytesReader.Read
  split
  · left; simp
  · right
    rename_i h
    simp only [List.length_take, List.length_drop]
    omega

/-- C19: a well-formed buffer with cursor 0, of capacity `S` and length `L`,
and a source that reports between 0 and `len(dst)` bytes on every call and, on
a destination that is not empty, delivers a byte or returns an error:
`ReadAll` returns once it may run `S - L + 1` passes, and it makes at least one
call and at most `S - L + 1` calls to the source. -/
theorem Buffer.readAll_terminates {σ : Type} (rd : Reader σ) (hb : Bounded rd)
    (hp : Progress rd) (b : Buffer) (mem : List Byte) (s : σ) (fuel : Nat) (hwf : b.WF mem)
    (hoff : b.off = 0) (hfuel : (b.size - (b.buf.len : Int)).toNat + 1 ≤ fuel) :
    ∃ res, b.ReadAll (traced rd) fuel mem (s, [], 0) = .ok res ∧
      1 ≤ res.src.2.2 ∧ res.src.2.2 ≤ (b.size - (b.buf.len : Int)).toNat + 1 ∧
      b.ReadAll rd fuel mem s = .ok res.untraced := by
  obtain ⟨_, hlen, hcap, _⟩ := hwf
  obtain ⟨res, hres, r1, r2⟩ :=
    Buffer.readAllLoop_terminates rd hb hp fuel b mem s [] 0 hlen hcap hfuel
  have hsim := Buffer.readAllLoop_traced rd fuel b mem s [] 0
  rw [hres] at hsim
  unfold Buffer.ReadAll
  rw [Buffer.readAll_start b hlen hoff]
  exact ⟨res, hres, by omega, by omega, hsim.symm⟩

theorem Buffer.readAll_terminates_witness :
    Bounded BytesReader.Read ∧ Progress BytesReader.Read ∧
    Buffer.WF ⟨⟨0, 1, 4⟩, none, 0, 3⟩ [9, 0, 0, 0] ∧
    ((3 : Int) - ((1 : Nat) : Int)).toNat + 1 ≤ 3 ∧
    ∃ res, Buffer.ReadAll (traced BytesReader.Read) 3 ⟨⟨0, 1, 4⟩, none, 0, 3⟩ [9, 0, 0, 0]
        (BytesReader.new [1, 2, 3], [], 0) = .ok res ∧
      1 ≤ res.src.2.2 ∧ res.src.2.2 ≤ ((3 : Int) - ((1 : Nat) : Int)).toNat + 1 ∧
      Buffer.ReadAll BytesReader.Read 3 ⟨⟨0, 1, 4⟩, none, 0, 3⟩ [9, 0, 0, 0]
        (BytesReader.new [1, 2, 3]) = .ok res.untraced :=
  ⟨bounded_of_lawful _ bytesReader_lawful, bytesReader_progress, by decide, by decide,
    Buffer.readAll_terminates BytesReader.Read (bounded_of_lawful _ bytesReader_lawful)
      bytesReader_progress ⟨⟨0, 1, 4⟩, none, 0, 3⟩ [9, 0, 0, 0] (BytesReader.new [1, 2, 3]) 3
      (by decide) rfl (by decide)⟩

/-! ## The reset at the start of ReadAll -/

/-- What `ReadAll` returns, by its guard `b.off >= b.size`.  With the cursor
at or past the capacity the buffer is reset first: the bytes returned are the
bytes the source delivered during the call and nothing else, and the cursor
is 0.  With the cursor below the capacity the bytes returned are the content
the buffer had, followed by the bytes delivered.  (Source: contract of
`io.Reader`, progress on a destination that is not empty; fuel for
`b.size + 1` passes.) -/
theorem Buffer.readAll_by_guard {σ : Type} (rd : Reader σ) (hl : Lawful rd)
    (hp : Progress rd) (b : Buffer) (mem : List Byte) (s : σ) (fuel : Nat) (hwf : b.WF mem)
    (hfuel : b.size.toNat + 1 ≤ fuel) :
    ∃ res, b.ReadAll (traced rd) fuel mem (s, [], 0) = .ok res ∧
      b.ReadAll rd fuel mem s = .ok res.untraced ∧
      (b.off ≥ b.size → res.ret.bytes res.mem = res.src.2.1 ∧ res.b.off = 0) ∧
      (b.off < b.size →
        res.ret.bytes res.mem = b.Bytes.bytes mem ++ res.src.2.1 ∧ res.b.off = b.off) := by
  obtain ⟨hmem, hlen, hcap, _⟩ := hwf
  have hb := bounded_of_lawful rd hl
  have key : ∀ b1 : Buffer, b1.buf.ptr + b1.buf.cap ≤ mem.length →
      (b1.buf.len : Int) ≤ b1.size → b1.size ≤ (b1.buf.cap : Int) → b1.size = b.size →
      ∃ res, Buffer.readAllLoop (traced rd) fuel b1 mem (s, [], 0) = .ok res ∧
        Buffer.readAllLoop rd fuel b1 mem s = .ok res.untraced ∧
        res.ret.bytes res.mem = b1.buf.bytes mem ++ res.src.2.1 ∧ res.b.off = b1.off := by
    intro b1 h1 h2 h3 h4
    obtain ⟨res, hres, _, _⟩ := Buffer.readAllLoop_terminates rd hb hp fuel b1 mem s [] 0 h2 h3
      (by rw [h4]; omega)
    have hsim := Buffer.readAllLoop_traced rd fuel b1 mem s [] 0
    rw [hres] at hsim
    obtain ⟨d, hd1, hd2⟩ := Buffer.readAllLoop_content rd hl fuel b1 mem s [] 0 h1 h2 h3 res hres
    obtain ⟨_, hsafe⟩ := Buffer.readAllLoop_safe (traced rd) (bounded_traced rd hb) fuel b1 mem
      (s, [], 0) h1 h2 h3
    refine ⟨res, hres, hsim.symm, ?_, (hsafe res hres).2.1⟩
    rw [hd2, hd1, List.nil_append]
  unfold Buffer.ReadAll
  by_cases hcur : b.off ≥ b.size
  · simp only [if_pos hcur]
    obtain ⟨res, h1, h2, h3, h4⟩ := key b.Reset hmem
      (by simp only [Buffer.Reset, Nat.cast_zero]; omega) hcap rfl
    refine ⟨res, h1, h2, fun _ => ⟨?_, h4⟩, fun h => absurd hcur (by omega)⟩
    rw [h3]
    simp [Buffer.Reset, Slice.bytes]
  · simp only [if_neg hcur]
    obtain ⟨res, h1, h2, h3, h4⟩ := key b hmem hlen hcap rfl
    exact ⟨res, h1, h2, fun h => absurd h hcur, fun _ => ⟨h3, h4⟩⟩

/-! ## Buffers stay within their regions -/

/-- Replacing a buffer by a well-formed one of the same size and start keeps `BufsOK`. -/
theorem bufsOK_set (base : Nat) (s : Int) (h : Heap) (b : Nat) (bv bv1 : Buffer)
    (mem1 : List Byte) (hok : BufsOK base s h) (hbv : h.bufs[b]? = some bv)
    (hsz : bv1.size = s) (hoff : bv1.off = 0) (hwf : bv1.WF mem1)
    (hptr : bv1.buf.ptr = bv.buf.ptr) (hmem : mem1.length = h.mem.length) :
    BufsOK base s ⟨h.bufs.set b bv1, mem1⟩ := by
  have hlt : b < h.bufs.length := (List.getElem?_eq_some.mp hbv).1
  have hself : (h.bufs.set b bv1)[b]? = some bv1 := List.getElem?_set_self hlt
  have hother : ∀ x, x ≠ b → (h.bufs.set b bv1)[x]? = h.bufs[x]? :=
    fun x hx => List.getElem?_set_ne (Ne.symm hx)
  have hget : ∀ x xv, (h.bufs.set b bv1)[x]? = some xv →
      ∃ xv0, h.bufs[x]? = some xv0 ∧ xv.buf.ptr = xv0.buf.ptr ∧ (x ≠ b → xv = xv0) ∧
        (x = b → xv = bv1) := by
    intro x xv hx
    by_cases hxb : x = b
    · subst hxb
      rw [hself] at hx
      cases hx
      exact ⟨bv, hbv, hptr, fun h => absurd rfl h, fun _ => rfl⟩
    · rw [hother x hxb] at hx
      exact ⟨xv, hx, rfl, fun _ => rfl, fun h => absurd h hxb⟩
  constructor
  · intro x xv hx hxv
    obtain ⟨xv0, hxv0, _, hne, heq⟩ := hget x xv hxv
    by_cases hxb : x = b
    · rw [heq hxb]; exact ⟨hsz, hoff, hwf⟩
    · rw [hne hxb]
      obtain ⟨r1, r2, r3, r4, r5, r6⟩ := hok.1 x xv0 hx hxv0
      exact ⟨r1, r2, by show _ ≤ mem1.length; rw [hmem]; exact r3, r4, r5, r6⟩
  · intro x y xv yv hx hy hxy hxv hyv
    obtain ⟨xv0, hxv0, hxp, _, _⟩ := hget x xv hxv
    obtain ⟨yv0, hyv0, hyp, _, _⟩ := hget y yv hyv
    rw [hxp, hyp]
    exact hok.2 x y xv0 yv0 hx hy hxy hxv0 hyv0

/-- The batch `grow` appends keeps `BufsOK`. -/
theorem bufsOK_grow (base : Nat) (p : Pool) (h : Heap) (hnum : 1 ≤ p.num) (hsize : 0 ≤ p.size)
    (hmax : p.Fits) (hok : BufsOK base p.size h) :
    ∃ l, p.grow h = some ({ p with free := some h.bufs.length },
        { bufs := h.bufs ++ l, mem := h.mem ++ List.replicate p.max.toNat 0 }) ∧
      BufsOK base p.size { bufs := h.bufs ++ l, mem := h.mem ++ List.replicate p.max.toNat 0 } := by
  obtain ⟨l, hg, hl, hlay⟩ := Pool.grow_layout p h hnum hsize hmax
  refine ⟨l, hg, ?_⟩
  have hsplit : ∀ x xv, (h.bufs ++ l)[x]? = some xv →
      (x < h.bufs.length ∧ h.bufs[x]? = some xv) ∨
      (h.bufs.length ≤ x ∧ x - h.bufs.length < p.num.toNat ∧
        l[x - h.bufs.length]? = some xv) := by
    intro x xv hx
    by_cases hlt : x < h.bufs.length
    · left; rw [List.getElem?_append_left hlt] at hx; exact ⟨hlt, hx⟩
    · right
      rw [List.getElem?_append_right (by omega)] at hx
      have := (List.getElem?_eq_some.mp hx).1
      exact ⟨by omega, by omega, hx⟩
  have hnew : ∀ j xv, j < p.num.toNat → l[j]? = some xv →
      xv.size = p.size ∧ xv.off = 0 ∧ xv.buf.ptr = h.mem.length + j * p.size.toNat ∧
      xv.buf.len = p.size.toNat ∧ xv.buf.cap = p.max.toNat - j * p.size.toNat ∧
      (j + 1) * p.size.toNat ≤ p.max.toNat := by
    intro j xv hj hxv
    obtain ⟨bv, hbv, r1, r2, r3, r4, r5, r6, _⟩ := hlay j hj
    rw [hbv] at hxv
    cases hxv
    exact ⟨r1, r2, r3, r4, r5, r6⟩
  constructor
  · intro x xv hx hxv
    rcases hsplit x xv hxv with ⟨_, hold⟩ | ⟨_, hj, hnw⟩
    · obtain ⟨r1, r2, r3, r4, r5, r6⟩ := hok.1 x xv hx hold
      refine ⟨r1, r2, ?_, r4, r5, r6⟩
      show _ ≤ (h.mem ++ List.replicate p.max.toNat 0).length
      rw [List.length_append]; omega
    · obtain ⟨r1, r2, r3, r4, r5, r6⟩ := hnew _ xv hj hnw
      rw [Nat.add_mul, Nat.one_mul] at r6
      refine ⟨r1, r2, ?_, ?_, ?_, by omega⟩
      · show _ ≤ (h.mem ++ List.replicate p.max.toNat 0).length
        rw [List.length_append, List.length_replicate, r3, r5]; omega
      · rw [r4, r1]; omega
      · rw [r5, r1]; omega
  · intro x y xv yv hx hy hxy hxv hyv
    rcases hsplit x xv hxv with ⟨_, hxo⟩ | ⟨hxg, hxj, hxn⟩
    · rcases hsplit y yv hyv with ⟨_, hyo⟩ | ⟨_, hyj, hyn⟩
      · exact hok.2 x y xv yv hx hy hxy hxo hyo
      · obtain ⟨r1, _, r3, _, r5, _⟩ := hok.1 x xv hx hxo
        obtain ⟨_, _, q3, _⟩ := hnew _ yv hyj hyn
        left; rw [q3]; omega
    · obtain ⟨_, _, q3, _, _, q6⟩ := hnew _ xv hxj hxn
      rcases hsplit y yv hyv with ⟨_, hyo⟩ | ⟨hyg, hyj, hyn⟩
      · obtain ⟨r1, _, r3, _, r5, _⟩ := hok.1 y yv hy hyo
        right; rw [q3]; omega
      · obtain ⟨_, _, s3, _, _, s6⟩ := hnew _ yv hyj hyn
        rw [q3, s3]
        rcases Nat.lt_or_gt_of_ne (show x - h.bufs.length ≠ y - h.bufs.length by omega) with hlt | hgt
        · left
          have := Nat.mul_le_mul_right p.size.toNat (Nat.succ_le_of_lt hlt)
          rw [Nat.succ_mul] at this
          omega
        · right
          have := Nat.mul_le_mul_right p.size.toNat (Nat.succ_le_of_lt hgt)
          rw [Nat.succ_mul] at this
          omega

theorem kept_refl (s : Int) (bv : Buffer) (mem : List Byte) (hs : bv.size = s)
    (hoff : bv.off = 0) (hwf : bv.WF mem) : Kept s bv mem bv mem :=
  ⟨hs, hoff, hwf, rfl, rfl, rfl, fun _ _ => rfl⟩

theorem kept_reset (s : Int) (bv : Buffer) (mem : List Byte) (hs : bv.size = s)
    (hwf : bv.WF mem) : Kept s bv mem bv.Reset mem := by
  obtain ⟨h1, h2, h3, _⟩ := hwf
  refine ⟨hs, rfl, ⟨h1, ?_, h3, le_refl _⟩, rfl, rfl, rfl, fun _ _ => rfl⟩
  show ((0 : Nat) : Int) ≤ bv.size
  omega

theorem kept_read (s : Int) (bv bv1 : Buffer) (mem dst dst1 : List Byte) (n : Int)
    (err : Option Err) (hs : bv.size = s) (hoff : bv.off = 0) (hwf : bv.WF mem)
    (hread : bv.Read mem dst = some (bv1, dst1, n, err)) : Kept s bv mem bv1 mem := by
  unfold Buffer.Read at hread
  split at hread
  · split at hread
    · simp only [Option.some.injEq, Prod.mk.injEq] at hread
      rw [← hread.1]; exact kept_reset s bv mem hs hwf
    · simp only [Option.some.injEq, Prod.mk.injEq] at hread
      rw [← hread.1]; exact kept_reset s bv mem hs hwf
  · split at hread
    · exact absurd hread (by simp)
    · simp only [Option.some.injEq, Prod.mk.injEq] at hread
      rw [← hread.1]; exact kept_refl s bv mem hs hoff hwf

/-- `Write` on a well-formed buffer never panics, and what it leaves is `Kept`. -/
theorem kept_write (s : Int) (bv : Buffer) (mem p : List Byte) (hs : bv.size = s)
    (hoff : bv.off = 0) (hwf : bv.WF mem) :
    ∃ bv1 mem1 n err, bv.Write mem p = some (bv1, mem1, n, err) ∧ Kept s bv mem bv1 mem1 := by
  by_cases hgt : (p.length : Int) + (bv.buf.len : Int) > bv.size
  · exact ⟨bv, mem, 0, some Err.ErrBufNotEnough, by simp [Buffer.Write, hgt],
      kept_refl s bv mem hs hoff hwf⟩
  · obtain ⟨h1, h2, h3, h4⟩ := hwf
    have hsl : (store mem (bv.buf.ptr + bv.buf.len) p).length = mem.length :=
      store_length _ _ _ (by omega)
    refine ⟨_, _, _, _, Buffer.write_eq_of_fits bv mem p h3 (by omega), hs, hoff,
      ⟨by rw [hsl]; exact h1, by simp only [Nat.cast_add]; omega, h3, h4⟩, rfl, rfl, hsl, ?_⟩
    intro a ha
    rcases ha with ha | ha
    · exact store_getElem?_lt _ _ _ _ (by omega) (by omega)
    · exact store_getElem?_ge _ _ _ _ (by omega) (by omega)

/-- `ReadAll` on a well-formed buffer, from a source that reports between 0
and `len(dst)` bytes, never panics, and what it leaves is `Kept`. -/
theorem kept_readAll {σ : Type} (rd : Reader σ) (hb : Bounded rd) (s : Int) (bv : Buffer)
    (mem : List Byte) (st : σ) (fuel : Nat) (hs : bv.size = s) (hwf : bv.WF mem) :
    bv.ReadAll rd fuel mem st ≠ .error Fault.panicked ∧
    ∀ res, bv.ReadAll rd fuel mem st = .ok res →
      bv.off = 0 → Kept s bv mem res.b res.mem := by
  obtain ⟨h1, h2, h3, h4⟩ := hwf
  have key : ∀ b1 : Buffer, b1.buf.ptr = bv.buf.ptr → b1.buf.cap = bv.buf.cap →
      b1.size = bv.size → b1.next = bv.next → (b1.buf.len : Int) ≤ b1.size →
      Buffer.readAllLoop rd fuel b1 mem st ≠ .error Fault.panicked ∧
      ∀ res, Buffer.readAllLoop rd fuel b1 mem st = .ok res →
        b1.off = 0 → Kept s bv mem res.b res.mem := by
    intro b1 e1 e2 e3 e4 hl1
    obtain ⟨hnp, hok⟩ := Buffer.readAllLoop_safe rd hb fuel b1 mem st
      (by rw [e1, e2]; exact h1) hl1 (by rw [e3, e2]; exact h3)
    refine ⟨hnp, ?_⟩
    intro res hres hoff1
    obtain ⟨r1, r2, r3, r4, r5, r6, r7, _, r9, r10⟩ := hok res hres
    refine ⟨by rw [r1, e3, hs], by rw [r2, hoff1], ⟨?_, ?_, ?_, ?_⟩, by rw [r4, e1],
      by rw [r3, e4], r9, ?_⟩
    · rw [r4, r5, r9, e1, e2]; exact h1
    · rw [r1]; exact r7
    · rw [r1, r5, e3, e2]; exact h3
    · rw [r2, hoff1]
    · intro a ha
      apply r10
      rw [e1, e3, hs]
      omega
  unfold Buffer.ReadAll
  split
  · obtain ⟨k1, k2⟩ := key bv.Reset rfl rfl rfl rfl
      (by show ((0 : Nat) : Int) ≤ bv.size; omega)
    exact ⟨k1, fun res hres _ => k2 res hres rfl⟩
  · exact key bv rfl rfl rfl rfl h2

/-- Popping the head of the free list keeps `BufsOK`. -/
theorem pop_bufsOK (base : Nat) (s : Int) (p : Pool) (h : Heap) (b : Nat) (hb : base ≤ b)
    (hok : BufsOK base s h) (b1 : Nat) (p1 : Pool) (h1 : Heap)
    (hpop : Pool.pop p h b = some (b1, p1, h1)) : BufsOK base s h1 := by
  unfold Pool.pop at hpop
  split at hpop
  · exact absurd hpop (by simp)
  · rename_i bv hbv
    simp only [Option.some.injEq, Prod.mk.injEq] at hpop
    obtain ⟨_, _, rfl⟩ := hpop
    obtain ⟨hs, _, hwf⟩ := hok.1 b bv hb hbv
    obtain ⟨k1, k2, k3, k4, _, k6, _⟩ := kept_reset s bv h.mem hs hwf
    exact bufsOK_set base s h b bv bv.Reset h.mem hok hbv k1 k2 k3 k4 k6

/-- `Get` keeps `BufsOK`. -/
theorem get_bufsOK (base : Nat) (p : Pool) (h : Heap) (hlen : base ≤ h.bufs.length)
    (hp : LevelOK base h p) (hok : BufsOK base p.size h) (b : Nat) (p1 : Pool) (h1 : Heap)
    (hget : p.Get h = some (b, p1, h1)) : BufsOK base p.size h1 := by
  obtain ⟨hnum, hsize, hmax, hgood⟩ := hp
  unfold Pool.Get at hget
  split at hget
  · rename_i b0 hfree
    exact pop_bufsOK base p.size p h b0 (hgood b0 hfree).1 hok b p1 h1 hget
  · obtain ⟨l, hg, hok1⟩ := bufsOK_grow base p h hnum hsize hmax hok
    rw [hg] at hget
    simp only at hget
    exact pop_bufsOK base p.size _ _ h.bufs.length hlen hok1 b p1 h1 hget

/-- What the holder of a checked-out buffer does to it through a method
that leaves it `Kept` keeps the invariant. -/
theorem runInv_use (base : Nat) (s : Int) (w : World) (b : Nat) (bv bv1 : Buffer)
    (mem1 : List Byte) (hinv : RunInv base s w) (hb : b ∈ w.out)
    (hbv : w.heap.bufs[b]? = some bv) (hk : Kept s bv w.heap.mem bv1 mem1) :
    RunInv base s ⟨w.pool, ⟨w.heap.bufs.set b bv1, mem1⟩, w.out⟩ := by
  obtain ⟨hlen, hlinks, hlev, hsz, hout, hok⟩ := hinv
  obtain ⟨k1, k2, k3, k4, k5, k6, _⟩ := hk
  obtain ⟨bv0, hbase, hbv0⟩ := hout b hb
  obtain ⟨hs, _, _⟩ := hok.1 b bv hbase hbv
  have hext := ext_set base w.heap b bv bv1 mem1 hlen hbv (by rw [k1, hs])
  refine ⟨hext.1, ?_, LevelOK.ext base _ _ _ hext hlev, hsz, ?_,
    bufsOK_set base s w.heap b bv bv1 mem1 hok hbv k1 k2 k3 k4 k6⟩
  · refine linksOK_set base w.heap b bv bv1 mem1 hlen hlinks hbv (by rw [k1, hs]) ?_
    intro n hn
    rw [k5] at hn
    exact hlinks b bv hbase hbv n hn
  · intro x hx
    obtain ⟨xv, hxb, hxv⟩ := hout x hx
    obtain ⟨_, xv1, hxv1, _⟩ := hext.2 x xv.size ⟨hxb, xv, hxv, rfl⟩
    exact ⟨xv1, hxb, hxv1⟩

/-- Every state of a run satisfies the invariant, for the buffers made
after the heap the pool was built on. -/
theorem run_inv (num size : Int) (h0 : Heap) (w : World) (hr : Run num size h0 w) :
    RunInv h0.bufs.length size w := by
  induction hr with
  | init p h _ hint hnew =>
    obtain ⟨hnum, hsize, hfits⟩ := newPool_params num size h0 p h hint hnew
    have hlinks0 : LinksOK h0.bufs.length h0 := by
      intro b bv hb1 hbv
      have := (List.getElem?_eq_some.mp hbv).1
      omega
    have hok0 : BufsOK h0.bufs.length size h0 := by
      constructor
      · intro x xv hx hxv
        have := (List.getElem?_eq_some.mp hxv).1
        omega
      · intro x y xv yv hx _ _ hxv
        have := (List.getElem?_eq_some.mp hxv).1
        omega
    obtain ⟨h1, b, hg, hlinks, hext, hgood⟩ :=
      grow_ok h0.bufs.length (Pool.mk none (wrapInt (num * size)) num size) h0
        hnum hsize hfits (le_refl _) hlinks0
    obtain ⟨l, hg2, hok⟩ :=
      bufsOK_grow h0.bufs.length (Pool.mk none (wrapInt (num * size)) num size)
        h0 hnum hsize hfits hok0
    have hnew1 : NewPool num size h0 = some
        (Pool.mk (some b) (wrapInt (num * size)) num size, h1) := hg
    rw [hnew] at hnew1
    simp only [Option.some.injEq, Prod.mk.injEq] at hnew1
    obtain ⟨rfl, rfl⟩ := hnew1
    rw [hg] at hg2
    simp only [Option.some.injEq, Prod.mk.injEq] at hg2
    refine ⟨hext.1, hlinks, ⟨hnum, hsize, hfits, fun x hx => ?_⟩, rfl,
      fun x hx => absurd hx (List.not_mem_nil x), by rw [hg2.2]; exact hok⟩
    simp only [Option.some.injEq] at hx
    subst hx; exact hgood
  | get w b p1 h1 _ hget ih =>
    obtain ⟨hlen, hlinks, hlev, hsz, hout, hok⟩ := ih
    obtain ⟨b2, p2, h2, hg, hlinks2, hext2, hlev2, hgood2, hs2⟩ :=
      get_ok h0.bufs.length w.pool w.heap hlen hlinks hlev
    have hok2 := get_bufsOK h0.bufs.length w.pool w.heap hlen hlev (by rw [hsz]; exact hok)
      b p1 h1 hget
    rw [hg] at hget
    simp only [Option.some.injEq, Prod.mk.injEq] at hget
    obtain ⟨rfl, rfl, rfl⟩ := hget
    refine ⟨hext2.1, hlinks2, hlev2, by rw [hs2, hsz], ?_, by rw [← hsz]; exact hok2⟩
    intro x hx
    rcases List.mem_cons.mp hx with rfl | hx
    · obtain ⟨hb, bv, hbv, _⟩ := hgood2
      exact ⟨bv, hb, hbv⟩
    · obtain ⟨xv, hxb, hxv⟩ := hout x hx
      obtain ⟨_, xv1, hxv1, _⟩ := hext2.2 x xv.size ⟨hxb, xv, hxv, rfl⟩
      exact ⟨xv1, hxb, hxv1⟩
  | put w b p1 h1 _ hb hput ih =>
    obtain ⟨hlen, hlinks, hlev, hsz, hout, hok⟩ := ih
    obtain ⟨bv, hbase, hbv⟩ := hout b hb
    obtain ⟨hs, hoff, hwf⟩ := hok.1 b bv hbase hbv
    obtain ⟨p2, h2, hp, hlinks2, hext2, hlev2, hs2⟩ :=
      put_ok h0.bufs.length w.pool w.heap b hlen hlinks hlev ⟨hbase, bv, hbv, by rw [hs, hsz]⟩
    have hshape : w.pool.Put w.heap b = some ({ w.pool with free := some b },
        { w.heap with bufs := w.heap.bufs.set b { bv with next := w.pool.free } }) := by
      simp only [Pool.Put, hbv]
    rw [hshape] at hput
    simp only [Option.some.injEq, Prod.mk.injEq] at hput
    rw [hshape] at hp
    simp only [Option.some.injEq, Prod.mk.injEq] at hp
    obtain ⟨rfl, rfl⟩ := hput
    obtain ⟨rfl, rfl⟩ := hp
    refine ⟨hext2.1, hlinks2, hlev2, hsz, ?_,
      bufsOK_set h0.bufs.length size w.heap b bv { bv with next := w.pool.free } w.heap.mem hok
        hbv hs hoff hwf rfl rfl⟩
    intro x hx
    obtain ⟨xv, hxb, hxv⟩ := hout x (List.mem_of_mem_erase hx)
    obtain ⟨_, xv1, hxv1, _⟩ := hext2.2 x xv.size ⟨hxb, xv, hxv, rfl⟩
    exact ⟨xv1, hxb, hxv1⟩
  | reset w b bv _ hb hbv ih =>
    obtain ⟨bv0, hbase, _⟩ := ih.2.2.2.2.1 b hb
    obtain ⟨hs, _, hwf⟩ := ih.2.2.2.2.2.1 b bv hbase hbv
    exact runInv_use _ size w b bv bv.Reset w.heap.mem ih hb hbv
      (kept_reset size bv w.heap.mem hs hwf)
  | read w b bv bv1 dst dst1 n err _ hb hbv hread ih =>
    obtain ⟨bv0, hbase, _⟩ := ih.2.2.2.2.1 b hb
    obtain ⟨hs, hoff, hwf⟩ := ih.2.2.2.2.2.1 b bv hbase hbv
    exact runInv_use _ size w b bv bv1 w.heap.mem ih hb hbv
      (kept_read size bv bv1 w.heap.mem dst dst1 n err hs hoff hwf hread)
  | write w b bv bv1 p mem1 n err _ hb hbv hwrite ih =>
    obtain ⟨bv0, hbase, _⟩ := ih.2.2.2.2.1 b hb
    obtain ⟨hs, hoff, hwf⟩ := ih.2.2.2.2.2.1 b bv hbase hbv
    obtain ⟨bv2, mem2, n2, err2, hw2, hk⟩ := kept_write size bv w.heap.mem p hs hoff hwf
    rw [hw2] at hwrite
    simp only [Option.some.injEq, Prod.mk.injEq] at hwrite
    obtain ⟨rfl, rfl, _, _⟩ := hwrite
    exact runInv_use _ size w b bv bv2 mem2 ih hb hbv hk
  | readAll rd s fuel w b bv res _ hb hbv hbd hra ih =>
    obtain ⟨bv0, hbase, _⟩ := ih.2.2.2.2.1 b hb
    obtain ⟨hs, hoff, hwf⟩ := ih.2.2.2.2.2.1 b bv hbase hbv
    exact runInv_use _ size w b bv res.b res.mem ih hb hbv
      ((kept_readAll rd hbd size bv w.heap.mem s fuel hs hwf).2 res hra hoff)

/-- C18: in every state a pool made by `NewPool(num, size)` reaches through
`Get`, `Put`, `Reset`, `Read`, `Write` and `ReadAll` (from a source that
reports between 0 and `len(dst)` bytes), every buffer the pool has made has
size `size`, a length of at most `size`, and `size` bytes of backing memory,
apart from those of every other buffer.  So on a checked-out buffer `Write`
and `ReadAll` never panic (their slice expressions are in range), and they
leave memory as it was outside the `size` bytes of that buffer. -/
theorem Run.buffers_in_bounds (num size : Int) (h0 : Heap) (w : World)
    (hr : Run num size h0 w) :
    (∀ x xv, h0.bufs.length ≤ x → w.heap.bufs[x]? = some xv →
      xv.size = size ∧ (xv.buf.len : Int) ≤ size ∧ size ≤ (xv.buf.cap : Int) ∧
      xv.buf.ptr + xv.buf.cap ≤ w.heap.mem.length) ∧
    (∀ x y xv yv, h0.bufs.length ≤ x → h0.bufs.length ≤ y → x ≠ y →
      w.heap.bufs[x]? = some xv → w.heap.bufs[y]? = some yv →
      xv.buf.ptr + size.toNat ≤ yv.buf.ptr ∨ yv.buf.ptr + size.toNat ≤ xv.buf.ptr) ∧
    ∀ b ∈ w.out, ∃ bv, h0.bufs.length ≤ b ∧ w.heap.bufs[b]? = some bv ∧
      (∀ p : List Byte, ∃ bv1 mem1 n err, bv.Write w.heap.mem p = some (bv1, mem1, n, err) ∧
        mem1.length = w.heap.mem.length ∧
        ∀ a, (a < bv.buf.ptr ∨ bv.buf.ptr + size.toNat ≤ a) → mem1[a]? = w.heap.mem[a]?) ∧
      ∀ (σ : Type) (rd : Reader σ) (s : σ) (fuel : Nat), Bounded rd →
        bv.ReadAll rd fuel w.heap.mem s ≠ .error Fault.panicked ∧
        ∀ res, bv.ReadAll rd fuel w.heap.mem s = .ok res →
          res.b.size = size ∧ (res.b.buf.len : Int) ≤ size ∧
          res.mem.length = w.heap.mem.length ∧
          ∀ a, (a < bv.buf.ptr ∨ bv.buf.ptr + size.toNat ≤ a) →
            res.mem[a]? = w.heap.mem[a]? := by
  obtain ⟨_, _, _, _, hout, hok⟩ := run_inv num size h0 w hr
  refine ⟨?_, hok.2, ?_⟩
  · intro x xv hx hxv
    obtain ⟨r1, _, r3, r4, r5, _⟩ := hok.1 x xv hx hxv
    exact ⟨r1, by rw [← r1]; exact r4, by rw [← r1]; exact r5, r3⟩
  · intro b hb
    obtain ⟨bv, hbase, hbv⟩ := hout b hb
    obtain ⟨hs, hoff, hwf⟩ := hok.1 b bv hbase hbv
    refine ⟨bv, hbase, hbv, ?_, ?_⟩
    · intro p
      obtain ⟨bv1, mem1, n, err, hw, hk⟩ := kept_write size bv w.heap.mem p hs hoff hwf
      exact ⟨bv1, mem1, n, err, hw, hk.2.2.2.2.2.1, hk.2.2.2.2.2.2⟩
    · intro σ rd s fuel hbd
      obtain ⟨hnp, hk⟩ := kept_readAll rd hbd size bv w.heap.mem s fuel hs hwf
      refine ⟨hnp, ?_⟩
      intro res hres
      obtain ⟨k1, _, k3, _, _, k6, k7⟩ := hk res hres hoff
      exact ⟨k1, by rw [← k1]; exact k3.2.1, k6, k7⟩

theorem run_world1w : Run 2 3 emptyHeap world1w :=
  Run.write world1 0 ⟨⟨0, 0, 6⟩, some 1, 0, 3⟩ ⟨⟨0, 2, 6⟩, some 1, 0, 3⟩ [7, 8]
    [7, 8, 0, 0, 0, 0] 2 none
    (Run.get world0 0 world1.pool world1.heap
      (Run.init world0.pool world0.heap (by decide) (by decide) (by decide)) (by decide))
    (by decide) (by decide) (by decide)

theorem Run.buffers_in_bounds_witness :
    Run 2 3 emptyHeap world1w ∧
    ((∀ x xv, emptyHeap.bufs.length ≤ x → world1w.heap.bufs[x]? = some xv →
      xv.size = 3 ∧ (xv.buf.len : Int) ≤ 3 ∧ (3 : Int) ≤ (xv.buf.cap : Int) ∧
      xv.buf.ptr + xv.buf.cap ≤ world1w.heap.mem.length) ∧
    (∀ x y xv yv, emptyHeap.bufs.length ≤ x → emptyHeap.bufs.length ≤ y → x ≠ y →
      world1w.heap.bufs[x]? = some xv → world1w.heap.bufs[y]? = some yv →
      xv.buf.ptr + (3 : Int).toNat ≤ yv.buf.ptr ∨ yv.buf.ptr + (3 : Int).toNat ≤ xv.buf.ptr) ∧
    ∀ b ∈ world1w.out, ∃ bv, emptyHeap.bufs.length ≤ b ∧ world1w.heap.bufs[b]? = some bv ∧
      (∀ p : List Byte, ∃ bv1 mem1 n err,
        bv.Write world1w.heap.mem p = some (bv1, mem1, n, err) ∧
        mem1.length = world1w.heap.mem.length ∧
        ∀ a, (a < bv.buf.ptr ∨ bv.buf.ptr + (3 : Int).toNat ≤ a) →
          mem1[a]? = world1w.heap.mem[a]?) ∧
      ∀ (σ : Type) (rd : Reader σ) (s : σ) (fuel : Nat), Bounded rd →
        bv.ReadAll rd fuel world1w.heap.mem s ≠ .error Fault.panicked ∧
        ∀ res, bv.ReadAll rd fuel world1w.heap.mem s = .ok res →
          res.b.size = 3 ∧ (res.b.buf.len : Int) ≤ 3 ∧
          res.mem.length = world1w.heap.mem.length ∧
          ∀ a, (a < bv.buf.ptr ∨ bv.buf.ptr + (3 : Int).toNat ≤ a) →
            res.mem[a]? = world1w.heap.mem[a]?) :=
  ⟨run_world1w, Run.buffers_in_bounds 2 3 emptyHeap world1w run_world1w⟩

/-! ## ReadAll on a buffer with the cursor at the end of its content -/

theorem run_world1r : Run 2 3 emptyHeap world1r :=
  Run.reset world1w 0 ⟨⟨0, 2, 6⟩, some 1, 0, 3⟩ run_world1w (by decide) (by decide)

/-- C20: in every state a pool reaches through `Get`, `Put`, `Reset`, `Read`,
`Write` and `ReadAll`, take a buffer the pool has made whose cursor is at or
past the end of its content.  `ReadAll` runs its loop on the reset buffer,
of length 0 and cursor 0; with a source that keeps the contract of
`io.Reader` and makes progress, and fuel for `size + 1` passes, it returns, the
bytes it returns are exactly the bytes the source delivered during the call,
and the cursor is 0 afterwards. -/
theorem Run.readAll_at_end (num size : Int) (h0 : Heap) (w : World) (hr : Run num size h0 w)
    (x : Nat) (xv : Buffer) (hx : h0.bufs.length ≤ x) (hxv : w.heap.bufs[x]? = some xv)
    (hend : xv.off ≥ (xv.buf.len : Int)) {σ : Type} (rd : Reader σ) (hl : Lawful rd)
    (hp : Progress rd) (s : σ) (fuel : Nat) (hfuel : size.toNat + 1 ≤ fuel) :
    xv.ReadAll rd fuel w.heap.mem s = Buffer.readAllLoop rd fuel xv.Reset w.heap.mem s ∧
    xv.Reset.buf.len = 0 ∧ xv.Reset.off = 0 ∧
    ∃ res, xv.ReadAll (traced rd) fuel w.heap.mem (s, [], 0) = .ok res ∧
      xv.ReadAll rd fuel w.heap.mem s = .ok res.untraced ∧
      res.ret.bytes res.mem = res.src.2.1 ∧ res.b.off = 0 := by
  obtain ⟨_, _, _, _, _, hok⟩ := run_inv num size h0 w hr
  obtain ⟨hs, hoff, hwf⟩ := hok.1 x xv hx hxv
  have hlen : xv.buf.len = 0 := by omega
  have hreset : xv.Reset = xv := by
    obtain ⟨⟨ptr, len, cap⟩, next, off, sz⟩ := xv
    simp only at hoff hlen
    subst hoff hlen
    rfl
  refine ⟨?_, rfl, rfl, ?_⟩
  · unfold Buffer.ReadAll
    split
    · rfl
    · rw [hreset]
  · obtain ⟨res, h1, h2, h3, h4⟩ := Buffer.readAll_by_guard rd hl hp xv w.heap.mem s fuel hwf
      (by rw [hs]; exact hfuel)
    refine ⟨res, h1, h2, ?_, ?_⟩
    · by_cases hc : xv.off ≥ xv.size
      · exact (h3 hc).1
      · rw [(h4 (by omega)).1]
        simp [Buffer.Bytes, Slice.bytes, hlen]
    · by_cases hc : xv.off ≥ xv.size
      · exact (h3 hc).2
      · rw [(h4 (by omega)).2, hoff]

theorem Run.readAll_at_end_witness :
    Run 2 3 emptyHeap world1r ∧ emptyHeap.bufs.length ≤ 0 ∧
    world1r.heap.bufs[0]? = some ⟨⟨0, 0, 6⟩, some 1, 0, 3⟩ ∧
    (Buffer.mk ⟨0, 0, 6⟩ (some 1) 0 3).off ≥ ((Buffer.mk ⟨0, 0, 6⟩ (some 1) 0 3).buf.len : Int) ∧
    Lawful BytesReader.Read ∧ Progress BytesReader.Read ∧ (3 : Int).toNat + 1 ≤ 4 ∧
    (Buffer.ReadAll BytesReader.Read 4 ⟨⟨0, 0, 6⟩, some 1, 0, 3⟩ world1r.heap.mem
        (BytesReader.new [1]) =
      Buffer.readAllLoop BytesReader.Read 4 (Buffer.Reset ⟨⟨0, 0, 6⟩, some 1, 0, 3⟩)
        world1r.heap.mem (BytesReader.new [1]) ∧
    (Buffer.Reset ⟨⟨0, 0, 6⟩, some 1, 0, 3⟩).buf.len = 0 ∧
    (Buffer.Reset ⟨⟨0, 0, 6⟩, some 1, 0, 3⟩).off = 0 ∧
    ∃ res, Buffer.ReadAll (traced BytesReader.Read) 4 ⟨⟨0, 0, 6⟩, some 1, 0, 3⟩
        world1r.heap.mem (BytesReader.new [1], [], 0) = .ok res ∧
      Buffer.ReadAll BytesReader.Read 4 ⟨⟨0, 0, 6⟩, some 1, 0, 3⟩ world1r.heap.mem
        (BytesReader.new [1]) = .ok res.untraced ∧
      res.ret.bytes res.mem = res.src.2.1 ∧ res.b.off = 0) :=
  ⟨run_world1r, by decide, by decide, by decide, bytesReader_lawful, bytesReader_progress,
    by decide,
    Run.readAll_at_end 2 3 emptyHeap world1r run_world1r 0 ⟨⟨0, 0, 6⟩, some 1, 0, 3⟩
      (by decide) (by decide) (by decide) BytesReader.Read bytesReader_lawful
      bytesReader_progress (BytesReader.new [1]) 4 (by decide)⟩

end Gmmpool
